import Mathlib

/-!
# ruckusweb: wire codecs, envelope and login

A shallow embedding of the scalar codecs (`wiretypes.go`, `wlans.go`), of the
request envelope (`client.go`) and of the login (`login.go`) of package
`ruckusweb`, together with the parts of the Go standard library they call
(`strconv`, `bytes`, `net`, `regexp`). What the HTTP exchange and the XML and HTML
decoders return is an input of the functions that call them.

Conventions:

* a Go `[]byte` or `string` is a `List Char`, one `Char` per byte;
* a `uint64` is a `Nat` (reduced `% 2^64` where the Go operation can wrap),
  an `int64` and a `time.Time` of whole Unix seconds is an `Int`;
* a Go `error` result is an `Option GoError`, `none` being `nil`;
* a loop whose bound is not syntactic carries a fuel argument and returns
  `none` when the fuel runs out.
-/

namespace Ruckusweb

/-- Type `xmsg` (`client.go`): the structured error of a response envelope. The field
`Type` of the source is `Type_` here. -/
structure xmsg where
  Type_ : String
  Msg : String
  Name : String
  Lmsg : String
  deriving DecidableEq, Repr

/-- Go error values that the package can return. `invalidNumber` and
`outOfRange` are `strconv.ErrSyntax` and `strconv.ErrRange` (wrapped in a
`*strconv.NumError`), `errorsNew` is `errors.New`, `errorf` is
`fmt.Errorf(msg + "%v", cause)`, `addrError` is `*net.AddrError`, `errorfQuoted` is
`fmt.Errorf(msg + "%q", text)`, `errorfInt` is `fmt.Errorf(msg + "%d", n)` and
`xmsgError` is an `*xmsg` returned as an error. -/
inductive GoError where
  | invalidNumber : GoError
  | outOfRange : GoError
  | errorsNew (msg : String) : GoError
  | errorf (msg : String) (cause : GoError) : GoError
  | addrError (msg : String) (addr : List Char) : GoError
  | errorfQuoted (msg : String) (text : List Char) : GoError
  | errorfInt (msg : String) (n : Int) : GoError
  | xmsgError (x : xmsg) : GoError
  deriving DecidableEq, Repr

/-! ## Package `strconv` -/

namespace Strconv

/-- The constant `digits`, indexed: `digits[d]`. -/
def digitAt (d : Nat) : Char :=
  "0123456789abcdefghijklmnopqrstuvwxyz".toList.getD d '0'

/-- The conversion loop of `formatBits` (general case): the digits of `u` are
written right to left in front of `a`.
`for u >= b { i--; q := u / b; a[i] = digits[u-q*b]; u = q }; i--; a[i] = digits[u]`.
The fuel is the size of Go's scratch array (64 digits). -/
def formatBitsLoop (base : Nat) : Nat → Nat → List Char → List Char
  | 0, u, a => digitAt u :: a
  | fuel + 1, u, a =>
    if u ≥ base then formatBitsLoop base fuel (u / base) (digitAt (u % base) :: a)
    else digitAt u :: a

/-- Function `formatBits(dst, u, base, neg, true)` without the `dst` part: when
`neg`, `u` is negated as a `uint64` and a minus sign is put in front. -/
def formatBits (u : Nat) (base : Nat) (neg : Bool) : List Char :=
  let u := if neg then (2 ^ 64 - u) % 2 ^ 64 else u
  let a := formatBitsLoop base 64 u []
  if neg then '-' :: a else a

/-- Function `strconv.AppendUint(dst, i, base)`. -/
def AppendUint (dst : List Char) (i : Nat) (base : Nat) : List Char :=
  dst ++ formatBits i base false

/-- Function `strconv.AppendInt(dst, i, base)`: `formatBits(dst, uint64(i), base, i < 0, true)`. -/
def AppendInt (dst : List Char) (i : Int) (base : Nat) : List Char :=
  dst ++ formatBits (i % 2 ^ 64).toNat base (decide (i < 0))

/-- The value of a byte as a digit in `ParseUint`:
`'0'..'9'` give `c - '0'`, letters give `lower(c) - 'a' + 10` with
`lower(c) = c | ('x' - 'X')`, anything else is a syntax error (`none`). -/
def digitVal (c : Char) : Option Nat :=
  if 48 ≤ c.toNat ∧ c.toNat ≤ 57 then some (c.toNat - 48)
  else if 97 ≤ (c.toNat ||| 32) ∧ (c.toNat ||| 32) ≤ 122 then some ((c.toNat ||| 32) - 97 + 10)
  else none

/-- The digit loop of `ParseUint` for an explicit base (no underscores). -/
def parseUintLoop (base cutoff maxVal : Nat) : List Char → Nat → Nat × Option GoError
  | [], n => (n, none)
  | c :: cs, n =>
    match digitVal c with
    | none => (0, some GoError.invalidNumber)
    | some d =>
      if d ≥ base then (0, some GoError.invalidNumber)
      else if n ≥ cutoff then (maxVal, some GoError.outOfRange)
      else
        let n := (n * base) % 2 ^ 64
        let n1 := (n + d) % 2 ^ 64
        if n1 < n ∨ n1 > maxVal then (maxVal, some GoError.outOfRange)
        else parseUintLoop base cutoff maxVal cs n1

/-- Function `strconv.ParseUint(s, base, bitSize)` for `2 ≤ base ≤ 36` and
`1 ≤ bitSize ≤ 64`. Returns the value together with the error. -/
def ParseUint (s : List Char) (base : Nat) (bitSize : Nat) : Nat × Option GoError :=
  if s = [] then (0, some GoError.invalidNumber)
  else parseUintLoop base ((2 ^ 64 - 1) / base + 1) (2 ^ bitSize - 1) s 0

/-- Conversion `int64(u)` of a `uint64`. -/
def toInt64 (u : Nat) : Int :=
  if u % 2 ^ 64 < 2 ^ 63 then ((u % 2 ^ 64 : Nat) : Int) else ((u % 2 ^ 64 : Nat) : Int) - 2 ^ 64

/-- Negation `-n` of an `int64`, wrapping. -/
def negInt64 (n : Int) : Int :=
  toInt64 ((-n) % 2 ^ 64).toNat

/-- Function `strconv.ParseInt(s, base, bitSize)` for `2 ≤ base ≤ 36` and
`1 ≤ bitSize ≤ 64`. -/
def ParseInt (s : List Char) (base : Nat) (bitSize : Nat) : Int × Option GoError :=
  match s with
  | [] => (0, some GoError.invalidNumber)
  | c :: cs =>
    let neg : Bool := decide (c = '-')
    let s1 := if c = '+' then cs else if c = '-' then cs else c :: cs
    let r := ParseUint s1 base bitSize
    if r.2 ≠ none ∧ r.2 ≠ some GoError.outOfRange then (0, r.2)
    else
      let un := r.1
      let cutoff := 2 ^ (bitSize - 1)
      if neg = false ∧ un ≥ cutoff then (((cutoff - 1 : Nat) : Int), some GoError.outOfRange)
      else if neg = true ∧ un > cutoff then (-((cutoff : Nat) : Int), some GoError.outOfRange)
      else
        let n := toInt64 un
        (if neg then negInt64 n else n, none)

end Strconv

/-! ## Package `bytes` -/

namespace Bytes

/-- Function `bytes.IndexByte(s, c)`, `none` for `-1`. -/
def IndexByte : List Char → Char → Option Nat
  | [], _ => none
  | b :: bs, c => if b = c then some 0 else (IndexByte bs c).map (· + 1)

/-- The loop of `genSplit` for a one-byte separator, `n` counting the cuts
still allowed: `for i < n { m := Index(s, sep); if m < 0 { break };
a[i] = s[:m]; s = s[m+1:]; i++ }; a[i] = s`. -/
def genSplitLoop (sep : Char) : Nat → List Char → List (List Char)
  | 0, s => [s]
  | n + 1, s =>
    match IndexByte s sep with
    | none => [s]
    | some m => s.take m :: genSplitLoop sep n (s.drop (m + 1))

/-- Function `bytes.SplitN(s, []byte{sep}, n)` for `n ≥ 0`:
`genSplit(s, sep, 0, n)`. -/
def SplitN (s : List Char) (sep : Char) (n : Nat) : List (List Char) :=
  if n = 0 then []
  else
    let n := if n > s.length + 1 then s.length + 1 else n
    genSplitLoop sep (n - 1) s

end Bytes

/-! ## Package `net` -/

namespace Net

/-- The constant `hexDigit`, indexed: `hexDigit[d]`. -/
def hexDigitAt (d : Nat) : Char :=
  "0123456789abcdef".toList.getD d '0'

/-- Method `net.HardwareAddr.String`: the bytes as two hex digits each,
separated by colons; the empty text for an empty address. -/
def HardwareAddrString (a : List Nat) : List Char :=
  if a.length = 0 then []
  else
    a.enum.foldl (fun buf ib =>
      let buf := if ib.1 > 0 then buf ++ [':'] else buf
      let buf := buf ++ [hexDigitAt (ib.2 >>> 4)]
      buf ++ [hexDigitAt (ib.2 &&& 15)]) []

/-- The loop of `xtoi` on the state `(n, i)`: reads hex digits until the first
byte that is none; `none` is the early return `0, i, false` taken when
`n >= big` (`big = 0xFFFFFF`). -/
def xtoiLoop : List Char → Nat → Nat → Option (Nat × Nat)
  | [], n, i => some (n, i)
  | c :: cs, n, i =>
    if 48 ≤ c.toNat ∧ c.toNat ≤ 57 then
      let n := n * 16 + (c.toNat - 48)
      if n ≥ 16777215 then none else xtoiLoop cs n (i + 1)
    else if 97 ≤ c.toNat ∧ c.toNat ≤ 102 then
      let n := n * 16 + (c.toNat - 97) + 10
      if n ≥ 16777215 then none else xtoiLoop cs n (i + 1)
    else if 65 ≤ c.toNat ∧ c.toNat ≤ 70 then
      let n := n * 16 + (c.toNat - 65) + 10
      if n ≥ 16777215 then none else xtoiLoop cs n (i + 1)
    else some (n, i)

/-- Function `xtoi(s)`: number, characters consumed, success. -/
def xtoi (s : List Char) : Nat × Nat × Bool :=
  match xtoiLoop s 0 0 with
  | none => (0, 0, false)
  | some (n, i) => if i = 0 then (0, i, false) else (n, i, true)

/-- Function `xtoi2(s, e)`: the next two hex digits of `s` as a byte; when `s`
is longer than two bytes the third must be `e`. -/
def xtoi2 (s : List Char) (e : Char) : Nat × Bool :=
  if s.length > 2 ∧ s.getD 2 ' ' ≠ e then (0, false)
  else
    let r := xtoi (s.take 2)
    (r.1 % 256, r.2.2 && decide (r.2.1 = 2))

/-- The loop `for x, i := 0, 0; i < n; i++` of the colon and dash form of
`ParseMAC`, on the rest `s[x:]` of the text; `none` is `goto error`. -/
def parseMACLoop3 (e : Char) : Nat → List Char → Option (List Nat)
  | 0, _ => some []
  | n + 1, s =>
    match xtoi2 s e with
    | (_, false) => none
    | (b, true) => (parseMACLoop3 e n (s.drop 3)).map (fun hw => b :: hw)

/-- The loop `for x, i := 0, 0; i < n; i += 2` of the dotted form of
`ParseMAC`, `n` counting the pairs still to read. -/
def parseMACLoop5 (e : Char) : Nat → List Char → Option (List Nat)
  | 0, _ => some []
  | n + 1, s =>
    match xtoi2 (s.take 2) (Char.ofNat 0) with
    | (_, false) => none
    | (b0, true) =>
      match xtoi2 (s.drop 2) e with
      | (_, false) => none
      | (b1, true) => (parseMACLoop5 e n (s.drop 5)).map (fun hw => b0 :: b1 :: hw)

/-- Function `net.ParseMAC(s)`, for the forms written with a separator: pairs of
hexadecimal digits joined by `:` or `-`, and groups of four joined by `.`. -/
def ParseMAC (s : List Char) : Option (List Nat) × Option GoError :=
  let failure : Option (List Nat) × Option GoError :=
    (none, some (GoError.addrError "invalid MAC address" s))
  if s.length < 14 then failure
  else if s.getD 2 ' ' = ':' ∨ s.getD 2 ' ' = '-' then
    if (s.length + 1) % 3 ≠ 0 then failure
    else
      let n := (s.length + 1) / 3
      if n ≠ 6 ∧ n ≠ 8 ∧ n ≠ 20 then failure
      else
        match parseMACLoop3 (s.getD 2 ' ') n s with
        | none => failure
        | some hw => (some hw, none)
  else if s.getD 4 ' ' = '.' then
    if (s.length + 1) % 5 ≠ 0 then failure
    else
      let n := 2 * (s.length + 1) / 5
      if n ≠ 6 ∧ n ≠ 8 ∧ n ≠ 20 then failure
      else
        match parseMACLoop5 (s.getD 4 ' ') (n / 2) s with
        | none => failure
        | some hw => (some hw, none)
  else failure

end Net

/-! ## Weekly schedule (`wlans.go`) -/

/-- Type `WlanScheduleDay`: `[96]bool`. -/
abbrev WlanScheduleDay := Fin 96 → Bool

/-- Type `WlanSchedule`: `[7]WlanScheduleDay`. -/
abbrev WlanSchedule := Fin 7 → WlanScheduleDay

namespace WlanSchedule

/-- Element `day[i]` for the index of a `range` loop. -/
def bitAt (day : WlanScheduleDay) (i : Nat) : Bool :=
  if h : i < 96 then day ⟨i, h⟩ else false

/-- Element `s[d]` for the index of a `range` loop. -/
def dayAt (s : WlanSchedule) (d : Nat) : WlanScheduleDay :=
  if h : d < 7 then s ⟨d, h⟩ else fun _ => false

/-- Assignment `s[d][k] = v`. -/
def set (s : WlanSchedule) (d k : Nat) (v : Bool) : WlanSchedule :=
  fun d1 k1 => if d1.val = d ∧ k1.val = k then v else s d1 k1

/-- Body of the inner loop of `String`, on the state `(buffer, word)`. -/
def stringBit (day : WlanScheduleDay) (st : List Char × Nat) (i : Nat) : List Char × Nat :=
  let buffer := st.1
  let word := if bitAt day i then (st.2 ||| (1 <<< (i % 24))) % 2 ^ 64 else st.2
  if i % 24 = 23 then
    let buffer := if buffer.length > 0 then buffer ++ [':'] else buffer
    let buffer := buffer ++ ['0', 'x']
    let buffer := Strconv.AppendUint buffer word 16
    (buffer, 0)
  else (buffer, word)

/-- Body of the outer loop of `String`: `var word uint64` and the loop over
the 96 bits of one day. -/
def stringDay (buffer : List Char) (day : WlanScheduleDay) : List Char :=
  ((List.range 96).foldl (stringBit day) (buffer, 0)).1

/-- Method `WlanSchedule.String`. -/
def String (s : WlanSchedule) : List Char :=
  (List.range 7).foldl (fun buffer d => stringDay buffer (dayAt s d)) []

/-- Body of `for j := 0; j < 24; j++` in `UnmarshalXML`, on the state
`(s, word)`, for word number `i`. -/
def fanStep (i : Nat) (st : WlanSchedule × Nat) (j : Nat) : WlanSchedule × Nat :=
  (set st.1 (i / 4) ((i % 4) * 24 + j) (decide (st.2 &&& 1 ≠ 0)), st.2 >>> 1)

/-- The loop `for i, bWord := range words` of `UnmarshalXML`, from word number
`i` on. Returns the schedule as it stands when the loop ends or returns. -/
def unmarshalWords : WlanSchedule → Nat → List (List Char) → WlanSchedule × Option GoError
  | s, _, [] => (s, none)
  | s, i, bWord :: rest =>
    if bWord.length < 3 ∨ bWord.getD 0 ' ' ≠ '0' ∨ bWord.getD 1 ' ' ≠ 'x' then
      (s, some (GoError.errorsNew "invalid WLAN schedule: invalid word"))
    else
      match Strconv.ParseUint (bWord.drop 2) 16 64 with
      | (_, some err) => (s, some (GoError.errorf "invalid WLAN schedule: invalid word: " err))
      | (word, none) =>
        let st := (List.range 24).foldl (fanStep i) (s, word)
        if st.2 ≠ 0 then
          (st.1, some (GoError.errorsNew "invalid WLAN schedule: word has too many bits"))
        else unmarshalWords st.1 (i + 1) rest

/-- Method `WlanSchedule.UnmarshalXML` up to the final `d.DecodeElement`, which
only consumes the element: `value` is the `value` attribute of the start
element (`none` when there is none), the result is `*s` and the error. -/
def UnmarshalXML (s : WlanSchedule) (value : Option (List Char)) : WlanSchedule × Option GoError :=
  match value with
  | none => (s, some (GoError.errorsNew "invalid WLAN schedule: no value attribute"))
  | some text =>
    let words := Bytes.SplitN text ':' 28
    if words.length < 28 then
      (s, some (GoError.errorsNew "invalid WLAN schedule: not enough words"))
    else unmarshalWords s 0 words

end WlanSchedule

/-! ## Scalar codecs (`wiretypes.go`) -/

/-- Type `MacAddress`: a `net.HardwareAddr`, a slice of bytes. -/
abbrev MacAddress := List Nat

/-- Method `MacAddress.MarshalText`. -/
def MacAddress.MarshalText (m : MacAddress) : List Char × Option GoError :=
  (Net.HardwareAddrString m, none)

/-- Method `MacAddress.UnmarshalText`: `*m` afterwards and the error. -/
def MacAddress.UnmarshalText (m : MacAddress) (text : List Char) : MacAddress × Option GoError :=
  match Net.ParseMAC text with
  | (some addr, none) => (addr, none)
  | (_, some err) => (m, some err)
  | (none, none) => (m, none)

/-- Type `Timestamp`: a `time.Time`, here its Unix time in seconds. -/
abbrev Timestamp := Int

/-- Method `Timestamp.MarshalText`. The result of `strconv.AppendInt` is
dropped by the source, and `buffer` is returned as it was declared. -/
def Timestamp.MarshalText (t : Timestamp) : List Char × Option GoError :=
  let buffer : List Char := []
  let _unused := Strconv.AppendInt buffer t 10
  (buffer, none)

/-- Method `Timestamp.UnmarshalText`: `*t` afterwards and the error;
`time.Unix(n, 0)` is the instant `n`. -/
def Timestamp.UnmarshalText (t : Timestamp) (text : List Char) : Timestamp × Option GoError :=
  match Strconv.ParseInt text 10 64 with
  | (_, some err) => (t, some err)
  | (n, none) => (n, none)

/-- The search `for i := 0; i < 15 && i < len(text); i++ { if text[i] == ',' {
this = text[:i]; text = text[i+1:]; break } }` with `limit` for the 15:
`some (this, text)` when a comma was found, `none` when `this` stays `nil`. -/
def cutComma : Nat → List Char → Option (List Char × List Char)
  | 0, _ => none
  | _ + 1, [] => none
  | limit + 1, c :: cs =>
    if c = ',' then some ([], cs)
    else (cutComma limit cs).map (fun p => (c :: p.1, p.2))

/-- Type `ByteTimeSeriesRecord`. -/
structure ByteTimeSeriesRecord where
  At : Int
  Bytes : Nat
  deriving DecidableEq, Repr

/-- Type `ByteTimeSeries`. -/
abbrev ByteTimeSeries := List ByteTimeSeriesRecord

/-- Method `ByteTimeSeries.MarshalText`. -/
def ByteTimeSeries.MarshalText (ts : ByteTimeSeries) : List Char × Option GoError :=
  (ts.enum.foldl (fun buffer ir =>
    let buffer := if ir.1 > 0 then buffer ++ [','] else buffer
    let buffer := Strconv.AppendInt buffer ir.2.At 10
    let buffer := buffer ++ [',']
    Strconv.AppendUint buffer ir.2.Bytes 10) [], none)

/-- The loop `for len(text) > 0` of `ByteTimeSeries.UnmarshalText`; every round
shortens `text`, so its length is enough fuel. The error of the second
`ParseUint` is dropped by the source. -/
def ByteTimeSeries.unmarshalLoop :
    Nat → ByteTimeSeries → List Char → Option (ByteTimeSeries × Option GoError)
  | 0, ts, text => if text.length > 0 then none else some (ts, none)
  | fuel + 1, ts, text =>
    if text.length > 0 then
      match cutComma 15 text with
      | none => some (ts, some (GoError.errorsNew "invalid time series: odd number of elements"))
      | some (this, text) =>
        match Strconv.ParseInt this 10 64 with
        | (_, some err) => some (ts, some err)
        | (atSec, none) =>
          let cut := match cutComma 15 text with
            | some p => p
            | none => (text, [])
          let value := (Strconv.ParseUint cut.1 10 64).1
          unmarshalLoop fuel (ts ++ [ByteTimeSeriesRecord.mk atSec value]) cut.2
    else some (ts, none)

/-- Method `ByteTimeSeries.UnmarshalText`: `*ts` afterwards and the error. -/
def ByteTimeSeries.UnmarshalText (ts : ByteTimeSeries) (text : List Char) :
    Option (ByteTimeSeries × Option GoError) :=
  ByteTimeSeries.unmarshalLoop text.length ts text

/-- Type `RssiTimeSeriesRecord`. -/
structure RssiTimeSeriesRecord where
  At : Int
  Excellent : Nat
  Moderate : Nat
  Poor : Nat
  deriving DecidableEq, Repr

/-- Type `RssiTimeSeries`. -/
abbrev RssiTimeSeries := List RssiTimeSeriesRecord

/-- Method `RssiTimeSeries.MarshalText`. -/
def RssiTimeSeries.MarshalText (ts : RssiTimeSeries) : List Char × Option GoError :=
  (ts.enum.foldl (fun buffer ir =>
    let buffer := if ir.1 > 0 then buffer ++ [','] else buffer
    let buffer := Strconv.AppendInt buffer ir.2.At 10
    let buffer := buffer ++ [',']
    let buffer := Strconv.AppendUint buffer ir.2.Excellent 10
    let buffer := buffer ++ [',']
    let buffer := Strconv.AppendUint buffer ir.2.Moderate 10
    let buffer := buffer ++ [',']
    Strconv.AppendUint buffer ir.2.Poor 10) [], none)

/-- The loop `for partIdx := 0; partIdx < 4; partIdx++` of
`RssiTimeSeries.UnmarshalText` from `partIdx` on, `n` counting the rounds
left; `parts` is the array read by index. Returns `parts` and the rest of the
text, or the error returned from inside the loop. -/
def RssiTimeSeries.partsLoop :
    Nat → Nat → (Nat → Nat) → List Char → Except GoError ((Nat → Nat) × List Char)
  | 0, _, parts, text => Except.ok (parts, text)
  | n + 1, partIdx, parts, text =>
    let cut : Option (List Char × List Char) :=
      match cutComma 15 text with
      | some p => some p
      | none => if partIdx = 3 then some (text, []) else none
    match cut with
    | none =>
      Except.error (GoError.errorsNew "invalid time series: number of elements not divisible by 4")
    | some (this, text) =>
      match Strconv.ParseUint this 10 64 with
      | (_, some err) => Except.error err
      | (v, none) =>
        partsLoop n (partIdx + 1) (fun k => if k = partIdx then v else parts k) text

/-- The loop `for len(text) > 0` of `RssiTimeSeries.UnmarshalText`. -/
def RssiTimeSeries.unmarshalLoop :
    Nat → RssiTimeSeries → List Char → Option (RssiTimeSeries × Option GoError)
  | 0, ts, text => if text.length > 0 then none else some (ts, none)
  | fuel + 1, ts, text =>
    if text.length > 0 then
      match RssiTimeSeries.partsLoop 4 0 (fun _ => 0) text with
      | Except.error err => some (ts, some err)
      | Except.ok (parts, text) =>
        unmarshalLoop fuel (ts ++ [RssiTimeSeriesRecord.mk (Strconv.toInt64 (parts 0))
          (parts 1 % 2 ^ 32) (parts 2 % 2 ^ 32) (parts 3 % 2 ^ 32)]) text
    else some (ts, none)

/-- Method `RssiTimeSeries.UnmarshalText`: `*ts` afterwards and the error. -/
def RssiTimeSeries.UnmarshalText (ts : RssiTimeSeries) (text : List Char) :
    Option (RssiTimeSeries × Option GoError) :=
  RssiTimeSeries.unmarshalLoop text.length ts text

end Ruckusweb

namespace Ruckusweb

/-! ## Reference notions used to state the properties -/

namespace Bytes

/-- Function `bytes.Count(s, []byte{sep})`. -/
def Count : List Char → Char → Nat
  | [], _ => 0
  | b :: bs, c => (if b = c then 1 else 0) + Count bs c

/-- Function `bytes.Split(s, []byte{sep})`: `genSplit(s, sep, 0, -1)`, where
`n < 0` is replaced by `Count(s, sep) + 1`. -/
def Split (s : List Char) (sep : Char) : List (List Char) :=
  genSplitLoop sep (Count s sep) s

end Bytes

namespace WlanSchedule

/-- The number whose bit `j` is set iff `day[24*c + j]` is true, for `j < r`. -/
def wordBits (day : WlanScheduleDay) (c : Nat) : Nat → Nat
  | 0 => 0
  | r + 1 => if bitAt day (24 * c + r) then wordBits day c r ||| (1 <<< r) else wordBits day c r

/-- The value of word number `4*d + c` of a schedule: bit `j` is slot
`24*c + j` of day `d`. -/
def wordOf (s : WlanSchedule) (d c : Nat) : Nat :=
  wordBits (dayAt s d) c 24

/-- The text of a word: `0x` and the lowercase hexadecimal numeral without
leading zeros. -/
def wordText (w : Nat) : List Char :=
  '0' :: 'x' :: Nat.toDigits 16 w

/-- What `String` does to `buffer` when a word is complete. -/
def emitWord (buffer : List Char) (w : Nat) : List Char :=
  Strconv.AppendUint ((if buffer.length > 0 then buffer ++ [':'] else buffer) ++ ['0', 'x']) w 16

end WlanSchedule

end Ruckusweb

namespace Ruckusweb

namespace WlanSchedule

/-- A word that the loop of `UnmarshalXML` rejects: shorter than three bytes, not
starting with `0x`, not a hexadecimal `uint64`, or with a bit above position 23. -/
def rejected (w : List Char) : Prop :=
  w.length < 3 ∨ w.getD 0 ' ' ≠ '0' ∨ w.getD 1 ' ' ≠ 'x'
    ∨ (Strconv.ParseUint (w.drop 2) 16 64).2 ≠ none
    ∨ 2 ^ 24 ≤ (Strconv.ParseUint (w.drop 2) 16 64).1

end WlanSchedule

end Ruckusweb

namespace Ruckusweb

/-- A decimal token: a non-empty run of the digits `0` to `9`. -/
def isDecimal (t : List Char) : Bool :=
  !t.isEmpty && t.all (fun c => decide (48 ≤ c.toNat ∧ c.toNat ≤ 57))

/-- Tokens written one after the other with a comma between neighbours. -/
def joinComma : List (List Char) → List Char
  | [] => []
  | [t] => t
  | t :: u :: rest => t ++ ',' :: joinComma (u :: rest)

end Ruckusweb

namespace Ruckusweb

/-- The two tokens of a byte record as `MarshalText` writes them. -/
def ByteTimeSeries.tokens (r : ByteTimeSeriesRecord) : List (List Char) :=
  [Strconv.AppendInt [] r.At 10, Strconv.AppendUint [] r.Bytes 10]

/-- The four tokens of a signal-quality record as `MarshalText` writes them. -/
def RssiTimeSeries.tokens (r : RssiTimeSeriesRecord) : List (List Char) :=
  [Strconv.AppendInt [] r.At 10, Strconv.AppendUint [] r.Excellent 10,
    Strconv.AppendUint [] r.Moderate 10, Strconv.AppendUint [] r.Poor 10]

end Ruckusweb

namespace Ruckusweb

/-- The records that complete groups of four tokens stand for: the time is the
first token read as a `uint64` and converted to `int64`, the three counts are the
next tokens reduced to `uint32`; an incomplete last group gives no record. -/
def RssiTimeSeries.ofTokens : List (List Char) → RssiTimeSeries
  | t0 :: t1 :: t2 :: t3 :: rest =>
    RssiTimeSeriesRecord.mk (Strconv.toInt64 (Strconv.ParseUint t0 10 64).1)
      ((Strconv.ParseUint t1 10 64).1 % 2 ^ 32) ((Strconv.ParseUint t2 10 64).1 % 2 ^ 32)
      ((Strconv.ParseUint t3 10 64).1 % 2 ^ 32) :: RssiTimeSeries.ofTokens rest
  | _ => []

end Ruckusweb

namespace Ruckusweb

/-! ## Booleans (`wiretypes.go`) -/

/-- Type `EnabledBool`. -/
abbrev EnabledBool := Bool

/-- Method `EnabledBool.MarshalText`. -/
def EnabledBool.MarshalText (b : EnabledBool) : List Char × Option GoError :=
  if b then ("enabled".toList, none) else ("disabled".toList, none)

/-- Method `EnabledBool.UnmarshalText`: `*b` afterwards and the error. -/
def EnabledBool.UnmarshalText (b : EnabledBool) (text : List Char) :
    EnabledBool × Option GoError :=
  if text = "enabled".toList then (true, none)
  else if text = "disabled".toList then (false, none)
  else (b, some (GoError.errorfQuoted "invalid EnabledBool: " text))

/-- Type `IntBool`. -/
abbrev IntBool := Bool

/-- Method `IntBool.MarshalText`. -/
def IntBool.MarshalText (b : IntBool) : List Char × Option GoError :=
  if b then ("1".toList, none) else ("0".toList, none)

/-- Method `IntBool.UnmarshalText`: `*b` afterwards and the error. -/
def IntBool.UnmarshalText (b : IntBool) (text : List Char) : IntBool × Option GoError :=
  if text.length = 1 then
    if text.getD 0 ' ' = '1' then (true, none)
    else if text.getD 0 ' ' = '0' then (false, none)
    else (b, some (GoError.errorfQuoted "invalid IntBool: " text))
  else (b, some (GoError.errorfQuoted "invalid IntBool: " text))

/-! ## Queue priority (`wlans.go`) -/

/-- Type `innerWlanQueuePriority`. -/
structure innerWlanQueuePriority where
  Voice : Int
  Video : Int
  Data : Int
  Background : Int
  deriving DecidableEq, Repr

/-- Variable `innerWlanQueuePriorityHigh`. -/
def innerWlanQueuePriorityHigh : innerWlanQueuePriority := ⟨0, 2, 4, 6⟩

/-- Variable `innerWlanQueuePriorityLow`. -/
def innerWlanQueuePriorityLow : innerWlanQueuePriority := ⟨1, 3, 5, 7⟩

/-- An XML element without content: its name and its attributes in order. -/
structure XmlElement where
  name : String
  attrs : List (String × List Char)
  deriving DecidableEq, Repr

/-- What `e.EncodeElement(&v, se)` of `encoding/xml` writes for an
`innerWlanQueuePriority`: the fields tagged `attr` become attributes, in the order
of the struct, with the integers written by `strconv.FormatInt(_, 10)`. -/
def innerWlanQueuePriority.EncodeElement (v : innerWlanQueuePriority) (name : String) :
    XmlElement :=
  ⟨name, [("voice", Strconv.AppendInt [] v.Voice 10), ("video", Strconv.AppendInt [] v.Video 10),
    ("data", Strconv.AppendInt [] v.Data 10),
    ("background", Strconv.AppendInt [] v.Background 10)]⟩

/-- What `d.DecodeElement(&i, &se)` of `encoding/xml` reads into an
`innerWlanQueuePriority`, for attribute values without surrounding white space: each
attribute whose name is that of a field is copied into the field, as 0 when the value
is empty and parsed with `strconv.ParseInt(_, 10, 64)` otherwise; other attributes are
skipped, the first parse error is returned. -/
def innerWlanQueuePriority.DecodeElement :
    innerWlanQueuePriority → List (String × List Char) → innerWlanQueuePriority × Option GoError
  | i, [] => (i, none)
  | i, (key, val) :: rest =>
    if key = "voice" ∨ key = "video" ∨ key = "data" ∨ key = "background" then
      match (if val = [] then ((0 : Int), none) else Strconv.ParseInt val 10 64) with
      | (_, some err) => (i, some err)
      | (n, none) =>
        innerWlanQueuePriority.DecodeElement
          (if key = "voice" then { i with Voice := n }
           else if key = "video" then { i with Video := n }
           else if key = "data" then { i with Data := n }
           else { i with Background := n }) rest
    else innerWlanQueuePriority.DecodeElement i rest

/-- Type `WlanQueuePriority`: true is high, false is low. -/
abbrev WlanQueuePriority := Bool

/-- Method `WlanQueuePriority.UnmarshalXML`; `decoded` is what
`d.DecodeElement(&i, &se)` left in `i` and returned. -/
def WlanQueuePriority.UnmarshalXML (p : WlanQueuePriority)
    (decoded : innerWlanQueuePriority × Option GoError) : WlanQueuePriority × Option GoError :=
  match decoded.2 with
  | some err => (p, some err)
  | none =>
    if decoded.1 = innerWlanQueuePriorityHigh then (true, none)
    else if decoded.1 = innerWlanQueuePriorityLow then (false, none)
    else (p, some (GoError.errorsNew "wlan queue priority is neither HIGH nor LOW"))

/-- Method `WlanQueuePriority.MarshalXML`; `name` is the name of the start element. -/
def WlanQueuePriority.MarshalXML (p : WlanQueuePriority) (name : String) :
    XmlElement × Option GoError :=
  if p then (innerWlanQueuePriority.EncodeElement innerWlanQueuePriorityHigh name, none)
  else (innerWlanQueuePriority.EncodeElement innerWlanQueuePriorityLow name, none)

end Ruckusweb

namespace Ruckusweb

/-! ## Envelope (`client.go`) -/

/-- An `*http.Response` as far as `postXml` looks at it. -/
structure HttpResponse where
  StatusCode : Int
  Body : List Char
  deriving DecidableEq, Repr

/-- What the calls made by `postXml` return during one call: `c.getCsrfToken(ctx)`,
`xml.Marshal(request)`, `c.newRequestWithContext(...)`, `c.c.Do(req)`, the error of
`io.ReadAll` and `xml.NewDecoder(bytes.NewReader(data)).Decode(response)`. -/
structure PostXmlEnv (ρ δ : Type) where
  getCsrfToken : String × Option GoError
  marshal : ρ → List Char × Option GoError
  newRequest : Option GoError
  doRequest : HttpResponse × Option GoError
  readAll : Option GoError
  decode : List Char → δ → δ × Option GoError

/-- The outcome of `postXml`: `*response` afterwards, the error, the bytes read from
the body (`none` when the body was not read) and whether the decoder was run. -/
structure PostXmlResult (δ : Type) where
  response : δ
  err : Option GoError
  read : Option (List Char)
  decoded : Bool

/-- Method `Client.postXml`. `io.ReadAll(io.LimitReader(resp.Body, 10<<20))` reads
the first `10<<20` bytes of the body, or all of it when it is shorter. -/
def Client.postXml {ρ δ : Type} (env : PostXmlEnv ρ δ) (request : ρ) (response : δ) :
    PostXmlResult δ :=
  match env.getCsrfToken.2 with
  | some err => ⟨response, some err, none, false⟩
  | none =>
    match (env.marshal request).2 with
    | some err => ⟨response, some err, none, false⟩
    | none =>
      match env.newRequest with
      | some err => ⟨response, some err, none, false⟩
      | none =>
        match env.doRequest.2 with
        | some err => ⟨response, some err, none, false⟩
        | none =>
          let resp := env.doRequest.1
          if resp.StatusCode ≠ 200 then
            ⟨response, some (GoError.errorfInt "XML post returned status code " resp.StatusCode),
              none, false⟩
          else
            let data := resp.Body.take (10 <<< 20)
            match env.readAll with
            | some err => ⟨response, some err, some data, false⟩
            | none =>
              let r := env.decode data response
              ⟨r.1, r.2, some data, true⟩

/-- Type `confReq`. -/
structure confReq where
  Action : String
  DECRYPTX : String
  Comp : String
  deriving DecidableEq, Repr

/-- The request envelope built by `conf` (element `ajax-request`). -/
structure ajaxRequest where
  Action : String
  DECRYPTX : String
  Updater : String
  Comp : String
  Payload : List Char
  deriving DecidableEq, Repr

/-- The response envelope decoded by `conf`: the fields of `resp.Response`. The
field `Type` of the source is `Type_` here. -/
structure confResponse where
  Type_ : String
  ID : String
  Xmsg : Option xmsg
  Raw : List Char
  deriving DecidableEq, Repr

/-- The value `req` built by `conf`: `payload` is the result of
`xml.Marshal(requestPayload)`, `none` when `requestPayload` is `nil`. -/
def Client.confEnvelope (request : confReq) (payload : Option (List Char × Option GoError)) :
    ajaxRequest :=
  let payloadBytes : List Char := match payload with
    | some (bytes, _) => bytes
    | none => []
  ⟨request.Action, request.DECRYPTX, "", request.Comp, payloadBytes⟩

/-- Method `Client.conf`. `payload` is the result of `xml.Marshal(requestPayload)`,
`none` when `requestPayload` is `nil`; `response` is the destination, `none` when it
is `nil`; `unmarshal` is `xml.Unmarshal`. Returns the destination afterwards and the
error. -/
def Client.conf {δ : Type} (env : PostXmlEnv ajaxRequest confResponse)
    (request : confReq) (payload : Option (List Char × Option GoError))
    (unmarshal : List Char → δ → δ × Option GoError) (response : Option δ) :
    Option δ × Option GoError :=
  match payload with
  | some (_, some err) => (response, some err)
  | _ =>
    let req := Client.confEnvelope request payload
    let post := Client.postXml env req (confResponse.mk "" "" none [])
    match post.err with
    | some err => (response, some err)
    | none =>
      match post.response.Xmsg with
      | some x => (response, some (GoError.xmsgError x))
      | none =>
        match response with
        | some dest =>
          let r := unmarshal post.response.Raw dest
          (some r.1, r.2)
        | none => (none, none)

/-- An exchange for `postXml`: every call succeeds, the status is 200, the body is
the element `<r/>` followed by `n` blanks, and the decoder, like
`xml.Decoder.Decode`, reads one element from the front of the data and ignores what
follows it. The destination is a flag that the decoder sets. -/
def postXmlPadded (n : Nat) : PostXmlEnv Unit Bool where
  getCsrfToken := ("token", none)
  marshal := fun _ => ([], none)
  newRequest := none
  doRequest := (⟨200, "<r/>".toList ++ List.replicate n ' '⟩, none)
  readAll := none
  decode := fun data dest =>
    if data.take 4 = "<r/>".toList then (true, none)
    else (dest, some (GoError.errorsNew "XML syntax error"))

/-! ## Login (`login.go`) -/

/-- Type `loginResult`. -/
structure loginResult where
  privilege : String
  version : String
  csrfToken : String
  deriving DecidableEq, Repr

/-- Type `Credentials`. -/
structure Credentials where
  Username : String
  Password : String
  deriving DecidableEq, Repr

/-- Type `Client`: the fields guarded by the mutex, and the cookie jar of the
`http.Client` as the list of cookies it returns for a host. -/
structure Client where
  host : String
  credentials : Credentials
  loginResult : loginResult
  jar : String → List String

/-- Type `html.NodeType`. -/
inductive NodeType where
  | ErrorNode | TextNode | DocumentNode | ElementNode | CommentNode | DoctypeNode | RawNode
  deriving DecidableEq, Repr

/-- Type `html.Attribute`. -/
structure Attribute where
  Namespace : String
  Key : String
  Val : String
  deriving DecidableEq, Repr

/-- Type `html.Node`: its type, data and attributes, and its children from
`FirstChild` along `NextSibling`. -/
inductive Node where
  | mk (Type_ : NodeType) (Data : String) (Attr : List Attribute) (children : List Node) : Node

namespace Node

/-- Field `Type` of a node. -/
def Type_ : Node → NodeType
  | mk t _ _ _ => t

/-- Field `Data` of a node. -/
def Data : Node → String
  | mk _ d _ _ => d

/-- Field `Attr` of a node. -/
def Attr : Node → List Attribute
  | mk _ _ a _ => a

/-- The children of a node, in order. -/
def children : Node → List Node
  | mk _ _ _ c => c

end Node

mutual
/-- The number of nodes of a tree. -/
def Node.size : Node → Nat
  | Node.mk _ _ _ c => 1 + Node.sizeList c
/-- The number of nodes of a list of trees. -/
def Node.sizeList : List Node → Nat
  | [] => 0
  | n :: ns => n.size + Node.sizeList ns
end

/-- The loop over the children of the first script element:
`if child.Type == html.TextNode { scriptTag += child.Data }`. -/
def scriptText (node : Node) : String :=
  node.children.foldl
    (fun scriptTag child =>
      if child.Type_ = NodeType.TextNode then scriptTag ++ child.Data else scriptTag) ""

/-- The loop over the attributes of a meta element, on `(httpEquiv, content)`. -/
def metaAttrs (attrs : List Attribute) : String × String :=
  attrs.foldl
    (fun st attr =>
      if attr.Key = "http-equiv" then (attr.Val, st.2)
      else if attr.Key = "content" then (st.1, attr.Val)
      else st) ("", "")

/-- What the body of the search loop of `doLogin` does with a node: `script` is the
`break` with the text collected, `authFailed` the `return` with the content of an
`X-Auth` meta element, `next` the step to the next node of the queue. -/
inductive Visit where
  | script (text : String)
  | authFailed (content : String)
  | next
  deriving DecidableEq, Repr

/-- The two tests of the body of the search loop. -/
def visit (node : Node) : Visit :=
  if node.Type_ = NodeType.ElementNode ∧ node.Data = "script" then Visit.script (scriptText node)
  else if node.Type_ = NodeType.ElementNode ∧ node.Data = "meta"
      ∧ (metaAttrs node.Attr).1 = "X-Auth" then
    Visit.authFailed (metaAttrs node.Attr).2
  else Visit.next

/-- The loop `for len(queue) > 0` of `doLogin`: `some Visit.next` when the queue
runs empty, `none` when the fuel runs out first. -/
def bfsLoop : Nat → List Node → Option Visit
  | 0, [] => some Visit.next
  | 0, _ :: _ => none
  | _ + 1, [] => some Visit.next
  | fuel + 1, node :: queue =>
    match visit node with
    | Visit.next => bfsLoop fuel (queue ++ node.children)
    | r => some r

/-- The order in which a breadth-first traversal with a queue takes the nodes, when
it never stops early. -/
def bfsOrder : Nat → List Node → List Node
  | 0, _ => []
  | _ + 1, [] => []
  | fuel + 1, node :: queue => node :: bfsOrder fuel (queue ++ node.children)

namespace Regexp

/-- The rest of `s` after the literal `lit`, when `s` starts with it. -/
def stripLit : List Char → List Char → Option (List Char)
  | [], s => some s
  | _ :: _, [] => none
  | l :: ls, c :: cs => if l = c then stripLit ls cs else none

/-- A match of `lit([^"]+)close` at the start of `s`: after the literal, the group
takes bytes other than `"`, as many as possible (it is greedy), at least one, such
that the byte after the group is `close`. Returns the text of the group. -/
def matchAt (lit : List Char) (close : Char) (s : List Char) : Option (List Char) :=
  match stripLit lit s with
  | none => none
  | some rest =>
    let run := rest.takeWhile (fun c => decide (c ≠ '"'))
    match (List.range (run.length + 1)).reverse.find?
        (fun k => decide (1 ≤ k) && decide (rest.get? k = some close)) with
    | some k => some (rest.take k)
    | none => none

/-- Method `FindStringSubmatch` of the regular expression `lit([^"]+)close`, reduced
to the text `m[1]` of the group: the match that starts leftmost in `s`; `none` when
`m == nil`. -/
def FindStringSubmatch (lit : List Char) (close : Char) : List Char → Option (List Char)
  | [] => matchAt lit close []
  | c :: cs =>
    match matchAt lit close (c :: cs) with
    | some g => some g
    | none => FindStringSubmatch lit close cs

end Regexp

/-- Variable `rePrivilege`, applied. -/
def rePrivilege (s : String) : Option String :=
  (Regexp.FindStringSubmatch "var privilege = \"".toList '"' s.toList).map String.mk

/-- Variable `reFrameVersion`, applied. -/
def reFrameVersion (s : String) : Option String :=
  (Regexp.FindStringSubmatch "var frameVersion = \"".toList '"' s.toList).map String.mk

/-- Variable `reCsfrToken`, applied. -/
def reCsfrToken (s : String) : Option String :=
  (Regexp.FindStringSubmatch "var csfrToken = '".toList (Char.ofNat 39) s.toList).map String.mk

/-- What the HTTP exchange of one `doLogin` call produced: the error of `c.postForm`,
the error of `html.Parse`, the parsed document, and the host and the cookie jar as the
redirect policy and the `http.Client` left them. -/
structure LoginExchange where
  postErr : Option GoError
  parseErr : Option GoError
  doc : Node
  host : String
  jar : String → List String

/-- The end of `doLogin`, from `if scriptTag == ""` on. -/
def Client.finishLogin (c : Client) (scriptTag : String) :
    Client × Option Ruckusweb.loginResult × Option GoError :=
  if scriptTag = "" then (c, none, some (GoError.errorsNew "login failed: bad response"))
  else
    let result : Ruckusweb.loginResult := ⟨"", "", ""⟩
    let result := match rePrivilege scriptTag with
      | some m => { result with privilege := m }
      | none => result
    let result := match reFrameVersion scriptTag with
      | some m => { result with version := m }
      | none => result
    let result := match reCsfrToken scriptTag with
      | some m => { result with csrfToken := m }
      | none => result
    ({ c with loginResult := result }, some result, none)

/-- Method `Client.doLogin`: the client afterwards, the result and the error; `none`
only if the search loop ran out of fuel. -/
def Client.doLogin (ex : LoginExchange) (c : Client) :
    Option (Client × Option Ruckusweb.loginResult × Option GoError) :=
  let c := { c with host := ex.host, jar := ex.jar }
  match ex.postErr with
  | some err => some (c, none, some err)
  | none =>
    match ex.parseErr with
    | some err => some (c, none, some err)
    | none =>
      match bfsLoop ex.doc.size [ex.doc] with
      | none => none
      | some (Visit.authFailed content) =>
        some (c, none, some (GoError.errorfQuoted "login failed: " content.toList))
      | some (Visit.script scriptTag) => some (Client.finishLogin c scriptTag)
      | some Visit.next => some (Client.finishLogin c "")

/-- Method `Client.getCsrfToken`: the client afterwards, the token, the error and the
number of calls of `doLogin`. -/
def Client.getCsrfToken (ex : LoginExchange) (c : Client) :
    Option (Client × String × Option GoError × Nat) :=
  let token := c.loginResult.csrfToken
  let host := c.host
  if token ≠ "" ∧ (c.jar host).length > 0 then some (c, token, none, 0)
  else
    match Client.doLogin ex c with
    | none => none
    | some (c1, r, err) =>
      let token := match r with
        | some r => r.csrfToken
        | none => ""
      some (c1, token, err, 1)

end Ruckusweb

namespace Ruckusweb

/-- A script element, as the search loop of `doLogin` tests it. -/
def Node.isScript (n : Node) : Prop :=
  n.Type_ = NodeType.ElementNode ∧ n.Data = "script"

/-- The value of the attribute `key` of a node: the value of the last attribute of
that name in the start tag, and the empty string when the node has no such
attribute. -/
def Node.attrValue (n : Node) (key : String) : String :=
  match n.Attr.reverse.find? (fun a => decide (a.Key = key)) with
  | some a => a.Val
  | none => ""

/-- A meta element whose `http-equiv` attribute is `X-Auth`. -/
def Node.isAuthMeta (n : Node) : Prop :=
  n.Type_ = NodeType.ElementNode ∧ n.Data = "meta" ∧ n.attrValue "http-equiv" = "X-Auth"

end Ruckusweb

namespace Ruckusweb

/-- A login page that answers with an authentication failure: in breadth-first order
the document, `html`, `head`, `body`, then the `X-Auth` meta element of the head, and
only then the script element, which lies one level deeper. -/
def authFailedPage : Node :=
  Node.mk NodeType.DocumentNode "" []
    [Node.mk NodeType.ElementNode "html" []
      [Node.mk NodeType.ElementNode "head" []
        [Node.mk NodeType.ElementNode "meta"
          [⟨"", "http-equiv", "X-Auth"⟩, ⟨"", "content", "Invalid login"⟩] []],
       Node.mk NodeType.ElementNode "body" []
        [Node.mk NodeType.ElementNode "div" []
          [Node.mk NodeType.ElementNode "script" []
            [Node.mk NodeType.TextNode "var csfrToken = 'tok';" [] []]]]]]

/-- A login page that answers with the script of a session: the script carries the
privilege and the token in two text nodes, and no frame version. -/
def loggedInPage : Node :=
  Node.mk NodeType.DocumentNode "" []
    [Node.mk NodeType.ElementNode "html" []
      [Node.mk NodeType.ElementNode "head" []
        [Node.mk NodeType.ElementNode "script" []
          [Node.mk NodeType.TextNode "var privilege = \"admin\"; " [] [],
           Node.mk NodeType.TextNode "var csfrToken = 'tok';" [] []]],
       Node.mk NodeType.ElementNode "body" [] []]]

end Ruckusweb

namespace Ruckusweb

/-! ## Redirect policy (`client.go`) -/

/-- Function `NewClient`: the client before any request, with an empty cookie jar. -/
def NewClient (host : String) (credentials : Credentials) : Client :=
  ⟨host, credentials, ⟨"", "", ""⟩, fun _ => []⟩

/-- The function `client.c.CheckRedirect` installed by `NewClient`: `reqHost` is
`req.URL.Host`, `via` is `len(via)`. Returns the client afterwards and the error. -/
def Client.CheckRedirect (c : Client) (reqHost : String) (via : Nat) :
    Client × Option GoError :=
  if via ≥ 10 then (c, some (GoError.errorsNew "stopped after 10 redirects"))
  else
    let c := if reqHost ≠ c.host then { c with host := reqHost } else c
    (c, none)

/-- The redirect loop of `http.Client`: for each redirect target in turn it calls
`CheckRedirect(req, via)` with `via` the requests made so far (`made` of them, the
original request included) and stops at the first error. Returns the client
afterwards, the error and the number of redirects followed. -/
def Client.followRedirects : Client → Nat → List String → Client × Option GoError × Nat
  | c, _, [] => (c, none, 0)
  | c, made, target :: rest =>
    match Client.CheckRedirect c target made with
    | (c1, some err) => (c1, some err, 0)
    | (c1, none) =>
      let r := Client.followRedirects c1 (made + 1) rest
      (r.1, r.2.1, r.2.2 + 1)

/-! ## WLAN records (`wlans.go`) -/

/-- Variable `reAllHex`, applied with `MatchString`: the pattern
`\A[0-9a-zA-Z]+\z` matches the non-empty texts of ASCII letters and digits. -/
def reAllHexMatchString (s : List Char) : Bool :=
  !s.isEmpty && s.all (fun c =>
    decide ((48 ≤ c.toNat ∧ c.toNat ≤ 57) ∨ (97 ≤ c.toNat ∧ c.toNat ≤ 122)
      ∨ (65 ≤ c.toNat ∧ c.toNat ≤ 90)))

/-- The test `strings.HasPrefix(passphrase, " ") || strings.HasSuffix(passphrase, " ")`. -/
def startsOrEndsWithSpace (passphrase : List Char) : Bool :=
  decide (passphrase.head? = some ' ') || decide (passphrase.getLast? = some ' ')

/-- Function `validSAE`. -/
def validSAE (key : String) (passphrase : List Char) : Option GoError :=
  if passphrase.length < 8 then some (GoError.errorsNew ("invalid " ++ key ++ ": too short"))
  else if passphrase.length > 63 then
    some (GoError.errorsNew ("invalid " ++ key ++ ": too long"))
  else if startsOrEndsWithSpace passphrase then
    some (GoError.errorsNew ("invalid " ++ key ++ ": must not start or end with a space"))
  else none

/-- Function `validPSK`. -/
def validPSK (key : String) (passphrase : List Char) : Option GoError :=
  if passphrase.length < 8 then some (GoError.errorsNew ("invalid " ++ key ++ ": too short"))
  else if (passphrase.length = 64 ∧ reAllHexMatchString passphrase = false)
      ∨ passphrase.length > 63 then
    some (GoError.errorsNew ("invalid " ++ key ++ ": too long"))
  else if startsOrEndsWithSpace passphrase then
    some (GoError.errorsNew ("invalid " ++ key ++ ": must not start or end with a space"))
  else none

/-- Type `WlanWpa`. -/
structure WlanWpa where
  XPassphrase : List Char
  Passphrase : List Char
  Cipher : String
  XSaePassphrase : List Char
  SaePassphrase : List Char
  DynamicPsk : EnabledBool
  DynamicPskLen : String
  DpskType : String
  deriving DecidableEq, Repr

/-- Method `WlanWpa.validate`. -/
def WlanWpa.validate (w : WlanWpa) (needsPSK needsSAE : Bool) : Option GoError :=
  let err : Option GoError := none
  let err :=
    if needsPSK then
      let err := if err = none then validPSK "Passphrase" w.Passphrase else err
      if err = none then validPSK "XPassphrase" w.XPassphrase else err
    else err
  let err :=
    if needsSAE then
      let err := if err = none then validSAE "SaePassphrase" w.Passphrase else err
      if err = none then validSAE "XSaePassphrase" w.XPassphrase else err
    else err
  err

/-- Type `WlanQos`. -/
structure WlanQos where
  UplinkPreset : String
  DownlinkPreset : String
  PerssidUplinkPreset : Int
  PerssidDownlinkPreset : Int
  deriving DecidableEq, Repr

/-- Type `Wlan`, with the fields that `NewWlan` sets; every other field of the source
has its zero value in the result of `NewWlan`. The enumerations `Authentication` and
`EnableType` are their integer values. -/
structure Wlan where
  Name : String
  Ssid : String
  Description : String
  Usage : String
  Authentication : Int
  AcctUpdInterval : Int
  VlanID : Int
  MaxClientsPerRadio : Int
  EnableType : Int
  AclID : Int
  Do80211d : EnabledBool
  ForceDhcpTimeout : Int
  MaxIdleTimeout : Int
  IdleTimeout : Bool
  DtimPeriod : Int
  DirectedMbc : Int
  Wifi6 : Bool
  TxRateConfig : Int
  StaInfoExtraction : IntBool
  PrecedenceID : Int
  QueuePriority : WlanQueuePriority
  Qos : WlanQos
  deriving DecidableEq, Repr

/-- Function `NewWlan`. -/
def NewWlan (name : String) : Wlan where
  Name := name
  Ssid := name
  Description := name
  Usage := "user"
  Authentication := 0
  AcctUpdInterval := 10
  VlanID := 1
  MaxClientsPerRadio := 100
  EnableType := 0
  AclID := 1
  Do80211d := true
  ForceDhcpTimeout := 10
  MaxIdleTimeout := 300
  IdleTimeout := true
  DtimPeriod := 1
  DirectedMbc := 1
  Wifi6 := true
  TxRateConfig := 1
  StaInfoExtraction := true
  PrecedenceID := 1
  QueuePriority := true
  Qos := ⟨"DISABLE", "DISABLE", 0, 0⟩

/-! ## Decimal numerals -/

/-- The value of a run of decimal digits read after the value `n`. -/
def decimalValueFrom : Nat → List Char → Nat
  | n, [] => n
  | n, c :: cs => decimalValueFrom (n * 10 + (c.toNat - 48)) cs

/-- The value of a decimal numeral. -/
def decimalValue (s : List Char) : Nat :=
  decimalValueFrom 0 s

/-- The leading decimal digits of a text. -/
def digitRun (s : List Char) : List Char :=
  s.takeWhile (fun c => decide (48 ≤ c.toNat ∧ c.toNat ≤ 57))

end Ruckusweb

namespace Ruckusweb

/-! ## The patterns of `login.go`, by the rules of `regexp` -/

namespace Regexp

/-- The pattern `lit([^"]+)close` matches at the start of `s` with the group `g`: `s`
starts with the literal, then comes `g`, which is not empty and holds no `"`, then
the byte `close`. -/
def MatchesAt (lit : List Char) (close : Char) (s g : List Char) : Prop :=
  g ≠ [] ∧ '"' ∉ g ∧ ∃ post, s = lit ++ (g ++ close :: post)

/-- The pattern `lit([^"]+)close` matches somewhere in `s`. -/
def Matches (lit : List Char) (close : Char) (s : List Char) : Prop :=
  ∃ pre rest g, s = pre ++ rest ∧ MatchesAt lit close rest g

/-- The text `g` is the group of the match that `regexp` reports for the pattern
`lit([^"]+)close` in `s`: the match starts at the leftmost position where the pattern
matches at all, and since the repetition is greedy the group is the longest one that
matches at that position. -/
def IsSubmatch (lit : List Char) (close : Char) (s g : List Char) : Prop :=
  ∃ pre rest, s = pre ++ rest ∧ MatchesAt lit close rest g
    ∧ (∀ g2, MatchesAt lit close rest g2 → g2.length ≤ g.length)
    ∧ (∀ pre2 rest2 g2, s = pre2 ++ rest2 → MatchesAt lit close rest2 g2 →
        pre.length ≤ pre2.length)

/-- The value `field` is the capture of the pattern `lit([^"]+)close` in `s` if the
pattern matches, and the empty string otherwise. -/
def Captured (lit : List Char) (close : Char) (s : List Char) (field : String) : Prop :=
  (Matches lit close s → IsSubmatch lit close s field.toList)
    ∧ (¬ Matches lit close s → field = "")

end Regexp

/-- A login page whose first script carries all three variables. -/
def sessionPage : Node :=
  Node.mk NodeType.DocumentNode "" []
    [Node.mk NodeType.ElementNode "html" []
      [Node.mk NodeType.ElementNode "head" []
        [Node.mk NodeType.ElementNode "script" []
          [Node.mk NodeType.TextNode
            "var privilege = \"admin\"; var frameVersion = \"10.5\"; var csfrToken = 'tok';"
            [] []]],
       Node.mk NodeType.ElementNode "body" [] []]]

/-! ## The response envelope of `conf`, as `encoding/xml` decodes it -/

/-- An element as the tokenizer of `encoding/xml` delivers it: the local name of the
start tag, its attributes (local name and value) in order, the raw bytes between the
start tag and the end tag, and the child elements in order. -/
inductive XmlTree where
  | mk (name : String) (attrs : List (String × String)) (inner : List Char)
      (children : List XmlTree) : XmlTree

namespace XmlTree

/-- The local name of the start tag. -/
def name : XmlTree → String
  | mk n _ _ _ => n

/-- The attributes of the start tag. -/
def attrs : XmlTree → List (String × String)
  | mk _ a _ _ => a

/-- The raw bytes between the start tag and the end tag. -/
def inner : XmlTree → List Char
  | mk _ _ i _ => i

/-- The child elements. -/
def children : XmlTree → List XmlTree
  | mk _ _ _ c => c

end XmlTree

namespace Xml

/-- The attribute loop of `Decoder.unmarshal` on the struct `resp.Response` of `conf`,
whose fields tagged `attr` are `Type` (`type`), `ID` (`id`) and `Xmsg` (`xmsg`). For
the attribute `xmsg` the function `unmarshalAttr` allocates the `xmsg` the pointer
refers to and then calls `copyValue`, which has no case for a struct and returns the
error `cannot unmarshal into ruckusweb.xmsg`. Other attributes match no field. -/
def unmarshalResponseAttrs : List (String × String) → confResponse →
    confResponse × Option GoError
  | [], r => (r, none)
  | a :: rest, r =>
    if a.1 = "type" then unmarshalResponseAttrs rest { r with Type_ := a.2 }
    else if a.1 = "id" then unmarshalResponseAttrs rest { r with ID := a.2 }
    else if a.1 = "xmsg" then
      ({ r with Xmsg := some (match r.Xmsg with
          | some x => x
          | none => ⟨"", "", "", ""⟩) },
        some (GoError.errorsNew "cannot unmarshal into ruckusweb.xmsg"))
    else unmarshalResponseAttrs rest r

/-- Method `Decoder.unmarshal` on the struct `resp.Response` for one element
`response`: the attributes are assigned first; the struct has no field for a child
element, so every child is skipped, an `xmsg` child included; at the end tag the raw
bytes between the tags go to `Raw` (the field tagged `innerxml`). -/
def unmarshalResponse (e : XmlTree) (r : confResponse) : confResponse × Option GoError :=
  match unmarshalResponseAttrs e.attrs r with
  | (r1, some err) => (r1, some err)
  | (r1, none) => ({ r1 with Raw := e.inner }, none)

/-- The loop of `Decoder.unmarshal` over the children of the element `ajax-response`:
a child named `response` is decoded into `resp.Response`, every other child is
skipped. -/
def unmarshalChildren : List XmlTree → confResponse → confResponse × Option GoError
  | [], r => (r, none)
  | e :: rest, r =>
    if e.name = "response" then
      match unmarshalResponse e r with
      | (r1, some err) => (r1, some err)
      | (r1, none) => unmarshalChildren rest r1
    else unmarshalChildren rest r

/-- The call `xml.NewDecoder(bytes.NewReader(data)).Decode(&resp)` that `postXml` makes
for `conf`. The tokenizer is `firstElement`: it gives the first element of the data,
or the error (a syntax error, or `io.EOF` when the data holds no element). The name of
the element is checked against the tag of `XMLName`. After an error `conf` does not
look at `resp` any more. -/
def decodeConf (firstElement : List Char → Except GoError XmlTree) (data : List Char)
    (resp : confResponse) : confResponse × Option GoError :=
  match firstElement data with
  | Except.error err => (resp, some err)
  | Except.ok e =>
    if e.name ≠ "ajax-response" then
      (resp, some (GoError.errorsNew
        ("expected element type <ajax-response> but have <" ++ e.name ++ ">")))
    else unmarshalChildren e.children resp

end Xml

/-- The raw payload of the response `confErrorBody`: a result element and a structured
error element. -/
def confErrorRaw : String :=
  "<ok v=\"7\"/><xmsg type=\"error\" msg=\"bad\" name=\"n\" lmsg=\"worse\"/>"

/-- A response body of `/admin/_conf.jsp` that carries a structured error element
next to a result element. -/
def confErrorBody : String :=
  "<ajax-response><response type=\"object\" id=\"1\">" ++ confErrorRaw
    ++ "</response></ajax-response>"

/-- The element that the tokenizer reads from `confErrorBody`. -/
def confErrorTree : XmlTree :=
  XmlTree.mk "ajax-response" []
    ("<response type=\"object\" id=\"1\">" ++ confErrorRaw ++ "</response>").toList
    [XmlTree.mk "response" [("type", "object"), ("id", "1")] confErrorRaw.toList
      [XmlTree.mk "ok" [("v", "7")] [] [],
       XmlTree.mk "xmsg" [("type", "error"), ("msg", "bad"), ("name", "n"), ("lmsg", "worse")]
        [] []]]

/-- A response body that carries the structured error as the attribute `xmsg` of the
element `response`, which is where the struct tag of `Xmsg` looks for it. -/
def confAttrBody : String :=
  "<ajax-response><response type=\"object\" id=\"1\" xmsg=\"bad\"><ok v=\"7\"/>"
    ++ "</response></ajax-response>"

/-- The element that the tokenizer reads from `confAttrBody`. -/
def confAttrTree : XmlTree :=
  XmlTree.mk "ajax-response" []
    "<response type=\"object\" id=\"1\" xmsg=\"bad\"><ok v=\"7\"/></response>".toList
    [XmlTree.mk "response" [("type", "object"), ("id", "1"), ("xmsg", "bad")]
      "<ok v=\"7\"/>".toList
      [XmlTree.mk "ok" [("v", "7")] [] []]]

/-- The tokenizer on the two bodies above; other data is not used. -/
def confFirstElement (data : List Char) : Except GoError XmlTree :=
  if data = confErrorBody.toList then Except.ok confErrorTree
  else if data = confAttrBody.toList then Except.ok confAttrTree
  else Except.error (GoError.errorsNew "XML syntax error")

/-- An exchange of `conf` in which every call succeeds and the server answers with
status 200 and the given body. -/
def confExchange (body : String) : PostXmlEnv ajaxRequest confResponse where
  getCsrfToken := ("token", none)
  marshal := fun _ => ([], none)
  newRequest := none
  doRequest := (⟨200, body.toList⟩, none)
  readAll := none
  decode := Xml.decodeConf confFirstElement

end Ruckusweb

/-! # Properties -/

namespace Ruckusweb

/-! ## `strconv`: formatting and parsing are inverse -/

namespace Strconv

theorem digitVal_digitAt (d : Nat) (h : d < 36) : digitVal (digitAt d) = some d := by
  interval_cases d <;> rfl

theorem digitAt_ne_sep (d : Nat) (h : d < 36) :
    digitAt d ≠ ',' ∧ digitAt d ≠ ':' ∧ digitAt d ≠ '-' ∧ digitAt d ≠ '+' := by
  interval_cases d <;> decide

theorem digitAt_eq_digitChar (d : Nat) (h : d < 16) : digitAt d = Nat.digitChar d := by
  interval_cases d <;> rfl

theorem formatBitsLoop_acc (base : Nat) (fuel u : Nat) (a : List Char) :
    formatBitsLoop base fuel u a = formatBitsLoop base fuel u [] ++ a := by
  induction fuel generalizing u a with
  | zero => simp [formatBitsLoop]
  | succ f ih =>
    unfold formatBitsLoop
    split
    · rw [ih (u / base) (digitAt (u % base) :: a), ih (u / base) [digitAt (u % base)]]
      simp
    · simp


theorem formatBitsLoop_ne_nil (base fuel u : Nat) (a : List Char) :
    formatBitsLoop base fuel u a ≠ [] := by
  cases fuel with
  | zero => simp [formatBitsLoop]
  | succ f =>
    unfold formatBitsLoop
    split
    · rw [formatBitsLoop_acc]; simp
    · simp

/-- Every character written by the conversion loop is a digit below the base. -/
theorem formatBitsLoop_mem (base : Nat) (hb : 2 ≤ base) (fuel u : Nat) (hu : u < 2 ^ fuel)
    (c : Char) (hc : c ∈ formatBitsLoop base fuel u []) : ∃ d, d < base ∧ c = digitAt d := by
  induction fuel generalizing u c with
  | zero =>
    simp [formatBitsLoop] at hc
    exact ⟨u, by simp at hu; omega, hc⟩
  | succ f ih =>
    unfold formatBitsLoop at hc
    split at hc
    · rw [formatBitsLoop_acc] at hc
      simp only [List.mem_append, List.mem_singleton] at hc
      rcases hc with hc | hc
      · refine ih (u / base) ?_ c hc
        have : u / base ≤ u / 2 := Nat.div_le_div_left hb (by omega)
        have h2 : u / 2 < 2 ^ f := by rw [Nat.pow_succ] at hu; omega
        omega
      · exact ⟨u % base, Nat.mod_lt _ (by omega), hc⟩
    · simp only [List.mem_singleton] at hc
      exact ⟨u, by omega, hc⟩

theorem parseUintLoop_append (base cutoff maxVal : Nat) (s t : List Char) (n : Nat) :
    parseUintLoop base cutoff maxVal (s ++ t) n =
      match parseUintLoop base cutoff maxVal s n with
      | (m, none) => parseUintLoop base cutoff maxVal t m
      | r => r := by
  induction s generalizing n with
  | nil => simp [parseUintLoop]
  | cons c cs ih =>
    simp only [List.cons_append, parseUintLoop]
    split
    · rfl
    · split
      · rfl
      · split
        · rfl
        · split
          · rfl
          · exact ih _

/-- Parsing what the conversion loop wrote gives the number back. -/
theorem parseUintLoop_formatBitsLoop (base : Nat) (hb : 2 ≤ base) (hb36 : base ≤ 36)
    (fuel u : Nat) (hu : u < 2 ^ fuel) (h64 : u < 2 ^ 64) :
    parseUintLoop base ((2 ^ 64 - 1) / base + 1) (2 ^ 64 - 1) (formatBitsLoop base fuel u []) 0
      = (u, none) := by
  induction fuel generalizing u with
  | zero =>
    have : u = 0 := by simp at hu; omega
    subst this
    simp [formatBitsLoop, parseUintLoop, digitVal_digitAt 0 (by omega)]
    omega
  | succ f ih =>
    unfold formatBitsLoop
    split
    · rename_i hge
      rw [formatBitsLoop_acc, parseUintLoop_append]
      have hdiv : u / base ≤ u / 2 := Nat.div_le_div_left hb (by omega)
      have h2 : u / 2 < 2 ^ f := by rw [Nat.pow_succ] at hu; omega
      rw [ih (u / base) (by omega) (by omega)]
      have hm : u % base < base := Nat.mod_lt _ (by omega)
      have hcut : u / base < (2 ^ 64 - 1) / base + 1 := by
        have : u / base ≤ (2 ^ 64 - 1) / base := Nat.div_le_div_right (by omega)
        omega
      have hmul : u / base * base + u % base = u := Nat.div_add_mod' u base
      have hle : u / base * base ≤ u := by omega
      simp only [parseUintLoop, digitVal_digitAt (u % base) (by omega)]
      rw [if_neg (by omega), if_neg (by omega)]
      have e1 : (u / base * base) % 2 ^ 64 = u / base * base := Nat.mod_eq_of_lt (by omega)
      simp only [e1, hmul, Nat.mod_eq_of_lt h64]
      rw [if_neg (by omega)]
    · rename_i hlt
      simp only [parseUintLoop, digitVal_digitAt u (by omega)]
      rw [if_neg (by omega), if_neg (Nat.not_le.mpr (Nat.succ_pos _))]
      simp only [Nat.zero_mul, Nat.zero_mod, Nat.zero_add, Nat.mod_eq_of_lt h64]
      rw [if_neg (by omega)]

end Strconv

end Ruckusweb

namespace Ruckusweb

namespace Strconv

theorem formatBitsLoop_length (base : Nat) (hb : 2 ≤ base) (fuel u : Nat) (k : Nat)
    (hu : u < base ^ (k + 1)) : (formatBitsLoop base fuel u []).length ≤ k + 1 := by
  induction fuel generalizing u k with
  | zero => simp [formatBitsLoop]
  | succ f ih =>
    unfold formatBitsLoop
    split
    · rename_i hge
      rw [formatBitsLoop_acc]
      simp only [List.length_append, List.length_singleton]
      cases k with
      | zero => simp at hu; omega
      | succ k =>
        have : u / base < base ^ (k + 1) := by
          rw [Nat.div_lt_iff_lt_mul (by omega)]
          rw [Nat.pow_succ] at hu
          exact hu
        have := ih (u / base) k this
        omega
    · simp

/-- The unsigned decimal or hexadecimal text of a 64-bit number parses back to it. -/
theorem ParseUint_formatBits (base : Nat) (hb : 2 ≤ base) (hb36 : base ≤ 36) (u : Nat)
    (h64 : u < 2 ^ 64) : ParseUint (formatBits u base false) base 64 = (u, none) := by
  simp only [ParseUint, formatBits, Bool.false_eq_true, if_false]
  rw [if_neg (formatBitsLoop_ne_nil _ _ _ _)]
  exact parseUintLoop_formatBitsLoop base hb hb36 64 u h64 h64

theorem formatBits_false_mem (base : Nat) (hb : 2 ≤ base) (u : Nat) (h64 : u < 2 ^ 64)
    (c : Char) (hc : c ∈ formatBits u base false) : ∃ d, d < base ∧ c = digitAt d := by
  simp only [formatBits, Bool.false_eq_true, if_false] at hc
  exact formatBitsLoop_mem base hb 64 u h64 c hc

theorem formatBits_false_length (base : Nat) (hb : 2 ≤ base) (u k : Nat)
    (hu : u < base ^ (k + 1)) : (formatBits u base false).length ≤ k + 1 := by
  simp only [formatBits, Bool.false_eq_true, if_false]
  exact formatBitsLoop_length base hb 64 u k hu

theorem formatBits_false_ne_nil (base u : Nat) : formatBits u base false ≠ [] := by
  simp only [formatBits, Bool.false_eq_true, if_false]
  exact formatBitsLoop_ne_nil _ _ _ _

/-- The conversion loop writes what `Nat.toDigits` writes. -/
theorem formatBitsLoop_eq_toDigitsCore (base : Nat) (hb : 2 ≤ base) (hb16 : base ≤ 16)
    (fuel g u : Nat) (a : List Char) (hu : u < 2 ^ fuel) (hg : u < g) :
    formatBitsLoop base fuel u a = Nat.toDigitsCore base g u a := by
  induction fuel generalizing g u a with
  | zero =>
    have : u = 0 := by simp at hu; omega
    subst this
    cases g with
    | zero => omega
    | succ g => simp [formatBitsLoop, Nat.toDigitsCore, digitAt_eq_digitChar 0 (by omega)]
  | succ f ih =>
    cases g with
    | zero => omega
    | succ g =>
      unfold formatBitsLoop
      simp only [Nat.toDigitsCore]
      have hm : u % base < base := Nat.mod_lt _ (by omega)
      split
      · rename_i hge
        have hpos : u / base ≠ 0 := by
          have : 0 < u / base := Nat.div_pos hge (by omega)
          omega
        rw [if_neg hpos, digitAt_eq_digitChar _ (by omega)]
        have hdiv : u / base ≤ u / 2 := Nat.div_le_div_left hb (by omega)
        have h2 : u / 2 < 2 ^ f := by rw [Nat.pow_succ] at hu; omega
        exact ih g (u / base) _ (by omega) (by omega)
      · rename_i hlt
        have hz : u / base = 0 := Nat.div_eq_of_lt (by omega)
        rw [if_pos hz, Nat.mod_eq_of_lt (by omega), digitAt_eq_digitChar _ (by omega)]

theorem formatBits_eq_toDigits (base : Nat) (hb : 2 ≤ base) (hb16 : base ≤ 16) (u : Nat)
    (h64 : u < 2 ^ 64) : formatBits u base false = Nat.toDigits base u := by
  simp only [formatBits, Bool.false_eq_true, if_false, Nat.toDigits]
  exact formatBitsLoop_eq_toDigitsCore base hb hb16 64 (u + 1) u [] h64 (by omega)

end Strconv

end Ruckusweb

namespace Ruckusweb

namespace Strconv

theorem negInt64_toInt64 (m : Nat) (h0 : 0 < m) (h : m ≤ 2 ^ 63) :
    negInt64 (toInt64 m) = -(m : Int) := by
  have hm : m % 2 ^ 64 = m := Nat.mod_eq_of_lt (by omega)
  by_cases hlt : m < 2 ^ 63
  · have e1 : toInt64 m = (m : Int) := by simp only [toInt64, hm, if_pos hlt]
    have e2 : ((-(m : Int)) % 2 ^ 64).toNat = 2 ^ 64 - m := by omega
    have e3 : (2 ^ 64 - m) % 2 ^ 64 = 2 ^ 64 - m := Nat.mod_eq_of_lt (by omega)
    have e4 : ¬ (2 ^ 64 - m < 2 ^ 63) := by omega
    rw [e1]
    simp only [negInt64, e2, toInt64, e3, if_neg e4]
    omega
  · have hmeq : m = 2 ^ 63 := by omega
    subst hmeq
    decide

theorem toInt64_of_lt (m : Nat) (h : m < 2 ^ 63) : toInt64 m = (m : Int) := by
  have hm : m % 2 ^ 64 = m := Nat.mod_eq_of_lt (by omega)
  simp only [toInt64, hm, if_pos h]

/-- The signed decimal text of a 64-bit integer parses back to it. -/
theorem ParseInt_formatBits (i : Int) (hlo : -(2 ^ 63) ≤ i) (hhi : i < 2 ^ 63) :
    ParseInt (formatBits (i % 2 ^ 64).toNat 10 (decide (i < 0))) 10 64 = (i, none) := by
  by_cases hneg : i < 0
  · have hu : (2 ^ 64 - (i % 2 ^ 64).toNat) % 2 ^ 64 = (-i).toNat := by omega
    have hfmt : formatBits (i % 2 ^ 64).toNat 10 (decide (i < 0))
        = '-' :: formatBits (-i).toNat 10 false := by
      simp only [formatBits, hneg, decide_True, if_true, hu, Bool.false_eq_true, if_false]
    rw [hfmt]
    have hp := ParseUint_formatBits 10 (by omega) (by omega) (-i).toNat (by omega)
    simp only [ParseInt]
    simp [hp]
    have h1 : ¬ (9223372036854775808 < -i) := by omega
    rw [if_neg h1, negInt64_toInt64 (-i).toNat (by omega) (by omega)]
    have h2 : -(((-i).toNat : Nat) : Int) = i := by omega
    rw [h2]
  · have hfmt : formatBits (i % 2 ^ 64).toNat 10 (decide (i < 0))
        = formatBits i.toNat 10 false := by
      have : (i % 2 ^ 64).toNat = i.toNat := by omega
      simp only [formatBits, hneg, decide_False, Bool.false_eq_true, if_false, this]
    rw [hfmt]
    have hp := ParseUint_formatBits 10 (by omega) (by omega) i.toNat (by omega)
    obtain ⟨c, cs, hcs⟩ := List.exists_cons_of_ne_nil (formatBits_false_ne_nil 10 i.toNat)
    have hc : c ∈ formatBits i.toNat 10 false := by rw [hcs]; simp
    obtain ⟨d, hd, hcd⟩ := formatBits_false_mem 10 (by omega) i.toNat (by omega) c hc
    have hsep := digitAt_ne_sep d (by omega)
    rw [← hcd] at hsep
    rw [hcs] at hp ⊢
    simp only [ParseInt, hsep.2.2.1, hsep.2.2.2, if_false, hp]
    simp
    have h1 : ¬ (9223372036854775808 ≤ i.toNat) := by omega
    rw [if_neg h1, toInt64_of_lt i.toNat (by omega)]
    have h2 : ((i.toNat : Nat) : Int) = i := by omega
    rw [h2]

end Strconv

end Ruckusweb

namespace Ruckusweb

namespace WlanSchedule

theorem wordBits_testBit (day : WlanScheduleDay) (c r j : Nat) :
    (wordBits day c r).testBit j = (decide (j < r) && bitAt day (24 * c + j)) := by
  induction r with
  | zero => simp [wordBits]
  | succ r ih =>
    simp only [wordBits]
    split
    · rename_i hb
      rw [Nat.testBit_or, ih, Nat.one_shiftLeft, Nat.testBit_two_pow]
      by_cases h1 : j < r
      · have : ¬ r = j := by omega
        have h2 : j < r + 1 := by omega
        simp [h1, this, h2]
      · by_cases h2 : r = j
        · subst h2; simp [hb]
        · have h3 : ¬ j < r + 1 := by omega
          simp [h1, h2, h3]
    · rename_i hb
      rw [ih]
      by_cases h2 : r = j
      · subst h2; simp [hb]
      · by_cases h1 : j < r
        · have h3 : j < r + 1 := by omega
          simp [h1, h3]
        · have h3 : ¬ j < r + 1 := by omega
          simp [h1, h3]

theorem wordBits_lt (day : WlanScheduleDay) (c r : Nat) : wordBits day c r < 2 ^ r := by
  apply Nat.lt_pow_two_of_testBit
  intro i hi
  rw [wordBits_testBit]
  have : ¬ i < r := by omega
  simp [this]

theorem wordBits_succ (day : WlanScheduleDay) (c r : Nat) :
    wordBits day c (r + 1)
      = if bitAt day (24 * c + r) then wordBits day c r ||| (1 <<< r) else wordBits day c r :=
  rfl

theorem word_step (day : WlanScheduleDay) (c r : Nat) (hr : r < 24) :
    (if bitAt day (24 * c + r) = true then (wordBits day c r ||| 1 <<< r) % 2 ^ 64
      else wordBits day c r) = wordBits day c (r + 1) := by
  have hlt := wordBits_lt day c (r + 1)
  have hpow : (2 : Nat) ^ (r + 1) ≤ 2 ^ 64 := Nat.pow_le_pow_right (by omega) (by omega)
  rw [wordBits_succ] at hlt ⊢
  split
  · rename_i hb
    rw [if_pos hb] at hlt
    rw [Nat.mod_eq_of_lt (by omega)]
  · rfl

theorem stringBit_mid (day : WlanScheduleDay) (c r : Nat) (hr : r < 23) (buf : List Char) :
    stringBit day (buf, wordBits day c r) (24 * c + r) = (buf, wordBits day c (r + 1)) := by
  have hmod : (24 * c + r) % 24 = r := by omega
  simp only [stringBit, hmod]
  rw [if_neg (by omega), word_step day c r (by omega)]

theorem stringBit_last (day : WlanScheduleDay) (c : Nat) (buf : List Char) :
    stringBit day (buf, wordBits day c 23) (24 * c + 23)
      = (emitWord buf (wordBits day c (23 + 1)), 0) := by
  have hmod : (24 * c + 23) % 24 = 23 := by omega
  simp only [stringBit, hmod, if_true, emitWord]
  rw [word_step day c 23 (by omega)]

theorem foldl_chunk_partial (day : WlanScheduleDay) (c r : Nat) (hr : r ≤ 23) (buf : List Char) :
    (List.range' (24 * c) r).foldl (stringBit day) (buf, 0) = (buf, wordBits day c r) := by
  induction r with
  | zero => simp [wordBits]
  | succ r ih =>
    rw [List.range'_1_concat, List.foldl_append, ih (by omega)]
    simp only [List.foldl_cons, List.foldl_nil]
    exact stringBit_mid day c r (by omega) buf

theorem foldl_chunk (day : WlanScheduleDay) (c : Nat) (buf : List Char) :
    (List.range' (24 * c) 24).foldl (stringBit day) (buf, 0)
      = (emitWord buf (wordBits day c 24), 0) := by
  rw [List.range'_1_concat, List.foldl_append, foldl_chunk_partial day c 23 (by omega)]
  simp only [List.foldl_cons, List.foldl_nil]
  exact stringBit_last day c buf

theorem stringDay_eq (buf : List Char) (day : WlanScheduleDay) :
    stringDay buf day =
      emitWord (emitWord (emitWord (emitWord buf (wordBits day 0 24)) (wordBits day 1 24))
        (wordBits day 2 24)) (wordBits day 3 24) := by
  have h : List.range 96 = List.range' (24 * 0) 24 ++ (List.range' (24 * 1) 24
      ++ (List.range' (24 * 2) 24 ++ List.range' (24 * 3) 24)) := by decide
  unfold stringDay
  rw [h, List.foldl_append, List.foldl_append, List.foldl_append, foldl_chunk, foldl_chunk,
    foldl_chunk, foldl_chunk]

end WlanSchedule

end Ruckusweb

namespace Ruckusweb

namespace WlanSchedule

theorem String_eq_foldl (s : WlanSchedule) :
    String s = ((List.range 28).map (fun i => wordOf s (i / 4) (i % 4))).foldl emitWord [] := by
  have h7 : List.range 7 = [0, 1, 2, 3, 4, 5, 6] := by decide
  have h28 : List.range 28 = [0, 1, 2, 3, 4, 5, 6, 7, 8, 9, 10, 11, 12, 13, 14, 15, 16, 17, 18,
      19, 20, 21, 22, 23, 24, 25, 26, 27] := by decide
  unfold String
  rw [h7, h28]
  simp only [List.foldl_cons, List.foldl_nil, stringDay_eq, List.map_cons, List.map_nil]
  rfl

theorem intercalate_cons {α : Type} (sep x : List α) (xs : List (List α)) :
    List.intercalate sep (x :: xs) = x ++ (xs.map (fun y => sep ++ y)).flatten := by
  induction xs generalizing x with
  | nil => simp [List.intercalate]
  | cons y ys ih =>
    have h := ih y
    simp only [List.intercalate, List.intersperse, List.flatten_cons, List.map_cons] at h ⊢
    rw [h, List.append_assoc]

/-- The text of a word as `String` writes it. -/
theorem emitWord_nil (w : Nat) :
    emitWord [] w = '0' :: 'x' :: Strconv.formatBits w 16 false := by
  simp [emitWord, Strconv.AppendUint]

theorem emitWord_ne_nil (buf : List Char) (w : Nat) : emitWord buf w ≠ [] := by
  simp [emitWord, Strconv.AppendUint]

theorem emitWord_of_ne_nil (buf : List Char) (h : buf ≠ []) (w : Nat) :
    emitWord buf w = buf ++ ([':'] ++ ('0' :: 'x' :: Strconv.formatBits w 16 false)) := by
  have : buf.length > 0 := List.length_pos.mpr h
  simp [emitWord, Strconv.AppendUint, this]

theorem foldl_emitWord (ws : List Nat) (buf : List Char) (h : buf ≠ []) :
    ws.foldl emitWord buf
      = buf ++ (ws.map (fun w => [':'] ++ ('0' :: 'x' :: Strconv.formatBits w 16 false))).flatten := by
  induction ws generalizing buf with
  | nil => simp
  | cons w ws ih =>
    simp only [List.foldl_cons, List.map_cons, List.flatten_cons]
    rw [ih _ (emitWord_ne_nil buf w), emitWord_of_ne_nil buf h w]
    simp

theorem foldl_emitWord_nil (ws : List Nat) :
    ws.foldl emitWord []
      = List.intercalate [':']
          (ws.map (fun w => '0' :: 'x' :: Strconv.formatBits w 16 false)) := by
  cases ws with
  | nil => rfl
  | cons w ws =>
    simp only [List.foldl_cons, List.map_cons]
    rw [foldl_emitWord ws _ (emitWord_ne_nil [] w), emitWord_nil, intercalate_cons, List.map_map]
    rfl

theorem wordOf_lt (s : WlanSchedule) (d c : Nat) : wordOf s d c < 2 ^ 24 :=
  wordBits_lt _ _ _

theorem wordText_eq (w : Nat) (h : w < 2 ^ 64) :
    '0' :: 'x' :: Strconv.formatBits w 16 false = wordText w := by
  rw [Strconv.formatBits_eq_toDigits 16 (by omega) (by omega) w h]
  rfl

/-- The text of a schedule is its 28 words joined by colons. -/
theorem String_eq_intercalate (s : WlanSchedule) :
    String s = List.intercalate [':']
      ((List.range 28).map (fun i => wordText (wordOf s (i / 4) (i % 4)))) := by
  rw [String_eq_foldl, foldl_emitWord_nil, List.map_map]
  congr 1
  apply List.map_congr_left
  intro i _
  exact wordText_eq _ (Nat.lt_of_lt_of_le (wordOf_lt s _ _) (by decide))

set_option maxRecDepth 1000000 in
theorem String_blank :
    String (fun _ _ => false) = ("0x0:0x0:0x0:0x0:0x0:0x0:0x0:0x0:0x0:0x0:0x0:0x0:0x0:0x0:" ++
      "0x0:0x0:0x0:0x0:0x0:0x0:0x0:0x0:0x0:0x0:0x0:0x0:0x0:0x0").toList := by
  decide

end WlanSchedule

end Ruckusweb

namespace Ruckusweb

/-! ## `bytes`: splitting -/

namespace Bytes

theorem IndexByte_of_not_mem (s : List Char) (c : Char) (h : c ∉ s) : IndexByte s c = none := by
  induction s with
  | nil => rfl
  | cons b bs ih =>
    simp only [List.mem_cons, not_or] at h
    simp only [IndexByte, if_neg (Ne.symm h.1), ih h.2, Option.map_none']

theorem IndexByte_append (x r : List Char) (c : Char) (h : c ∉ x) :
    IndexByte (x ++ c :: r) c = some x.length := by
  induction x with
  | nil => simp [IndexByte]
  | cons b bs ih =>
    simp only [List.mem_cons, not_or] at h
    rw [List.cons_append, IndexByte, if_neg (Ne.symm h.1), ih h.2]
    rfl

theorem IndexByte_lt (s : List Char) (c : Char) (m : Nat) (h : IndexByte s c = some m) :
    m < s.length := by
  induction s generalizing m with
  | nil => simp [IndexByte] at h
  | cons b bs ih =>
    simp only [IndexByte] at h
    split at h
    · simp at h; subst h; simp
    · cases hi : IndexByte bs c with
      | none => simp [hi] at h
      | some k =>
        simp [hi] at h
        have := ih k hi
        simp only [List.length_cons]
        omega

/-- More cuts than bytes change nothing. -/
theorem genSplitLoop_succ (sep : Char) (k : Nat) (s : List Char) (h : s.length ≤ k) :
    genSplitLoop sep (k + 1) s = genSplitLoop sep k s := by
  induction k generalizing s with
  | zero =>
    have : s = [] := List.length_eq_zero.mp (by omega)
    subst this
    simp [genSplitLoop, IndexByte]
  | succ k ih =>
    rw [genSplitLoop, genSplitLoop]
    cases hi : IndexByte s sep with
    | none => rfl
    | some m =>
      simp only
      have := IndexByte_lt s sep m hi
      rw [ih (s.drop (m + 1)) (by simp only [List.length_drop]; omega)]

theorem genSplitLoop_of_le (sep : Char) (s : List Char) (k : Nat) (h : s.length ≤ k) :
    genSplitLoop sep k s = genSplitLoop sep s.length s := by
  induction k with
  | zero =>
    have : s.length = 0 := by omega
    rw [this]
  | succ k ih =>
    by_cases hk : s.length ≤ k
    · rw [genSplitLoop_succ sep k s hk, ih hk]
    · have : s.length = k + 1 := by omega
      rw [this]

/-- The clamp of `n` to `len(s)+1` in `genSplit` does not change the result. -/
theorem SplitN_succ (s : List Char) (sep : Char) (n : Nat) :
    SplitN s sep (n + 1) = genSplitLoop sep n s := by
  simp only [SplitN, Nat.add_one_ne_zero, if_false]
  split
  · rename_i h
    simp only [Nat.add_sub_cancel]
    exact (genSplitLoop_of_le sep s n (by omega)).symm
  · simp

/-- Splitting a colon-joined list of colon-free words gives the words back. -/
theorem genSplitLoop_join (sep : Char) (k : Nat) (x : List Char) (xs : List (List Char))
    (hx : sep ∉ x) (hxs : ∀ y ∈ xs, sep ∉ y) (hk : xs.length ≤ k) :
    genSplitLoop sep k (x ++ (xs.map (fun y => sep :: y)).flatten) = x :: xs := by
  induction xs generalizing x k with
  | nil =>
    simp only [List.map_nil, List.flatten_nil, List.append_nil]
    cases k with
    | zero => rfl
    | succ k => simp [genSplitLoop, IndexByte_of_not_mem x sep hx]
  | cons y ys ih =>
    cases k with
    | zero => simp at hk
    | succ k =>
      rw [List.map_cons, List.flatten_cons, List.cons_append, genSplitLoop,
        IndexByte_append x _ sep hx]
      have hd : List.drop (x.length + 1) (x ++ sep :: (y ++ (List.map (fun y => sep :: y) ys).flatten))
          = y ++ (List.map (fun y => sep :: y) ys).flatten := by
        rw [List.drop_append_eq_append_drop]
        simp
      simp only
      rw [List.take_left' rfl, hd]
      rw [ih k y (hxs y (by simp)) (fun z hz => hxs z (by simp [hz])) (by simpa using hk)]

end Bytes

end Ruckusweb

namespace Ruckusweb

namespace WlanSchedule

theorem lowBit_eq_testBit (w n : Nat) : decide ((w >>> n) &&& 1 ≠ 0) = w.testBit n := by
  rw [Nat.testBit_to_div_mod, Nat.and_one_is_mod, Nat.shiftRight_eq_div_pow]
  exact decide_eq_decide.mpr (by omega)

/-- The 24 rounds of the inner loop of `UnmarshalXML` write the low 24 bits of
the word into the slots of its chunk and leave the higher bits in `word`. -/
theorem foldl_fanStep (i n : Nat) (s : WlanSchedule) (w : Nat) :
    (List.range n).foldl (fanStep i) (s, w)
      = ((fun d k => if d.val = i / 4 ∧ (i % 4) * 24 ≤ k.val ∧ k.val < (i % 4) * 24 + n
            then w.testBit (k.val - (i % 4) * 24) else s d k), w >>> n) := by
  induction n with
  | zero =>
    simp only [List.range_zero, List.foldl_nil, Nat.shiftRight_zero]
    congr 1
    funext d k
    rw [if_neg (by omega)]
  | succ n ih =>
    rw [List.range_succ, List.foldl_append, ih]
    simp only [List.foldl_cons, List.foldl_nil, fanStep, lowBit_eq_testBit]
    congr 1
    funext d k
    simp only [set]
    by_cases h1 : d.val = i / 4 ∧ k.val = (i % 4) * 24 + n
    · rw [if_pos h1, if_pos (by omega)]
      congr 1
      omega
    · rw [if_neg h1]
      by_cases h2 : d.val = i / 4 ∧ (i % 4) * 24 ≤ k.val ∧ k.val < (i % 4) * 24 + n
      · rw [if_pos h2, if_pos (by omega)]
      · rw [if_neg h2, if_neg (by omega)]

end WlanSchedule

end Ruckusweb

namespace Ruckusweb

namespace WlanSchedule

theorem unmarshalWords_step (s : WlanSchedule) (i w : Nat) (rest : List (List Char))
    (hw : w < 2 ^ 24) :
    unmarshalWords s i (('0' :: 'x' :: Strconv.formatBits w 16 false) :: rest)
      = unmarshalWords ((List.range 24).foldl (fanStep i) (s, w)).1 (i + 1) rest := by
  obtain ⟨c, cs, hcs⟩ := List.exists_cons_of_ne_nil (Strconv.formatBits_false_ne_nil 16 w)
  have hp := Strconv.ParseUint_formatBits 16 (by omega) (by omega) w (by omega)
  have hz : w >>> 24 = 0 := by
    rw [Nat.shiftRight_eq_div_pow]
    exact Nat.div_eq_of_lt hw
  rw [unmarshalWords]
  have hlen : ¬ (('0' :: 'x' :: Strconv.formatBits w 16 false).length < 3
      ∨ ('0' :: 'x' :: Strconv.formatBits w 16 false).getD 0 ' ' ≠ '0'
      ∨ ('0' :: 'x' :: Strconv.formatBits w 16 false).getD 1 ' ' ≠ 'x') := by
    rw [hcs]
    simp
  rw [if_neg hlen]
  simp only [List.drop_succ_cons, List.drop_zero, hp, foldl_fanStep, hz, ne_eq, not_true,
    if_false]

/-- Decoding a list of words below `2^24` never fails, and slot `k` of day `d`
receives bit `k % 24` of word number `4*d + k/24`. -/
theorem unmarshalWords_good (ws : List Nat) (hws : ∀ w ∈ ws, w < 2 ^ 24) (s : WlanSchedule)
    (i : Nat) :
    unmarshalWords s i (ws.map (fun w => '0' :: 'x' :: Strconv.formatBits w 16 false))
      = ((fun d k => if i ≤ 4 * d.val + k.val / 24 ∧ 4 * d.val + k.val / 24 < i + ws.length
            then (ws.getD (4 * d.val + k.val / 24 - i) 0).testBit (k.val % 24) else s d k),
          none) := by
  induction ws generalizing s i with
  | nil =>
    simp only [List.map_nil, unmarshalWords, List.length_nil, Nat.add_zero]
    congr 1
    funext d k
    rw [if_neg (by omega)]
  | cons w ws ih =>
    rw [List.map_cons, unmarshalWords_step s i w _ (hws w (by simp)),
      ih (fun v hv => hws v (by simp [hv])), foldl_fanStep]
    congr 1
    funext d k
    have hk := k.isLt
    have hd := d.isLt
    simp only [List.length_cons]
    by_cases h1 : 4 * d.val + k.val / 24 = i
    · rw [if_neg (by omega), if_pos (by omega), if_pos (by omega)]
      have e1 : 4 * d.val + k.val / 24 - i = 0 := by omega
      have e2 : k.val - i % 4 * 24 = k.val % 24 := by omega
      rw [e1, e2, List.getD_cons_zero]
    · by_cases h2 : i + 1 ≤ 4 * d.val + k.val / 24 ∧ 4 * d.val + k.val / 24 < i + 1 + ws.length
      · rw [if_pos h2, if_pos (by omega)]
        have e1 : 4 * d.val + k.val / 24 - i = (4 * d.val + k.val / 24 - (i + 1)) + 1 := by omega
        rw [e1, List.getD_cons_succ]
      · rw [if_neg h2, if_neg (by omega), if_neg (by omega)]

end WlanSchedule

end Ruckusweb

namespace Ruckusweb

namespace Bytes

theorem genSplitLoop_intercalate (sep : Char) (k : Nat) (words : List (List Char))
    (hne : words ≠ []) (hw : ∀ y ∈ words, sep ∉ y) (hk : words.length ≤ k + 1) :
    genSplitLoop sep k (List.intercalate [sep] words) = words := by
  cases words with
  | nil => exact absurd rfl hne
  | cons x xs =>
    rw [WlanSchedule.intercalate_cons]
    have e : (fun y : List Char => [sep] ++ y) = (fun y => sep :: y) := rfl
    rw [e]
    exact genSplitLoop_join sep k x xs (hw x (by simp)) (fun y hy => hw y (by simp [hy]))
      (by simpa using hk)

end Bytes

namespace WlanSchedule

theorem formatBits_no_colon (w : Nat) (h : w < 2 ^ 64) :
    ':' ∉ ('0' :: 'x' :: Strconv.formatBits w 16 false) := by
  intro hmem
  simp only [List.mem_cons] at hmem
  rcases hmem with h1 | h1 | h1
  · exact absurd h1 (by decide)
  · exact absurd h1 (by decide)
  · obtain ⟨d, hd, hcd⟩ := Strconv.formatBits_false_mem 16 (by omega) w h ':' h1
    exact (Strconv.digitAt_ne_sep d (by omega)).2.1 hcd.symm

theorem wordOf_testBit (G : WlanSchedule) (d : Fin 7) (k : Fin 96) :
    (wordOf G d.val (k.val / 24)).testBit (k.val % 24) = G d k := by
  have hk := k.isLt
  have e : 24 * (k.val / 24) + k.val % 24 = k.val := by omega
  have h24 : k.val % 24 < 24 := by omega
  simp only [wordOf, wordBits_testBit, e, h24, decide_True, Bool.true_and, bitAt, dayAt, hk,
    d.isLt, dite_true, Fin.eta]

/-- Decoding the text of a schedule gives the schedule back. -/
theorem UnmarshalXML_String_eq (G s0 : WlanSchedule) :
    UnmarshalXML s0 (some (String G)) = (G, none) := by
  have hsplit : Bytes.SplitN (String G) ':' 28 = Bytes.genSplitLoop ':' 27 (String G) :=
    Bytes.SplitN_succ (String G) ':' 27
  have hws : ∀ w ∈ (List.range 28).map (fun i => wordOf G (i / 4) (i % 4)), w < 2 ^ 24 := by
    intro w hw
    simp only [List.mem_map] at hw
    obtain ⟨i, _, rfl⟩ := hw
    exact wordOf_lt G _ _
  have hwords : Bytes.genSplitLoop ':' 27 (String G)
      = ((List.range 28).map (fun i => wordOf G (i / 4) (i % 4))).map
          (fun w => '0' :: 'x' :: Strconv.formatBits w 16 false) := by
    rw [String_eq_foldl, foldl_emitWord_nil]
    apply Bytes.genSplitLoop_intercalate
    · simp
    · intro y hy
      simp only [List.mem_map] at hy
      obtain ⟨w, hw, rfl⟩ := hy
      exact formatBits_no_colon w (Nat.lt_of_lt_of_le (hws w (by simpa using hw)) (by decide))
    · simp
  have hlen : ¬ ((((List.range 28).map (fun i => wordOf G (i / 4) (i % 4))).map
      (fun w => '0' :: 'x' :: Strconv.formatBits w 16 false)).length < 28) := by
    rw [List.length_map, List.length_map, List.length_range]
    exact Nat.lt_irrefl 28
  unfold UnmarshalXML
  simp only [hsplit, hwords]
  rw [if_neg hlen, unmarshalWords_good _ hws]
  refine Prod.ext ?_ rfl
  funext d k
  show (if 0 ≤ 4 * d.val + k.val / 24 ∧ 4 * d.val + k.val / 24 <
      0 + ((List.range 28).map (fun i => wordOf G (i / 4) (i % 4))).length
    then (((List.range 28).map (fun i => wordOf G (i / 4) (i % 4))).getD
      (4 * d.val + k.val / 24 - 0) 0).testBit (k.val % 24) else s0 d k) = G d k
  have hk := k.isLt
  have hd := d.isLt
  have hidx : 4 * d.val + k.val / 24 < 28 := by omega
  rw [if_pos (by simp only [List.length_map, List.length_range]; omega)]
  rw [Nat.sub_zero, List.getD_eq_getElem _ _ (by simpa using hidx)]
  simp only [List.getElem_map, List.getElem_range]
  have e1 : (4 * d.val + k.val / 24) / 4 = d.val := by omega
  have e2 : (4 * d.val + k.val / 24) % 4 = k.val / 24 := by omega
  rw [e1, e2]
  exact wordOf_testBit G d k

end WlanSchedule

end Ruckusweb

namespace Ruckusweb

namespace Bytes

theorem Count_of_IndexByte_none (s : List Char) (c : Char) (h : IndexByte s c = none) :
    Count s c = 0 := by
  induction s with
  | nil => rfl
  | cons b bs ih =>
    simp only [IndexByte] at h
    split at h
    · simp at h
    · rename_i hb
      cases hi : IndexByte bs c with
      | none => simp [Count, hb, ih hi]
      | some k => simp [hi] at h

theorem Count_of_IndexByte_some (s : List Char) (c : Char) (m : Nat)
    (h : IndexByte s c = some m) : Count s c = Count (s.drop (m + 1)) c + 1 := by
  induction s generalizing m with
  | nil => simp [IndexByte] at h
  | cons b bs ih =>
    simp only [IndexByte] at h
    split at h
    · rename_i hb
      simp at h
      subst h
      simp [Count, hb]
      omega
    · rename_i hb
      cases hi : IndexByte bs c with
      | none => simp [hi] at h
      | some k =>
        simp [hi] at h
        subst h
        simp [Count, hb, ih k hi]

theorem mem_of_Count_pos (s : List Char) (c : Char) (h : 0 < Count s c) : c ∈ s := by
  induction s with
  | nil => simp [Count] at h
  | cons b bs ih =>
    simp only [Count] at h
    by_cases hb : b = c
    · simp [hb]
    · simp only [hb, if_false, Nat.zero_add] at h
      simp [ih h]

/-- With at least as many cuts allowed as there are separators, `SplitN` is `Split`. -/
theorem genSplitLoop_eq_Split (sep : Char) (k : Nat) (s : List Char) (h : Count s sep ≤ k) :
    genSplitLoop sep k s = Split s sep := by
  unfold Split
  induction k generalizing s with
  | zero =>
    have : Count s sep = 0 := by omega
    rw [this]
  | succ k ih =>
    rw [genSplitLoop]
    cases hi : IndexByte s sep with
    | none =>
      rw [Count_of_IndexByte_none s sep hi]
      rfl
    | some m =>
      have hc := Count_of_IndexByte_some s sep m hi
      rw [hc, genSplitLoop, hi]
      simp only
      rw [ih (s.drop (m + 1)) (by omega)]

/-- With fewer cuts allowed than there are separators, a separator is left in
one of the pieces. -/
theorem genSplitLoop_sep_left (sep : Char) (k : Nat) (s : List Char) (h : k < Count s sep) :
    ∃ w ∈ genSplitLoop sep k s, sep ∈ w := by
  induction k generalizing s with
  | zero => exact ⟨s, by simp [genSplitLoop], mem_of_Count_pos s sep (by omega)⟩
  | succ k ih =>
    rw [genSplitLoop]
    cases hi : IndexByte s sep with
    | none =>
      rw [Count_of_IndexByte_none s sep hi] at h
      omega
    | some m =>
      have hc := Count_of_IndexByte_some s sep m hi
      obtain ⟨w, hw, hsep⟩ := ih (s.drop (m + 1)) (by omega)
      exact ⟨w, by simp [hw], hsep⟩

theorem genSplitLoop_length (sep : Char) (k : Nat) (s : List Char) :
    (genSplitLoop sep k s).length = min k (Count s sep) + 1 := by
  induction k generalizing s with
  | zero => simp [genSplitLoop]
  | succ k ih =>
    rw [genSplitLoop]
    cases hi : IndexByte s sep with
    | none =>
      rw [Count_of_IndexByte_none s sep hi]
      simp
    | some m =>
      have hc := Count_of_IndexByte_some s sep m hi
      simp only [List.length_cons, ih, hc]
      omega

theorem Split_length (s : List Char) (sep : Char) : (Split s sep).length = Count s sep + 1 := by
  rw [Split, genSplitLoop_length]
  simp

end Bytes

end Ruckusweb

namespace Ruckusweb

namespace Strconv

theorem parseUintLoop_colon (base cutoff maxVal : Nat) (t : List Char) (n : Nat)
    (h : ':' ∈ t) : (parseUintLoop base cutoff maxVal t n).2 ≠ none := by
  induction t generalizing n with
  | nil => simp at h
  | cons c cs ih =>
    rw [parseUintLoop]
    cases hd : digitVal c with
    | none => simp
    | some d =>
      simp only
      split
      · simp
      · split
        · simp
        · split
          · simp
          · apply ih
            simp only [List.mem_cons] at h
            rcases h with h | h
            · subst h
              have hnone : digitVal ':' = none := by decide
              rw [hnone] at hd
              exact absurd hd (by simp)
            · exact h

theorem ParseUint_colon (t : List Char) (base bitSize : Nat) (h : ':' ∈ t) :
    (ParseUint t base bitSize).2 ≠ none := by
  unfold ParseUint
  split
  · simp
  · exact parseUintLoop_colon _ _ _ t 0 h

end Strconv

namespace WlanSchedule

theorem rejected_of_colon (w : List Char) (h : ':' ∈ w) : rejected w := by
  match w, h with
  | [], h => simp at h
  | [_], _ => exact Or.inl (by simp)
  | [_, _], _ => exact Or.inl (by simp)
  | a :: b :: c :: rest, h =>
    by_cases ha : a = '0'
    · by_cases hb : b = 'x'
      · subst ha hb
        have hm : ':' ∈ c :: rest := by
          simp only [List.mem_cons] at h
          rcases h with h | h | h
          · exact absurd h (by decide)
          · exact absurd h (by decide)
          · simpa using h
        exact Or.inr (Or.inr (Or.inr (Or.inl (Strconv.ParseUint_colon _ 16 64 hm))))
      · exact Or.inr (Or.inr (Or.inl (by simpa using hb)))
    · exact Or.inr (Or.inl (by simpa using ha))

/-- The loop of `UnmarshalXML` returns an error as soon as one word is rejected. -/
theorem unmarshalWords_rejected (ws : List (List Char)) (h : ∃ w ∈ ws, rejected w)
    (s : WlanSchedule) (i : Nat) : (unmarshalWords s i ws).2 ≠ none := by
  induction ws generalizing s i with
  | nil => simp at h
  | cons w rest ih =>
    rw [unmarshalWords]
    split
    · simp
    · rename_i hpre
      cases hp : Strconv.ParseUint (w.drop 2) 16 64 with
      | mk v e =>
        cases e with
        | some err => simp
        | none =>
          simp only [foldl_fanStep]
          split
          · simp
          · rename_i hz
            apply ih
            obtain ⟨w1, hw1, hrej⟩ := h
            simp only [List.mem_cons] at hw1
            rcases hw1 with hw1 | hw1
            · subst hw1
              exfalso
              have hv : v < 2 ^ 24 := by
                have : v >>> 24 = 0 := by simpa using hz
                rw [Nat.shiftRight_eq_div_pow] at this
                omega
              simp only [rejected, hp] at hrej
              rcases hrej with h1 | h1 | h1 | h1 | h1
              · exact hpre (Or.inl h1)
              · exact hpre (Or.inr (Or.inl h1))
              · exact hpre (Or.inr (Or.inr h1))
              · exact h1 rfl
              · omega
            · exact ⟨w1, hw1, hrej⟩

end WlanSchedule

end Ruckusweb

namespace Ruckusweb

namespace WlanSchedule

theorem UnmarshalXML_of_rejected (s : WlanSchedule) (text : List Char)
    (h : ∃ w ∈ Bytes.SplitN text ':' 28, rejected w) :
    (UnmarshalXML s (some text)).2 ≠ none := by
  unfold UnmarshalXML
  simp only
  split
  · simp
  · exact unmarshalWords_rejected _ h s 0

theorem UnmarshalXML_of_short (s : WlanSchedule) (text : List Char)
    (h : (Bytes.SplitN text ':' 28).length < 28) :
    (UnmarshalXML s (some text)).2 ≠ none := by
  unfold UnmarshalXML
  simp only [h, if_true]
  simp

theorem rejected_of_not_0x (w : List Char) (h : ¬ ∃ c rest, w = '0' :: 'x' :: c :: rest) :
    rejected w := by
  match w, h with
  | [], _ => exact Or.inl (by simp)
  | [_], _ => exact Or.inl (by simp)
  | [_, _], _ => exact Or.inl (by simp)
  | a :: b :: c :: rest, h =>
    by_cases ha : a = '0'
    · by_cases hb : b = 'x'
      · subst ha hb
        exact absurd ⟨c, rest, rfl⟩ h
      · exact Or.inr (Or.inr (Or.inl (by simpa using hb)))
    · exact Or.inr (Or.inl (by simpa using ha))

end WlanSchedule

/-- C1: for every schedule `G` and every starting schedule `s0`, decoding the text
`G.String()` with the word-parsing logic of `UnmarshalXML` succeeds (no error) and
leaves exactly `G` in the target. -/
theorem wlanSchedule_decode_encode (G s0 : WlanSchedule) :
    WlanSchedule.UnmarshalXML s0 (some (WlanSchedule.String G)) = (G, none) :=
  WlanSchedule.UnmarshalXML_String_eq G s0

/-- C2: `String()` is the 28 texts `0x` + lowercase hexadecimal numeral (without
leading zeros) of the word values, joined by `:`; no word text contains a `:`;
word number `4*d + c` has bit `j` (`j < 24`) set iff slot `24*c + j` of day `d`
is true and is below `2^24`; the all-false schedule gives 28 copies of `0x0`. -/
theorem wlanSchedule_string_words (G : WlanSchedule) :
    WlanSchedule.String G = List.intercalate [':']
        ((List.range 28).map
          (fun i => WlanSchedule.wordText (WlanSchedule.wordOf G (i / 4) (i % 4))))
      ∧ (∀ i, ':' ∉ WlanSchedule.wordText (WlanSchedule.wordOf G (i / 4) (i % 4)))
      ∧ (∀ (d : Fin 7) (c : Fin 4), WlanSchedule.wordOf G d.val c.val < 2 ^ 24
          ∧ ∀ j : Fin 24, (WlanSchedule.wordOf G d.val c.val).testBit j.val
              = G d ⟨24 * c.val + j.val, by omega⟩)
      ∧ WlanSchedule.String (fun _ _ => false)
          = ("0x0:0x0:0x0:0x0:0x0:0x0:0x0:0x0:0x0:0x0:0x0:0x0:0x0:0x0:" ++
              "0x0:0x0:0x0:0x0:0x0:0x0:0x0:0x0:0x0:0x0:0x0:0x0:0x0:0x0").toList := by
  refine ⟨WlanSchedule.String_eq_intercalate G, ?_, ?_, WlanSchedule.String_blank⟩
  · intro i
    have h64 : WlanSchedule.wordOf G (i / 4) (i % 4) < 2 ^ 64 :=
      Nat.lt_of_lt_of_le (WlanSchedule.wordOf_lt G _ _) (by decide)
    rw [← WlanSchedule.wordText_eq _ h64]
    exact WlanSchedule.formatBits_no_colon _ h64
  · intro d c
    refine ⟨WlanSchedule.wordOf_lt G _ _, ?_⟩
    intro j
    have hj := j.isLt
    have hc := c.isLt
    have h96 : 24 * c.val + j.val < 96 := by omega
    simp only [WlanSchedule.wordOf, WlanSchedule.wordBits_testBit, hj, decide_True,
      Bool.true_and, WlanSchedule.bitAt, WlanSchedule.dayAt, d.isLt, h96, dite_true, Fin.eta]

/-- C3: `UnmarshalXML` returns an error for every value text that (a) splits on `:`
into fewer than 28 words, or (b) has among its first 28 words one that is not `0x`
followed by at least one byte, or (c) has a word `0x…` whose hexadecimal part parses
as a `uint64` with a bit above position 23. -/
theorem wlanSchedule_unmarshal_fails (s : WlanSchedule) (text : List Char)
    (h : (Bytes.Split text ':').length < 28
      ∨ (∃ i w, i < 28 ∧ (Bytes.Split text ':')[i]? = some w
            ∧ ¬ ∃ c rest, w = '0' :: 'x' :: c :: rest)
      ∨ (∃ w ∈ Bytes.Split text ':', ∃ hx v, w = '0' :: 'x' :: hx
            ∧ Strconv.ParseUint hx 16 64 = (v, none) ∧ 2 ^ 24 ≤ v)) :
    (WlanSchedule.UnmarshalXML s (some text)).2 ≠ none := by
  have hsplit : Bytes.SplitN text ':' 28 = Bytes.genSplitLoop ':' 27 text :=
    Bytes.SplitN_succ text ':' 27
  by_cases hc : Bytes.Count text ':' ≤ 27
  · have hW : Bytes.SplitN text ':' 28 = Bytes.Split text ':' := by
      rw [hsplit, Bytes.genSplitLoop_eq_Split ':' 27 text hc]
    rcases h with h | ⟨i, w, _, hw, hnot⟩ | ⟨w, hw, hx, v, rfl, hp, hv⟩
    · exact WlanSchedule.UnmarshalXML_of_short s text (by rw [hW]; exact h)
    · apply WlanSchedule.UnmarshalXML_of_rejected
      rw [hW]
      exact ⟨w, List.getElem?_mem hw, WlanSchedule.rejected_of_not_0x w hnot⟩
    · apply WlanSchedule.UnmarshalXML_of_rejected
      rw [hW]
      refine ⟨_, hw, ?_⟩
      refine Or.inr (Or.inr (Or.inr (Or.inr ?_)))
      simp only [List.drop_succ_cons, List.drop_zero, hp]
      exact hv
  · apply WlanSchedule.UnmarshalXML_of_rejected
    rw [hsplit]
    obtain ⟨w, hw, hsep⟩ := Bytes.genSplitLoop_sep_left ':' 27 text (by omega)
    exact ⟨w, hw, WlanSchedule.rejected_of_colon w hsep⟩

end Ruckusweb

namespace Ruckusweb

set_option maxRecDepth 100000 in
/-- Witness for C3: a text of two words, a text of 28 words whose first word is
`zz`, and a text of 28 words whose first word is `0x1000000` (bit 24 set). -/
theorem wlanSchedule_unmarshal_fails_witness :
    (WlanSchedule.UnmarshalXML (fun _ _ => false) (some "0x0:0x0".toList)).2 ≠ none
      ∧ (WlanSchedule.UnmarshalXML (fun _ _ => false)
          (some ("zz:0x0:0x0:0x0:0x0:0x0:0x0:0x0:0x0:0x0:0x0:0x0:0x0:0x0:" ++
            "0x0:0x0:0x0:0x0:0x0:0x0:0x0:0x0:0x0:0x0:0x0:0x0:0x0:0x0").toList)).2 ≠ none
      ∧ (WlanSchedule.UnmarshalXML (fun _ _ => false)
          (some ("0x1000000:0x0:0x0:0x0:0x0:0x0:0x0:0x0:0x0:0x0:0x0:0x0:0x0:0x0:" ++
            "0x0:0x0:0x0:0x0:0x0:0x0:0x0:0x0:0x0:0x0:0x0:0x0:0x0:0x0").toList)).2 ≠ none :=
  ⟨wlanSchedule_unmarshal_fails _ _ (Or.inl (by decide)),
    wlanSchedule_unmarshal_fails _ _ (Or.inr (Or.inl ⟨0, "zz".toList, by decide, by decide,
      by rintro ⟨c, rest, h⟩; simp at h⟩)),
    wlanSchedule_unmarshal_fails _ _ (Or.inr (Or.inr ⟨"0x1000000".toList, by decide,
      "1000000".toList, 16777216, by decide, by decide, by decide⟩))⟩

end Ruckusweb

namespace Ruckusweb

/-! ## Time series: searching the comma and parsing decimal tokens -/

theorem joinComma_eq_intercalate (ts : List (List Char)) :
    joinComma ts = List.intercalate [','] ts := by
  induction ts with
  | nil => rfl
  | cons t rest ih =>
    cases rest with
    | nil => simp [joinComma, List.intercalate]
    | cons u rest =>
      rw [joinComma, ih, WlanSchedule.intercalate_cons, WlanSchedule.intercalate_cons]
      simp

theorem joinComma_cons_cons (t u : List Char) (rest : List (List Char)) :
    joinComma (t :: u :: rest) = t ++ ',' :: joinComma (u :: rest) := rfl

theorem cutComma_found (limit : Nat) (x y : List Char) (hx : ',' ∉ x) (hl : x.length < limit) :
    cutComma limit (x ++ ',' :: y) = some (x, y) := by
  induction x generalizing limit with
  | nil =>
    cases limit with
    | zero => simp at hl
    | succ l => simp [cutComma]
  | cons c cs ih =>
    cases limit with
    | zero => simp at hl
    | succ l =>
      simp only [List.mem_cons, not_or] at hx
      simp only [List.length_cons] at hl
      rw [List.cons_append, cutComma, if_neg (Ne.symm hx.1), ih l hx.2 (by omega)]
      rfl

theorem cutComma_not_mem (limit : Nat) (x : List Char) (hx : ',' ∉ x) :
    cutComma limit x = none := by
  induction x generalizing limit with
  | nil => cases limit <;> rfl
  | cons c cs ih =>
    cases limit with
    | zero => rfl
    | succ l =>
      simp only [List.mem_cons, not_or] at hx
      rw [cutComma, if_neg (Ne.symm hx.1), ih l hx.2]
      rfl

theorem cutComma_long (limit : Nat) (x y : List Char) (hx : ',' ∉ x) (hl : limit ≤ x.length) :
    cutComma limit (x ++ y) = none := by
  induction x generalizing limit with
  | nil =>
    have : limit = 0 := by simpa using hl
    subst this
    rfl
  | cons c cs ih =>
    cases limit with
    | zero => rfl
    | succ l =>
      simp only [List.mem_cons, not_or] at hx
      simp only [List.length_cons] at hl
      rw [List.cons_append, cutComma, if_neg (Ne.symm hx.1), ih l hx.2 (by omega)]
      rfl

theorem isDecimal_ne_nil (t : List Char) (h : isDecimal t = true) : t ≠ [] := by
  intro ht
  subst ht
  simp [isDecimal] at h

theorem isDecimal_mem (t : List Char) (h : isDecimal t = true) (c : Char) (hc : c ∈ t) :
    48 ≤ c.toNat ∧ c.toNat ≤ 57 := by
  simp only [isDecimal, Bool.and_eq_true, List.all_eq_true, decide_eq_true_eq] at h
  exact h.2 c hc

theorem isDecimal_no_comma (t : List Char) (h : isDecimal t = true) : ',' ∉ t := by
  intro hc
  have := isDecimal_mem t h ',' hc
  revert this
  decide

namespace Strconv

theorem digitVal_of_digit (c : Char) (h : 48 ≤ c.toNat ∧ c.toNat ≤ 57) :
    digitVal c = some (c.toNat - 48) := by
  simp only [digitVal, h, and_self, if_true]

/-- The digit loop on decimal digits: no error while the value stays below `10^19`. -/
theorem parseUintLoop_decimal (s : List Char) (n k : Nat)
    (hs : ∀ c ∈ s, 48 ≤ c.toNat ∧ c.toNat ≤ 57) (hn : n < 10 ^ k) (hk : k + s.length ≤ 19) :
    ∃ v, parseUintLoop 10 ((2 ^ 64 - 1) / 10 + 1) (2 ^ 64 - 1) s n = (v, none)
      ∧ v < 10 ^ (k + s.length) := by
  induction s generalizing n k with
  | nil => exact ⟨n, rfl, by simpa using hn⟩
  | cons c cs ih =>
    have hc := hs c (by simp)
    have h19 : (10 : Nat) ^ (k + 1) ≤ 10 ^ 19 :=
      Nat.pow_le_pow_right (by omega) (by simp only [List.length_cons] at hk; omega)
    have hk1 : (10 : Nat) ^ (k + 1) = 10 ^ k * 10 := Nat.pow_succ 10 k
    have hstep : n * 10 + (c.toNat - 48) < 10 ^ (k + 1) := by omega
    rw [parseUintLoop, digitVal_of_digit c hc]
    simp only
    rw [if_neg (by omega), if_neg (by omega)]
    have e1 : (n * 10) % 2 ^ 64 = n * 10 := Nat.mod_eq_of_lt (by omega)
    have e2 : (n * 10 + (c.toNat - 48)) % 2 ^ 64 = n * 10 + (c.toNat - 48) :=
      Nat.mod_eq_of_lt (by omega)
    simp only [e1, e2]
    rw [if_neg (by omega)]
    obtain ⟨v, hv, hlt⟩ := ih (n * 10 + (c.toNat - 48)) (k + 1)
      (fun c1 h1 => hs c1 (by simp [h1])) hstep (by simp only [List.length_cons] at hk; omega)
    refine ⟨v, hv, ?_⟩
    have : k + 1 + cs.length = k + (c :: cs).length := by simp only [List.length_cons]; omega
    rw [← this]
    exact hlt

/-- A decimal token of at most 14 digits is a valid `uint64`. -/
theorem ParseUint_decimal (t : List Char) (h : isDecimal t = true) (hl : t.length ≤ 14) :
    ∃ v, ParseUint t 10 64 = (v, none) ∧ v < 10 ^ 14 := by
  obtain ⟨v, hv, hlt⟩ := parseUintLoop_decimal t 0 0 (isDecimal_mem t h) (by simp) (by omega)
  refine ⟨v, ?_, ?_⟩
  · rw [ParseUint, if_neg (isDecimal_ne_nil t h)]
    exact hv
  · have : (10 : Nat) ^ (0 + t.length) ≤ 10 ^ 14 := Nat.pow_le_pow_right (by omega) (by omega)
    omega

/-- A decimal token of at most 14 digits is a valid `int64`, with the same value. -/
theorem ParseInt_decimal (t : List Char) (h : isDecimal t = true) (hl : t.length ≤ 14) :
    ∃ v : Nat, ParseInt t 10 64 = ((v : Int), none) ∧ ParseUint t 10 64 = (v, none)
      ∧ v < 10 ^ 14 := by
  obtain ⟨v, hv, hlt⟩ := ParseUint_decimal t h hl
  refine ⟨v, ?_, hv, hlt⟩
  obtain ⟨c, cs, rfl⟩ := List.exists_cons_of_ne_nil (isDecimal_ne_nil t h)
  have hc := isDecimal_mem _ h c (by simp)
  have hplus : c ≠ '+' := by
    intro e; subst e; revert hc; decide
  have hminus : c ≠ '-' := by
    intro e; subst e; revert hc; decide
  simp only [ParseInt, hplus, hminus, if_false, hv]
  simp
  have h1 : ¬ (9223372036854775808 ≤ v) := by omega
  rw [if_neg h1, toInt64_of_lt v (by omega)]

end Strconv

end Ruckusweb

namespace Ruckusweb

theorem joinComma_cons_ne (t : List Char) (rest : List (List Char)) (h : rest ≠ []) :
    joinComma (t :: rest) = t ++ ',' :: joinComma rest := by
  cases rest with
  | nil => exact absurd rfl h
  | cons u rest => rfl

namespace ByteTimeSeries

theorem unmarshalLoop_nil (fuel : Nat) (ts : ByteTimeSeries) :
    unmarshalLoop fuel ts [] = some (ts, none) := by
  cases fuel <;> simp [unmarshalLoop]

/-- One round of the loop on a text that starts with a time token, a comma and a
count token followed by a comma. -/
theorem unmarshalLoop_step (fuel : Nat) (ts : ByteTimeSeries) (t c rest : List Char)
    (ht : ',' ∉ t) (htl : t.length ≤ 14) (hp : (Strconv.ParseInt t 10 64).2 = none)
    (hc : ',' ∉ c) (hcl : c.length ≤ 14) :
    unmarshalLoop (fuel + 1) ts (t ++ ',' :: (c ++ ',' :: rest))
      = unmarshalLoop fuel (ts ++ [ByteTimeSeriesRecord.mk (Strconv.ParseInt t 10 64).1
          (Strconv.ParseUint c 10 64).1]) rest := by
  have hpe : Strconv.ParseInt t 10 64 = ((Strconv.ParseInt t 10 64).1, none) :=
    Prod.ext rfl hp
  rw [unmarshalLoop, if_pos (by simp), cutComma_found 15 t _ ht (by omega)]
  simp only
  rw [hpe]
  simp only
  rw [cutComma_found 15 c _ hc (by omega)]

/-- The last round of the loop: a time token, a comma and a count token that ends
the text. -/
theorem unmarshalLoop_last (fuel : Nat) (ts : ByteTimeSeries) (t c : List Char)
    (ht : ',' ∉ t) (htl : t.length ≤ 14) (hp : (Strconv.ParseInt t 10 64).2 = none)
    (hc : ',' ∉ c) :
    unmarshalLoop (fuel + 1) ts (t ++ ',' :: c)
      = some (ts ++ [ByteTimeSeriesRecord.mk (Strconv.ParseInt t 10 64).1
          (Strconv.ParseUint c 10 64).1], none) := by
  have hpe : Strconv.ParseInt t 10 64 = ((Strconv.ParseInt t 10 64).1, none) :=
    Prod.ext rfl hp
  rw [unmarshalLoop, if_pos (by simp), cutComma_found 15 t _ ht (by omega)]
  simp only
  rw [hpe]
  simp only
  rw [cutComma_not_mem 15 c hc]
  exact unmarshalLoop_nil _ _

/-- Decoding a text of well-formed `time,count` pairs appends one record per pair. -/
theorem unmarshalLoop_pairs (pairs : List (List Char × List Char)) (fuel : Nat)
    (ts : ByteTimeSeries)
    (ht : ∀ p ∈ pairs, ',' ∉ p.1 ∧ p.1.length ≤ 14 ∧ (Strconv.ParseInt p.1 10 64).2 = none
      ∧ ',' ∉ p.2)
    (hc : ∀ p ∈ pairs.dropLast, p.2.length ≤ 14)
    (hf : (joinComma (pairs.flatMap (fun p => [p.1, p.2]))).length ≤ fuel) :
    unmarshalLoop fuel ts (joinComma (pairs.flatMap (fun p => [p.1, p.2])))
      = some (ts ++ pairs.map (fun p => ByteTimeSeriesRecord.mk (Strconv.ParseInt p.1 10 64).1
          (Strconv.ParseUint p.2 10 64).1), none) := by
  induction pairs generalizing fuel ts with
  | nil => simpa [joinComma] using unmarshalLoop_nil fuel ts
  | cons p ps ih =>
    obtain ⟨h1, h2, h3, h4⟩ := ht p (by simp)
    cases ps with
    | nil =>
      simp only [List.flatMap_cons, List.flatMap_nil, List.append_nil, List.cons_append,
        List.nil_append, joinComma, List.map_cons, List.map_nil] at hf ⊢
      cases fuel with
      | zero => simp at hf
      | succ f => exact unmarshalLoop_last f ts p.1 p.2 h1 h2 h3 h4
    | cons q qs =>
      have hne : (q :: qs).flatMap (fun p => [p.1, p.2]) ≠ [] := by simp
      have htext : joinComma ((p :: q :: qs).flatMap (fun p => [p.1, p.2]))
          = p.1 ++ ',' :: (p.2 ++ ',' :: joinComma ((q :: qs).flatMap (fun p => [p.1, p.2]))) := by
        have e : (p :: q :: qs).flatMap (fun p => [p.1, p.2])
            = p.1 :: p.2 :: (q :: qs).flatMap (fun p => [p.1, p.2]) := by
          rw [List.flatMap_cons]
          rfl
        rw [e, joinComma_cons_ne _ _ (by simp), joinComma_cons_ne _ _ hne]
      rw [htext] at hf ⊢
      cases fuel with
      | zero => simp at hf
      | succ f =>
        rw [unmarshalLoop_step f ts p.1 p.2 _ h1 h2 h3 h4 (hc p (by simp [List.dropLast]))]
        rw [ih f _ (fun r hr => ht r (by simp [hr]))
          (fun r hr => hc r (by simp only [List.dropLast_cons₂]; simp [hr]))
          (by simp only [List.length_append, List.length_cons] at hf; omega)]
        simp

end ByteTimeSeries

end Ruckusweb

namespace Ruckusweb

namespace Strconv

theorem AppendUint_eq (dst : List Char) (i base : Nat) :
    AppendUint dst i base = dst ++ AppendUint [] i base := by
  simp [AppendUint]

theorem AppendInt_eq (dst : List Char) (i : Int) (base : Nat) :
    AppendInt dst i base = dst ++ AppendInt [] i base := by
  simp [AppendInt]

theorem AppendUint_no_comma (i : Nat) (h : i < 2 ^ 64) : ',' ∉ AppendUint [] i 10 := by
  intro hc
  simp only [AppendUint, List.nil_append] at hc
  obtain ⟨d, hd, hcd⟩ := formatBits_false_mem 10 (by omega) i h ',' hc
  exact (digitAt_ne_sep d (by omega)).1 hcd.symm

theorem AppendUint_length (i k : Nat) (h : i < 10 ^ (k + 1)) :
    (AppendUint [] i 10).length ≤ k + 1 := by
  simp only [AppendUint, List.nil_append]
  exact formatBits_false_length 10 (by omega) i k h

theorem AppendUint_isDecimal (i : Nat) (h : i < 2 ^ 64) : isDecimal (AppendUint [] i 10) = true := by
  simp only [AppendUint, List.nil_append, isDecimal, Bool.and_eq_true, List.all_eq_true,
    decide_eq_true_eq]
  constructor
  · have := formatBits_false_ne_nil 10 i
    cases hf : formatBits i 10 false with
    | nil => exact absurd hf this
    | cons c cs => rfl
  · intro c hc
    obtain ⟨d, hd, hcd⟩ := formatBits_false_mem 10 (by omega) i h c hc
    subst hcd
    interval_cases d <;> decide

theorem ParseUint_AppendUint (i : Nat) (h : i < 2 ^ 64) :
    ParseUint (AppendUint [] i 10) 10 64 = (i, none) := by
  simp only [AppendUint, List.nil_append]
  exact ParseUint_formatBits 10 (by omega) (by omega) i h

theorem ParseInt_AppendInt (i : Int) (hlo : -(2 ^ 63) ≤ i) (hhi : i < 2 ^ 63) :
    ParseInt (AppendInt [] i 10) 10 64 = (i, none) := by
  simp only [AppendInt, List.nil_append]
  exact ParseInt_formatBits i hlo hhi

theorem AppendInt_of_nonneg (i : Int) (h : 0 ≤ i) (h64 : i < 2 ^ 64) :
    AppendInt [] i 10 = AppendUint [] i.toNat 10 := by
  have e : (i % 2 ^ 64).toNat = i.toNat := by omega
  have hn : ¬ i < 0 := by omega
  simp only [AppendInt, AppendUint, List.nil_append, e, hn, decide_False, formatBits,
    Bool.false_eq_true, if_false]

theorem AppendInt_of_neg (i : Int) (h : i < 0) (hlo : -(2 ^ 63) ≤ i) :
    AppendInt [] i 10 = '-' :: AppendUint [] (-i).toNat 10 := by
  have hu : (2 ^ 64 - (i % 2 ^ 64).toNat) % 2 ^ 64 = (-i).toNat := by omega
  simp only [AppendInt, AppendUint, List.nil_append, formatBits, h, decide_True, if_true, hu,
    Bool.false_eq_true, if_false]

theorem AppendInt_no_comma (i : Int) (hlo : -(2 ^ 63) ≤ i) (hhi : i < 2 ^ 63) :
    ',' ∉ AppendInt [] i 10 := by
  by_cases h : i < 0
  · rw [AppendInt_of_neg i h hlo]
    intro hc
    simp only [List.mem_cons] at hc
    rcases hc with hc | hc
    · exact absurd hc (by decide)
    · exact AppendUint_no_comma _ (by omega) hc
  · rw [AppendInt_of_nonneg i (by omega) (by omega)]
    exact AppendUint_no_comma _ (by omega)

/-- The decimal numeral of an integer strictly between `-10^13` and `10^14` has at most
14 characters, sign included. -/
theorem AppendInt_length (i : Int) (hlo : -(10 ^ 13) < i) (hhi : i < 10 ^ 14) :
    (AppendInt [] i 10).length ≤ 14 := by
  by_cases h : i < 0
  · rw [AppendInt_of_neg i h (by omega)]
    have := AppendUint_length (-i).toNat 12 (by omega)
    simp only [List.length_cons]
    omega
  · rw [AppendInt_of_nonneg i (by omega) (by omega)]
    exact AppendUint_length i.toNat 13 (by omega)

end Strconv

end Ruckusweb

namespace Ruckusweb

theorem joinComma_append (xs ys : List (List Char)) (hx : xs ≠ []) (hy : ys ≠ []) :
    joinComma (xs ++ ys) = joinComma xs ++ ',' :: joinComma ys := by
  induction xs with
  | nil => exact absurd rfl hx
  | cons x xs ih =>
    cases xs with
    | nil =>
      rw [List.singleton_append, joinComma_cons_ne x ys hy]
      rfl
    | cons u us =>
      rw [List.cons_append, joinComma_cons_ne x _ (by simp), ih (by simp), joinComma_cons_cons]
      simp

theorem joinComma_flatMap_cons {α : Type} (f : α → List (List Char)) (hf : ∀ r, f r ≠ [])
    (r : α) (rs : List α) :
    joinComma ((r :: rs).flatMap f)
      = joinComma (f r) ++ (rs.map (fun r => ',' :: joinComma (f r))).flatten := by
  induction rs generalizing r with
  | nil => simp
  | cons q qs ih =>
    have hne : (q :: qs).flatMap f ≠ [] := by
      rw [List.flatMap_cons]
      intro h
      exact hf q (List.append_eq_nil.mp h).1
    rw [List.flatMap_cons, joinComma_append _ _ (hf r) hne, ih q]
    simp

/-- A `MarshalText` loop that writes a comma before every record but the first
writes the tokens of all records joined by commas. -/
theorem foldl_enumFrom_joinComma {α : Type} (f : α → List (List Char))
    (step : List Char → Nat × α → List Char)
    (hstep : ∀ b i r, step b (i, r) = (if i > 0 then b ++ [','] else b) ++ joinComma (f r))
    (l : List α) (n : Nat) (hn : 0 < n) (b : List Char) :
    (l.enumFrom n).foldl step b = b ++ (l.map (fun r => ',' :: joinComma (f r))).flatten := by
  induction l generalizing n b with
  | nil => simp
  | cons r rs ih =>
    rw [List.enumFrom_cons, List.foldl_cons, hstep, if_pos hn, ih (n + 1) (by omega)]
    simp

theorem foldl_enum_joinComma {α : Type} (f : α → List (List Char)) (hf : ∀ r, f r ≠ [])
    (step : List Char → Nat × α → List Char)
    (hstep : ∀ b i r, step b (i, r) = (if i > 0 then b ++ [','] else b) ++ joinComma (f r))
    (l : List α) : l.enum.foldl step [] = joinComma (l.flatMap f) := by
  cases l with
  | nil => rfl
  | cons r rs =>
    rw [List.enum, List.enumFrom_cons, List.foldl_cons, hstep, if_neg (by omega),
      foldl_enumFrom_joinComma f step hstep rs 1 (by omega), joinComma_flatMap_cons f hf]
    simp

theorem ByteTimeSeries.MarshalText_eq (ts : ByteTimeSeries) :
    (ByteTimeSeries.MarshalText ts).1 = joinComma (ts.flatMap ByteTimeSeries.tokens) := by
  unfold ByteTimeSeries.MarshalText
  apply foldl_enum_joinComma ByteTimeSeries.tokens (by intro r; simp [ByteTimeSeries.tokens])
  intro b i r
  simp only [ByteTimeSeries.tokens, joinComma]
  rw [Strconv.AppendUint_eq, Strconv.AppendInt_eq]
  simp

theorem RssiTimeSeries.MarshalText_tokens (ts : RssiTimeSeries) :
    (RssiTimeSeries.MarshalText ts).1 = joinComma (ts.flatMap RssiTimeSeries.tokens) := by
  unfold RssiTimeSeries.MarshalText
  apply foldl_enum_joinComma RssiTimeSeries.tokens (by intro r; simp [RssiTimeSeries.tokens])
  intro b i r
  simp only [RssiTimeSeries.tokens, joinComma]
  rw [Strconv.AppendUint_eq, Strconv.AppendUint_eq (_ ++ [',']),
    Strconv.AppendUint_eq (_ ++ [',']), Strconv.AppendInt_eq]
  simp

end Ruckusweb

namespace Ruckusweb

/-- Decoding what `MarshalText` wrote gives the series back when every time numeral
has at most 14 characters and every count but the last has at most 14 digits. -/
theorem ByteTimeSeries.roundtrip_of_short (S ts : ByteTimeSeries)
    (hAt : ∀ r ∈ S, -(2 ^ 63) ≤ r.At ∧ r.At < 2 ^ 63 ∧ (Strconv.AppendInt [] r.At 10).length ≤ 14)
    (hB : ∀ r ∈ S, r.Bytes < 2 ^ 64)
    (hInner : ∀ r ∈ S.dropLast, (Strconv.AppendUint [] r.Bytes 10).length ≤ 14) :
    ByteTimeSeries.UnmarshalText ts (ByteTimeSeries.MarshalText S).1 = some (ts ++ S, none) := by
  have hflat : S.flatMap ByteTimeSeries.tokens
      = (S.map (fun r => (Strconv.AppendInt [] r.At 10, Strconv.AppendUint [] r.Bytes 10))).flatMap
          (fun p => [p.1, p.2]) := by
    rw [List.flatMap_map]
    rfl
  rw [ByteTimeSeries.UnmarshalText, ByteTimeSeries.MarshalText_eq, hflat]
  rw [ByteTimeSeries.unmarshalLoop_pairs _ _ ts ?_ ?_ (Nat.le_refl _)]
  · rw [List.map_map]
    have hid : S.map ((fun p : List Char × List Char =>
          ByteTimeSeriesRecord.mk (Strconv.ParseInt p.1 10 64).1 (Strconv.ParseUint p.2 10 64).1)
        ∘ (fun r => (Strconv.AppendInt [] r.At 10, Strconv.AppendUint [] r.Bytes 10))) = S := by
      conv => rhs; rw [← List.map_id S]
      apply List.map_congr_left
      intro r hr
      obtain ⟨h1, h2, _⟩ := hAt r hr
      simp only [Function.comp, Strconv.ParseInt_AppendInt r.At h1 h2,
        Strconv.ParseUint_AppendUint r.Bytes (hB r hr), id]
    rw [hid]
  · intro p hp
    simp only [List.mem_map] at hp
    obtain ⟨r, hr, rfl⟩ := hp
    obtain ⟨h1, h2, h3⟩ := hAt r hr
    refine ⟨Strconv.AppendInt_no_comma r.At h1 h2, h3, ?_,
      Strconv.AppendUint_no_comma r.Bytes (hB r hr)⟩
    rw [Strconv.ParseInt_AppendInt r.At h1 h2]
  · intro p hp
    rw [← List.map_dropLast] at hp
    simp only [List.mem_map] at hp
    obtain ⟨r, hr, rfl⟩ := hp
    exact hInner r hr

end Ruckusweb

namespace Ruckusweb

/-- C4 (as stated, refuted): the series `[(0, 10^14), (0, 0)]` is written as
`0,100000000000000,0,0`; the comma after the 15-digit count is not among the first 15
bytes, so the rest of the text is taken as one count and decoding succeeds with the
single record `(0, 0)`. -/
theorem byteTimeSeries_decode_encode_counterexample :
    ByteTimeSeries.UnmarshalText []
        (ByteTimeSeries.MarshalText [⟨0, 100000000000000⟩, ⟨0, 0⟩]).1
      = some ([⟨0, 0⟩], none)
    ∧ ByteTimeSeries.UnmarshalText []
        (ByteTimeSeries.MarshalText [⟨0, 100000000000000⟩, ⟨0, 0⟩]).1
      ≠ some ([⟨0, 100000000000000⟩, ⟨0, 0⟩], none) := by
  constructor <;> decide

/-- C4 (amended): for every byte time series whose times lie strictly between `-10^13`
and `10^14` (a numeral of at most 14 characters, sign included), whose counts are
`uint64` values and whose counts, the last record's apart, are below `10^14`,
`MarshalText` succeeds and `UnmarshalText` of its text into an empty series succeeds
and yields the series record for record. -/
theorem byteTimeSeries_decode_encode (S : ByteTimeSeries)
    (hAt : ∀ r ∈ S, -(10 ^ 13) < r.At ∧ r.At < 10 ^ 14)
    (hB : ∀ r ∈ S, r.Bytes < 2 ^ 64)
    (hInner : ∀ r ∈ S.dropLast, r.Bytes < 10 ^ 14) :
    (ByteTimeSeries.MarshalText S).2 = none
      ∧ ByteTimeSeries.UnmarshalText [] (ByteTimeSeries.MarshalText S).1 = some (S, none) := by
  refine ⟨rfl, ?_⟩
  have h := ByteTimeSeries.roundtrip_of_short S []
    (fun r hr => ⟨by have := hAt r hr; omega, by have := hAt r hr; omega,
      Strconv.AppendInt_length r.At (hAt r hr).1 (hAt r hr).2⟩)
    hB (fun r hr => Strconv.AppendUint_length r.Bytes 13 (hInner r hr))
  simpa using h

/-- Witness for C4 (amended): a negative time, and a last count of `2^64 - 1`. -/
theorem byteTimeSeries_decode_encode_witness :
    (ByteTimeSeries.MarshalText [⟨-5, 7⟩, ⟨1700000000, 18446744073709551615⟩]).2 = none
      ∧ ByteTimeSeries.UnmarshalText []
          (ByteTimeSeries.MarshalText [⟨-5, 7⟩, ⟨1700000000, 18446744073709551615⟩]).1
        = some ([⟨-5, 7⟩, ⟨1700000000, 18446744073709551615⟩], none) :=
  byteTimeSeries_decode_encode [⟨-5, 7⟩, ⟨1700000000, 18446744073709551615⟩]
    (by decide) (by decide) (by decide)

end Ruckusweb

namespace Ruckusweb

/-- On an odd number of decimal tokens whose count tokens have at most 14 digits the
loop ends with the error for an odd number of elements. -/
theorem ByteTimeSeries.unmarshalLoop_odd (pairs : List (List Char × List Char))
    (last : List Char) (fuel : Nat) (ts : ByteTimeSeries)
    (hp : ∀ p ∈ pairs, isDecimal p.1 = true ∧ isDecimal p.2 = true ∧ p.2.length ≤ 14)
    (hl : isDecimal last = true)
    (hf : (joinComma (pairs.flatMap (fun p => [p.1, p.2]) ++ [last])).length ≤ fuel) :
    ∃ ts1, ByteTimeSeries.unmarshalLoop fuel ts
        (joinComma (pairs.flatMap (fun p => [p.1, p.2]) ++ [last]))
      = some (ts1, some (GoError.errorsNew "invalid time series: odd number of elements")) := by
  induction pairs generalizing fuel ts with
  | nil =>
    simp only [List.flatMap_nil, List.nil_append, joinComma] at hf ⊢
    have hne := isDecimal_ne_nil last hl
    cases fuel with
    | zero =>
      exact absurd (List.length_eq_zero.mp (by omega)) hne
    | succ f =>
      refine ⟨ts, ?_⟩
      rw [ByteTimeSeries.unmarshalLoop, if_pos (List.length_pos.mpr hne),
        cutComma_not_mem 15 last (isDecimal_no_comma last hl)]
  | cons p ps ih =>
    obtain ⟨h1, h2, h3⟩ := hp p (by simp)
    have hne : ps.flatMap (fun p => [p.1, p.2]) ++ [last] ≠ [] := by simp
    have htext : joinComma ((p :: ps).flatMap (fun p => [p.1, p.2]) ++ [last])
        = p.1 ++ ',' :: (p.2 ++ ',' :: joinComma (ps.flatMap (fun p => [p.1, p.2]) ++ [last])) := by
      have e : (p :: ps).flatMap (fun p => [p.1, p.2]) ++ [last]
          = p.1 :: p.2 :: (ps.flatMap (fun p => [p.1, p.2]) ++ [last]) := by
        rw [List.flatMap_cons]
        rfl
      rw [e, joinComma_cons_ne _ _ (by simp), joinComma_cons_ne _ _ hne]
    rw [htext] at hf ⊢
    cases fuel with
    | zero => simp at hf
    | succ f =>
      by_cases hlen : p.1.length ≤ 14
      · obtain ⟨v, hv, _, _⟩ := Strconv.ParseInt_decimal p.1 h1 hlen
        rw [ByteTimeSeries.unmarshalLoop_step f ts p.1 p.2 _ (isDecimal_no_comma _ h1) hlen
          (by rw [hv]) (isDecimal_no_comma _ h2) h3]
        exact ih f _ (fun r hr => hp r (by simp [hr]))
          (by simp only [List.length_append, List.length_cons] at hf; omega)
      · refine ⟨ts, ?_⟩
        rw [ByteTimeSeries.unmarshalLoop, if_pos (by simp),
          cutComma_long 15 p.1 _ (isDecimal_no_comma _ h1) (by omega)]

/-- C6 (as stated, refuted): `1,100000000000000,3` has three decimal tokens, and
decoding succeeds with the single record `(1, 0)`: the comma after the 15-digit second
token is not found, the rest `100000000000000,3` is parsed as one count, and the
error of that parse is dropped. -/
theorem byteTimeSeries_odd_counterexample :
    ByteTimeSeries.UnmarshalText [] (List.intercalate [',']
        ["1".toList, "100000000000000".toList, "3".toList])
      = some ([⟨1, 0⟩], none) := by
  decide

/-- C6 (amended): for every text made of an odd number of comma-separated decimal
tokens in which every token in a count position (the 2nd, 4th, …) has at most 14
digits, `ByteTimeSeries.UnmarshalText` returns the error
`invalid time series: odd number of elements`. -/
theorem byteTimeSeries_odd_fails (pairs : List (List Char × List Char)) (last : List Char)
    (ts : ByteTimeSeries)
    (hp : ∀ p ∈ pairs, isDecimal p.1 = true ∧ isDecimal p.2 = true ∧ p.2.length ≤ 14)
    (hl : isDecimal last = true) :
    ∃ ts1, ByteTimeSeries.UnmarshalText ts
        (List.intercalate [','] (pairs.flatMap (fun p => [p.1, p.2]) ++ [last]))
      = some (ts1, some (GoError.errorsNew "invalid time series: odd number of elements")) := by
  rw [← joinComma_eq_intercalate, ByteTimeSeries.UnmarshalText]
  exact ByteTimeSeries.unmarshalLoop_odd pairs last _ ts hp hl (Nat.le_refl _)

/-- Witness for C6 (amended): the three tokens of `1,2,3`, and a first token of 15
digits. -/
theorem byteTimeSeries_odd_fails_witness :
    (∃ ts1, ByteTimeSeries.UnmarshalText []
        (List.intercalate [','] ([("1".toList, "2".toList)].flatMap (fun p => [p.1, p.2])
          ++ ["3".toList]))
      = some (ts1, some (GoError.errorsNew "invalid time series: odd number of elements")))
    ∧ (∃ ts1, ByteTimeSeries.UnmarshalText []
        (List.intercalate [','] ([("100000000000000".toList, "2".toList)].flatMap
          (fun p => [p.1, p.2]) ++ ["3".toList]))
      = some (ts1, some (GoError.errorsNew "invalid time series: odd number of elements"))) :=
  ⟨byteTimeSeries_odd_fails [("1".toList, "2".toList)] "3".toList [] (by decide) (by decide),
    byteTimeSeries_odd_fails [("100000000000000".toList, "2".toList)] "3".toList []
      (by decide) (by decide)⟩

end Ruckusweb

namespace Ruckusweb

namespace RssiTimeSeries

theorem unmarshalLoop_empty (fuel : Nat) (ts : RssiTimeSeries) :
    unmarshalLoop fuel ts [] = some (ts, none) := by
  cases fuel <;> simp [unmarshalLoop]

theorem partsLoop_found (n idx : Nat) (parts : Nat → Nat) (t rest : List Char)
    (ht : isDecimal t = true) (hl : t.length ≤ 14) :
    partsLoop (n + 1) idx parts (t ++ ',' :: rest)
      = partsLoop n (idx + 1)
          (fun k => if k = idx then (Strconv.ParseUint t 10 64).1 else parts k) rest := by
  obtain ⟨v, hv, _⟩ := Strconv.ParseUint_decimal t ht hl
  rw [partsLoop, cutComma_found 15 t rest (isDecimal_no_comma t ht) (by omega)]
  simp only [hv]

theorem partsLoop_end (n : Nat) (parts : Nat → Nat) (t : List Char)
    (ht : isDecimal t = true) (hl : t.length ≤ 14) :
    partsLoop (n + 1) 3 parts t
      = partsLoop n 4 (fun k => if k = 3 then (Strconv.ParseUint t 10 64).1 else parts k) [] := by
  obtain ⟨v, hv, _⟩ := Strconv.ParseUint_decimal t ht hl
  rw [partsLoop, cutComma_not_mem 15 t (isDecimal_no_comma t ht)]
  simp only [hv, if_true]

theorem partsLoop_short (n idx : Nat) (parts : Nat → Nat) (t : List Char)
    (ht : isDecimal t = true) (hidx : idx ≠ 3) :
    partsLoop (n + 1) idx parts t = Except.error
      (GoError.errorsNew "invalid time series: number of elements not divisible by 4") := by
  rw [partsLoop, cutComma_not_mem 15 t (isDecimal_no_comma t ht)]
  simp only [hidx, if_false]

end RssiTimeSeries

end Ruckusweb

namespace Ruckusweb

namespace RssiTimeSeries

/-- Decoding comma-separated decimal tokens of at most 14 digits: one record per
complete group of four, and an error exactly when the number of tokens is not a
multiple of four. -/
theorem unmarshalLoop_tokens : ∀ (tokens : List (List Char)) (fuel : Nat) (ts : RssiTimeSeries),
    (∀ t ∈ tokens, isDecimal t = true ∧ t.length ≤ 14) →
    (joinComma tokens).length ≤ fuel →
    unmarshalLoop fuel ts (joinComma tokens)
      = some (ts ++ ofTokens tokens,
          if tokens.length % 4 = 0 then none
          else some (GoError.errorsNew
            "invalid time series: number of elements not divisible by 4"))
  | [], fuel, ts, _, _ => by
    simpa [joinComma, ofTokens] using unmarshalLoop_empty fuel ts
  | [a], fuel, ts, h, hf => by
    obtain ⟨ha, _⟩ := h a (by simp)
    have hne := isDecimal_ne_nil a ha
    simp only [joinComma] at hf ⊢
    cases fuel with
    | zero => exact absurd (List.length_eq_zero.mp (by omega)) hne
    | succ f =>
      rw [unmarshalLoop, if_pos (List.length_pos.mpr hne), partsLoop_short 3 0 _ a ha (by omega)]
      simp [ofTokens]
  | [a, b], fuel, ts, h, hf => by
    obtain ⟨ha, hal⟩ := h a (by simp)
    obtain ⟨hb, _⟩ := h b (by simp)
    simp only [joinComma] at hf ⊢
    cases fuel with
    | zero => simp at hf
    | succ f =>
      rw [unmarshalLoop, if_pos (by simp), partsLoop_found 3 0 _ a b ha hal,
        partsLoop_short 2 1 _ b hb (by omega)]
      simp [ofTokens]
  | [a, b, c], fuel, ts, h, hf => by
    obtain ⟨ha, hal⟩ := h a (by simp)
    obtain ⟨hb, hbl⟩ := h b (by simp)
    obtain ⟨hc, _⟩ := h c (by simp)
    simp only [joinComma] at hf ⊢
    cases fuel with
    | zero => simp at hf
    | succ f =>
      rw [unmarshalLoop, if_pos (by simp), partsLoop_found 3 0 _ a _ ha hal,
        partsLoop_found 2 1 _ b c hb hbl, partsLoop_short 1 2 _ c hc (by omega)]
      simp [ofTokens]
  | [a, b, c, d], fuel, ts, h, hf => by
    obtain ⟨ha, hal⟩ := h a (by simp)
    obtain ⟨hb, hbl⟩ := h b (by simp)
    obtain ⟨hc, hcl⟩ := h c (by simp)
    obtain ⟨hd, hdl⟩ := h d (by simp)
    simp only [joinComma] at hf ⊢
    cases fuel with
    | zero => simp at hf
    | succ f =>
      rw [unmarshalLoop, if_pos (by simp), partsLoop_found 3 0 _ a _ ha hal,
        partsLoop_found 2 1 _ b _ hb hbl, partsLoop_found 1 2 _ c d hc hcl,
        partsLoop_end 0 _ d hd hdl]
      simp only [partsLoop]
      rw [unmarshalLoop_empty]
      simp [ofTokens]
  | a :: b :: c :: d :: e :: rest, fuel, ts, h, hf => by
    obtain ⟨ha, hal⟩ := h a (by simp)
    obtain ⟨hb, hbl⟩ := h b (by simp)
    obtain ⟨hc, hcl⟩ := h c (by simp)
    obtain ⟨hd, hdl⟩ := h d (by simp)
    have htext : joinComma (a :: b :: c :: d :: e :: rest)
        = a ++ ',' :: (b ++ ',' :: (c ++ ',' :: (d ++ ',' :: joinComma (e :: rest)))) := rfl
    rw [htext] at hf ⊢
    cases fuel with
    | zero => simp at hf
    | succ f =>
      rw [unmarshalLoop, if_pos (by simp), partsLoop_found 3 0 _ a _ ha hal,
        partsLoop_found 2 1 _ b _ hb hbl, partsLoop_found 1 2 _ c _ hc hcl,
        partsLoop_found 0 3 _ d _ hd hdl]
      simp only [partsLoop]
      rw [unmarshalLoop_tokens (e :: rest) f _ (fun t ht => h t (by simp [ht]))
        (by simp only [List.length_append, List.length_cons] at hf; omega)]
      have hlen : (a :: b :: c :: d :: e :: rest).length % 4 = (e :: rest).length % 4 := by
        simp only [List.length_cons]
        omega
      rw [hlen]
      simp [ofTokens]

end RssiTimeSeries

end Ruckusweb

namespace Ruckusweb

namespace RssiTimeSeries

theorem tokens_decimal (r : RssiTimeSeriesRecord) (hAt : 0 ≤ r.At ∧ r.At < 10 ^ 14)
    (hE : r.Excellent < 2 ^ 32) (hM : r.Moderate < 2 ^ 32) (hP : r.Poor < 2 ^ 32) :
    ∀ t ∈ tokens r, isDecimal t = true ∧ t.length ≤ 14 := by
  intro t ht
  simp only [tokens, List.mem_cons, List.mem_singleton, List.not_mem_nil, or_false] at ht
  rcases ht with rfl | rfl | rfl | rfl
  · rw [Strconv.AppendInt_of_nonneg r.At hAt.1 (by omega)]
    exact ⟨Strconv.AppendUint_isDecimal _ (by omega), Strconv.AppendUint_length _ 13 (by omega)⟩
  · exact ⟨Strconv.AppendUint_isDecimal _ (by omega), Strconv.AppendUint_length _ 13 (by omega)⟩
  · exact ⟨Strconv.AppendUint_isDecimal _ (by omega), Strconv.AppendUint_length _ 13 (by omega)⟩
  · exact ⟨Strconv.AppendUint_isDecimal _ (by omega), Strconv.AppendUint_length _ 13 (by omega)⟩

theorem ofTokens_tokens (S : RssiTimeSeries)
    (h : ∀ r ∈ S, (0 ≤ r.At ∧ r.At < 10 ^ 14) ∧ r.Excellent < 2 ^ 32 ∧ r.Moderate < 2 ^ 32
      ∧ r.Poor < 2 ^ 32) :
    ofTokens (S.flatMap tokens) = S := by
  induction S with
  | nil => rfl
  | cons r rs ih =>
    obtain ⟨hAt, hE, hM, hP⟩ := h r (by simp)
    have e : (r :: rs).flatMap tokens
        = Strconv.AppendInt [] r.At 10 :: Strconv.AppendUint [] r.Excellent 10
          :: Strconv.AppendUint [] r.Moderate 10 :: Strconv.AppendUint [] r.Poor 10
          :: rs.flatMap tokens := by
      rw [List.flatMap_cons]
      rfl
    rw [e, ofTokens, ih (fun q hq => h q (by simp [hq])),
      Strconv.AppendInt_of_nonneg r.At hAt.1 (by omega),
      Strconv.ParseUint_AppendUint _ (by omega), Strconv.ParseUint_AppendUint _ (by omega),
      Strconv.ParseUint_AppendUint _ (by omega), Strconv.ParseUint_AppendUint _ (by omega)]
    simp only
    rw [Strconv.toInt64_of_lt _ (by omega), Nat.mod_eq_of_lt hE, Nat.mod_eq_of_lt hM,
      Nat.mod_eq_of_lt hP]
    have hcast : ((r.At.toNat : Nat) : Int) = r.At := by omega
    rw [hcast]

theorem length_flatMap_tokens (S : RssiTimeSeries) : (S.flatMap tokens).length = 4 * S.length := by
  induction S with
  | nil => rfl
  | cons r rs ih =>
    rw [List.flatMap_cons, List.length_append, ih]
    simp only [tokens, List.length_cons, List.length_nil]
    omega

end RssiTimeSeries

/-- C5 (as stated, refuted): a record at `10^14` seconds is written with a 15-digit
time, whose comma is not among the first 15 bytes; a record at `-1` seconds is written
as `-1,…`, which `ParseUint` rejects. Both decodings return an error. -/
theorem rssiTimeSeries_decode_encode_counterexample :
    RssiTimeSeries.UnmarshalText []
        (RssiTimeSeries.MarshalText [⟨100000000000000, 0, 0, 0⟩]).1
      = some ([], some (GoError.errorsNew
          "invalid time series: number of elements not divisible by 4"))
    ∧ RssiTimeSeries.UnmarshalText [] (RssiTimeSeries.MarshalText [⟨-1, 0, 0, 0⟩]).1
      = some ([], some GoError.invalidNumber) := by
  constructor <;> decide

/-- C5 (amended): for every signal-quality time series whose times are non-negative
and below `10^14` and whose counts are `uint32` values, `MarshalText` succeeds and
`UnmarshalText` of its text into an empty series succeeds and yields the series record
for record. -/
theorem rssiTimeSeries_decode_encode (S : RssiTimeSeries)
    (h : ∀ r ∈ S, (0 ≤ r.At ∧ r.At < 10 ^ 14) ∧ r.Excellent < 2 ^ 32 ∧ r.Moderate < 2 ^ 32
      ∧ r.Poor < 2 ^ 32) :
    (RssiTimeSeries.MarshalText S).2 = none
      ∧ RssiTimeSeries.UnmarshalText [] (RssiTimeSeries.MarshalText S).1 = some (S, none) := by
  refine ⟨rfl, ?_⟩
  rw [RssiTimeSeries.UnmarshalText, RssiTimeSeries.MarshalText_tokens,
    RssiTimeSeries.unmarshalLoop_tokens _ _ [] ?_ (Nat.le_refl _),
    RssiTimeSeries.ofTokens_tokens S h, RssiTimeSeries.length_flatMap_tokens,
    if_pos (by omega)]
  · rfl
  · intro t ht
    simp only [List.mem_flatMap] at ht
    obtain ⟨r, hr, htr⟩ := ht
    obtain ⟨hAt, hE, hM, hP⟩ := h r hr
    exact RssiTimeSeries.tokens_decimal r hAt hE hM hP t htr

/-- Witness for C5 (amended): two records, the second with the largest counts. -/
theorem rssiTimeSeries_decode_encode_witness :
    (RssiTimeSeries.MarshalText [⟨0, 1, 2, 3⟩, ⟨1700000000, 4294967295, 0, 4294967295⟩]).2 = none
      ∧ RssiTimeSeries.UnmarshalText []
          (RssiTimeSeries.MarshalText
            [⟨0, 1, 2, 3⟩, ⟨1700000000, 4294967295, 0, 4294967295⟩]).1
        = some ([⟨0, 1, 2, 3⟩, ⟨1700000000, 4294967295, 0, 4294967295⟩], none) :=
  rssiTimeSeries_decode_encode [⟨0, 1, 2, 3⟩, ⟨1700000000, 4294967295, 0, 4294967295⟩]
    (by decide)

/-- C7 (as stated, refuted): one token, and five tokens, leave a final group of
exactly one token, and decoding fails on it. -/
theorem rssiTimeSeries_trailing_counterexample :
    RssiTimeSeries.UnmarshalText [] (List.intercalate [','] ["5".toList])
      = some ([], some (GoError.errorsNew
          "invalid time series: number of elements not divisible by 4"))
    ∧ RssiTimeSeries.UnmarshalText [] (List.intercalate [',']
        ["1".toList, "2".toList, "3".toList, "4".toList, "5".toList])
      = some ([⟨1, 2, 3, 4⟩], some (GoError.errorsNew
          "invalid time series: number of elements not divisible by 4")) := by
  constructor <;> decide

/-- C7 (amended): for every text made of `n` comma-separated decimal tokens of at
most 14 digits, `RssiTimeSeries.UnmarshalText` succeeds when `n` is a multiple of 4 and
fails with `number of elements not divisible by 4` when the final group has 1, 2 or 3
tokens; in both cases it has appended one record per complete group of four. -/
theorem rssiTimeSeries_group_of_four (tokens : List (List Char)) (ts : RssiTimeSeries)
    (h : ∀ t ∈ tokens, isDecimal t = true ∧ t.length ≤ 14) :
    (tokens.length % 4 = 0 →
        RssiTimeSeries.UnmarshalText ts (List.intercalate [','] tokens)
          = some (ts ++ RssiTimeSeries.ofTokens tokens, none))
    ∧ (tokens.length % 4 ≠ 0 →
        RssiTimeSeries.UnmarshalText ts (List.intercalate [','] tokens)
          = some (ts ++ RssiTimeSeries.ofTokens tokens, some (GoError.errorsNew
              "invalid time series: number of elements not divisible by 4"))) := by
  rw [← joinComma_eq_intercalate, RssiTimeSeries.UnmarshalText,
    RssiTimeSeries.unmarshalLoop_tokens tokens _ ts h (Nat.le_refl _)]
  constructor
  · intro h0
    rw [if_pos h0]
  · intro h0
    rw [if_neg h0]

/-- Witness for C7 (amended): the four tokens of `1,2,3,4`. -/
theorem rssiTimeSeries_group_of_four_witness :
    (["1".toList, "2".toList, "3".toList, "4".toList].length % 4 = 0 →
        RssiTimeSeries.UnmarshalText [] (List.intercalate [',']
            ["1".toList, "2".toList, "3".toList, "4".toList])
          = some ([] ++ RssiTimeSeries.ofTokens
              ["1".toList, "2".toList, "3".toList, "4".toList], none))
    ∧ (["1".toList, "2".toList, "3".toList, "4".toList].length % 4 ≠ 0 →
        RssiTimeSeries.UnmarshalText [] (List.intercalate [',']
            ["1".toList, "2".toList, "3".toList, "4".toList])
          = some ([] ++ RssiTimeSeries.ofTokens
              ["1".toList, "2".toList, "3".toList, "4".toList], some (GoError.errorsNew
              "invalid time series: number of elements not divisible by 4"))) :=
  rssiTimeSeries_group_of_four ["1".toList, "2".toList, "3".toList, "4".toList] []
    (by decide)

end Ruckusweb

namespace Ruckusweb

/-! ## Hardware addresses -/

namespace Net

set_option maxRecDepth 100000 in
theorem xtoi_hex (b : Nat) (hb : b < 256) :
    xtoi [hexDigitAt (b >>> 4), hexDigitAt (b &&& 15)] = (b, 2, true) := by
  revert b
  decide

theorem foldl_enumFrom_hex (l : List Nat) (n : Nat) (hn : 0 < n) (buf : List Char) :
    (l.enumFrom n).foldl (fun buf ib =>
        let buf := if ib.1 > 0 then buf ++ [':'] else buf
        let buf := buf ++ [hexDigitAt (ib.2 >>> 4)]
        buf ++ [hexDigitAt (ib.2 &&& 15)]) buf
      = buf ++ (l.map (fun b => [':', hexDigitAt (b >>> 4), hexDigitAt (b &&& 15)])).flatten := by
  induction l generalizing n buf with
  | nil => simp
  | cons b bs ih =>
    rw [List.enumFrom_cons, List.foldl_cons, ih (n + 1) (by omega)]
    simp [hn]

/-- The text of a non-empty address: two hex digits for the first byte, then a
colon and two hex digits for every further byte. -/
theorem HardwareAddrString_cons (b : Nat) (bs : List Nat) :
    HardwareAddrString (b :: bs)
      = [hexDigitAt (b >>> 4), hexDigitAt (b &&& 15)]
        ++ (bs.map (fun b => [':', hexDigitAt (b >>> 4), hexDigitAt (b &&& 15)])).flatten := by
  rw [HardwareAddrString, if_neg (by simp), List.enum, List.enumFrom_cons, List.foldl_cons,
    foldl_enumFrom_hex bs 1 (by omega)]
  simp

theorem HardwareAddrString_length (b : Nat) (bs : List Nat) :
    (HardwareAddrString (b :: bs)).length = 3 * bs.length + 2 := by
  rw [HardwareAddrString_cons]
  induction bs with
  | nil => rfl
  | cons c cs ih =>
    simp only [List.map_cons, List.flatten_cons, List.length_append, List.length_cons,
      List.length_nil] at ih ⊢
    omega

theorem parseMACLoop3_text (bs : List Nat) (b : Nat) (hb : b < 256) (hbs : ∀ c ∈ bs, c < 256) :
    parseMACLoop3 ':' (bs.length + 1)
        ([hexDigitAt (b >>> 4), hexDigitAt (b &&& 15)]
          ++ (bs.map (fun b => [':', hexDigitAt (b >>> 4), hexDigitAt (b &&& 15)])).flatten)
      = some (b :: bs) := by
  induction bs generalizing b with
  | nil =>
    simp only [List.map_nil, List.flatten_nil, List.append_nil, List.length_nil, Nat.zero_add]
    rw [parseMACLoop3]
    have hx : xtoi2 [hexDigitAt (b >>> 4), hexDigitAt (b &&& 15)] ':' = (b, true) := by
      rw [xtoi2, if_neg (by simp)]
      simp only [List.take, xtoi_hex b hb, Nat.mod_eq_of_lt hb]
      rfl
    rw [hx]
    rfl
  | cons c cs ih =>
    simp only [List.map_cons, List.flatten_cons, List.length_cons]
    rw [parseMACLoop3]
    have hx : xtoi2 ([hexDigitAt (b >>> 4), hexDigitAt (b &&& 15)]
        ++ ([':', hexDigitAt (c >>> 4), hexDigitAt (c &&& 15)]
          ++ (cs.map (fun b => [':', hexDigitAt (b >>> 4), hexDigitAt (b &&& 15)])).flatten)) ':'
        = (b, true) := by
      rw [xtoi2, if_neg (by simp)]
      simp only [List.cons_append, List.nil_append, List.take, xtoi_hex b hb,
        Nat.mod_eq_of_lt hb]
      rfl
    rw [hx]
    simp only [List.cons_append, List.nil_append, List.drop_succ_cons, List.drop_zero]
    have := ih c (hbs c (by simp)) (fun d hd => hbs d (by simp [hd]))
    simp only [List.cons_append, List.nil_append] at this
    rw [this]
    rfl

/-- Parsing the text of an address of 6, 8 or 20 bytes gives the address back. -/
theorem ParseMAC_HardwareAddrString (a : List Nat) (ha : ∀ b ∈ a, b < 256)
    (hlen : a.length = 6 ∨ a.length = 8 ∨ a.length = 20) :
    ParseMAC (HardwareAddrString a) = (some a, none) := by
  match a, ha, hlen with
  | [], _, hlen => simp at hlen
  | [_], _, hlen => simp at hlen
  | b :: c :: cs, ha, hlen =>
    have hl := HardwareAddrString_length b (c :: cs)
    simp only [List.length_cons] at hl hlen
    have h2 : (HardwareAddrString (b :: c :: cs)).getD 2 ' ' = ':' := by
      rw [HardwareAddrString_cons]
      rfl
    have hp := parseMACLoop3_text (c :: cs) b (ha b (by simp)) (fun d hd => ha d (by simp [hd]))
    rw [← HardwareAddrString_cons] at hp
    simp only [List.length_cons] at hp
    have hn : (HardwareAddrString (b :: c :: cs)).length + 1 = 3 * (cs.length + 1 + 1) := by omega
    have hdiv : ((HardwareAddrString (b :: c :: cs)).length + 1) / 3 = cs.length + 1 + 1 := by
      omega
    unfold ParseMAC
    simp only [h2, true_or, if_true, hdiv, hp]
    rw [if_neg (by omega), if_neg (by omega), if_neg (by omega)]

end Net

end Ruckusweb

namespace Ruckusweb

/-- C10 (as stated, refuted): the empty address is written as the empty text and the
three-byte address `01:02:03` as eight bytes of text; `ParseMAC` rejects both, as it
rejects every text shorter than 14 bytes. -/
theorem macAddress_decode_encode_counterexample :
    (MacAddress.UnmarshalText [] (MacAddress.MarshalText []).1).2
        = some (GoError.addrError "invalid MAC address" [])
    ∧ (MacAddress.UnmarshalText [] (MacAddress.MarshalText [1, 2, 3]).1).2
        = some (GoError.addrError "invalid MAC address" "01:02:03".toList) := by
  constructor <;> decide

/-- C10 (amended): for every hardware address of 6, 8 or 20 bytes, `MarshalText`
succeeds and `UnmarshalText` of its text succeeds and yields the address, whatever the
target held before. -/
theorem macAddress_decode_encode (a m : MacAddress) (ha : ∀ b ∈ a, b < 256)
    (hlen : a.length = 6 ∨ a.length = 8 ∨ a.length = 20) :
    (MacAddress.MarshalText a).2 = none
      ∧ MacAddress.UnmarshalText m (MacAddress.MarshalText a).1 = (a, none) := by
  refine ⟨rfl, ?_⟩
  simp only [MacAddress.UnmarshalText, MacAddress.MarshalText,
    Net.ParseMAC_HardwareAddrString a ha hlen]

/-- Witness for C10 (amended): a six-byte address. -/
theorem macAddress_decode_encode_witness :
    (MacAddress.MarshalText [0, 1, 255, 16, 171, 9]).2 = none
      ∧ MacAddress.UnmarshalText [] (MacAddress.MarshalText [0, 1, 255, 16, 171, 9]).1
        = ([0, 1, 255, 16, 171, 9], none) :=
  macAddress_decode_encode [0, 1, 255, 16, 171, 9] [] (by decide) (by decide)

/-- C8 (code evaluated at the failing input): `Timestamp.MarshalText` drops the result
of `strconv.AppendInt` and returns the empty text for the instant 1700000000, although
`AppendInt` itself produces `1700000000`. -/
theorem timestamp_marshal_drops_digits :
    Timestamp.MarshalText 1700000000 = ([], none)
      ∧ Strconv.AppendInt [] 1700000000 10 = "1700000000".toList
      ∧ (Timestamp.MarshalText 1700000000).1 ≠ "1700000000".toList := by
  refine ⟨rfl, ?_, ?_⟩ <;> decide

/-- C9 (code evaluated at the failing input): the text produced by
`Timestamp.MarshalText` for the instant 1700000000 is empty, so `UnmarshalText` of it
fails with a syntax error and leaves the target as it was, while the numeral
`1700000000` itself decodes to the instant. -/
theorem timestamp_roundtrip_fails :
    Timestamp.UnmarshalText 0 (Timestamp.MarshalText 1700000000).1
        = (0, some GoError.invalidNumber)
      ∧ Timestamp.UnmarshalText 0 "1700000000".toList = (1700000000, none) := by
  constructor <;> decide

end Ruckusweb

namespace Ruckusweb

/-! ## Booleans and queue priority -/

/-- C11: for every boolean `b`, both codecs decode what they encode to `b`, whatever
the target held before, with `true` written as `enabled` resp. `1` and `false` as
`disabled` resp. `0`. -/
theorem bool_decode_encode (b target : Bool) :
    EnabledBool.UnmarshalText target (EnabledBool.MarshalText b).1 = (b, none)
      ∧ IntBool.UnmarshalText target (IntBool.MarshalText b).1 = (b, none)
      ∧ EnabledBool.MarshalText true = ("enabled".toList, none)
      ∧ EnabledBool.MarshalText false = ("disabled".toList, none)
      ∧ IntBool.MarshalText true = ("1".toList, none)
      ∧ IntBool.MarshalText false = ("0".toList, none) := by
  cases b <;> cases target <;> decide

theorem EnabledBool.UnmarshalText_cases (b : Bool) (text : List Char) :
    (text = "enabled".toList ∧ EnabledBool.UnmarshalText b text = (true, none))
      ∨ (text = "disabled".toList ∧ EnabledBool.UnmarshalText b text = (false, none))
      ∨ (text ≠ "enabled".toList ∧ text ≠ "disabled".toList ∧ EnabledBool.UnmarshalText b text
          = (b, some (GoError.errorfQuoted "invalid EnabledBool: " text))) := by
  unfold EnabledBool.UnmarshalText
  by_cases h1 : text = "enabled".toList
  · exact Or.inl ⟨h1, by rw [if_pos h1]⟩
  · by_cases h2 : text = "disabled".toList
    · exact Or.inr (Or.inl ⟨h2, by rw [if_neg h1, if_pos h2]⟩)
    · exact Or.inr (Or.inr ⟨h1, h2, by rw [if_neg h1, if_neg h2]⟩)

theorem IntBool.UnmarshalText_trichotomy (b : Bool) (text : List Char) :
    (text = "1".toList ∧ IntBool.UnmarshalText b text = (true, none))
      ∨ (text = "0".toList ∧ IntBool.UnmarshalText b text = (false, none))
      ∨ (text ≠ "1".toList ∧ text ≠ "0".toList ∧ IntBool.UnmarshalText b text
          = (b, some (GoError.errorfQuoted "invalid IntBool: " text))) := by
  unfold IntBool.UnmarshalText
  match text with
  | [] => exact Or.inr (Or.inr ⟨by decide, by decide, rfl⟩)
  | [c] =>
    by_cases h1 : c = '1'
    · subst h1
      exact Or.inl ⟨rfl, rfl⟩
    · by_cases h0 : c = '0'
      · subst h0
        exact Or.inr (Or.inl ⟨rfl, rfl⟩)
      · refine Or.inr (Or.inr ⟨?_, ?_, ?_⟩)
        · intro h
          exact h1 (List.head_eq_of_cons_eq h)
        · intro h
          exact h0 (List.head_eq_of_cons_eq h)
        · have e1 : [c].length = 1 := rfl
          have e2 : [c].getD 0 ' ' = c := rfl
          rw [if_pos e1, e2, if_neg h1, if_neg h0]
  | c :: d :: rest =>
    refine Or.inr (Or.inr ⟨?_, ?_, ?_⟩)
    · intro h
      have := congrArg List.length h
      simp at this
    · intro h
      have := congrArg List.length h
      simp at this
    · rw [if_neg (by simp)]

/-- C12: `EnabledBool.UnmarshalText` succeeds exactly on the texts `enabled` and
`disabled`, `IntBool.UnmarshalText` exactly on the one-byte texts `1` and `0`; when
either fails, the target keeps its value and the error is the `%q`-formatted error
carrying the rejected text. -/
theorem bool_unmarshal_accepts (b : Bool) (text : List Char) :
    ((EnabledBool.UnmarshalText b text).2 = none
        ↔ text = "enabled".toList ∨ text = "disabled".toList)
      ∧ ((IntBool.UnmarshalText b text).2 = none ↔ text = "1".toList ∨ text = "0".toList)
      ∧ ((EnabledBool.UnmarshalText b text).2 ≠ none →
          EnabledBool.UnmarshalText b text
            = (b, some (GoError.errorfQuoted "invalid EnabledBool: " text)))
      ∧ ((IntBool.UnmarshalText b text).2 ≠ none →
          IntBool.UnmarshalText b text
            = (b, some (GoError.errorfQuoted "invalid IntBool: " text))) := by
  refine ⟨?_, ?_, ?_, ?_⟩
  · rcases EnabledBool.UnmarshalText_cases b text with ⟨h, e⟩ | ⟨h, e⟩ | ⟨h1, h2, e⟩
    · rw [e]; exact ⟨fun _ => Or.inl h, fun _ => rfl⟩
    · rw [e]; exact ⟨fun _ => Or.inr h, fun _ => rfl⟩
    · rw [e]
      constructor
      · intro h; exact absurd h (by simp)
      · intro h; rcases h with h | h
        · exact absurd h h1
        · exact absurd h h2
  · rcases IntBool.UnmarshalText_trichotomy b text with ⟨h, e⟩ | ⟨h, e⟩ | ⟨h1, h2, e⟩
    · rw [e]; exact ⟨fun _ => Or.inl h, fun _ => rfl⟩
    · rw [e]; exact ⟨fun _ => Or.inr h, fun _ => rfl⟩
    · rw [e]
      constructor
      · intro h; exact absurd h (by simp)
      · intro h; rcases h with h | h
        · exact absurd h h1
        · exact absurd h h2
  · intro hne
    rcases EnabledBool.UnmarshalText_cases b text with ⟨_, e⟩ | ⟨_, e⟩ | ⟨_, _, e⟩
    · rw [e] at hne; exact absurd rfl hne
    · rw [e] at hne; exact absurd rfl hne
    · exact e
  · intro hne
    rcases IntBool.UnmarshalText_trichotomy b text with ⟨_, e⟩ | ⟨_, e⟩ | ⟨_, _, e⟩
    · rw [e] at hne; exact absurd rfl hne
    · rw [e] at hne; exact absurd rfl hne
    · exact e

/-- C13: given the tuple that `DecodeElement` parsed without error,
`WlanQueuePriority.UnmarshalXML` yields true without error iff the tuple is
`(0,2,4,6)`, yields false without error iff it is `(1,3,5,7)`, and otherwise returns
an error and leaves the target as it was; `(0,0,0,0)` is rejected. -/
theorem queuePriority_unmarshal (p : Bool) (i : innerWlanQueuePriority) :
    (WlanQueuePriority.UnmarshalXML p (i, none) = (true, none) ↔ i = ⟨0, 2, 4, 6⟩)
      ∧ (WlanQueuePriority.UnmarshalXML p (i, none) = (false, none) ↔ i = ⟨1, 3, 5, 7⟩)
      ∧ (i ≠ ⟨0, 2, 4, 6⟩ → i ≠ ⟨1, 3, 5, 7⟩ →
          WlanQueuePriority.UnmarshalXML p (i, none)
            = (p, some (GoError.errorsNew "wlan queue priority is neither HIGH nor LOW")))
      ∧ (WlanQueuePriority.UnmarshalXML p (⟨0, 0, 0, 0⟩, none)).2 ≠ none := by
  have hne : (⟨0, 2, 4, 6⟩ : innerWlanQueuePriority) ≠ ⟨1, 3, 5, 7⟩ := by decide
  refine ⟨?_, ?_, ?_, by cases p <;> decide⟩
  · by_cases h1 : i = ⟨0, 2, 4, 6⟩
    · subst h1
      simp [WlanQueuePriority.UnmarshalXML, innerWlanQueuePriorityHigh]
    · by_cases h2 : i = ⟨1, 3, 5, 7⟩
      · subst h2
        simp [WlanQueuePriority.UnmarshalXML, innerWlanQueuePriorityHigh,
          innerWlanQueuePriorityLow]
      · simp [WlanQueuePriority.UnmarshalXML, innerWlanQueuePriorityHigh,
          innerWlanQueuePriorityLow, h1, h2]
  · by_cases h1 : i = ⟨0, 2, 4, 6⟩
    · subst h1
      simp [WlanQueuePriority.UnmarshalXML, innerWlanQueuePriorityHigh]
    · by_cases h2 : i = ⟨1, 3, 5, 7⟩
      · subst h2
        simp [WlanQueuePriority.UnmarshalXML, innerWlanQueuePriorityHigh,
          innerWlanQueuePriorityLow]
      · simp [WlanQueuePriority.UnmarshalXML, innerWlanQueuePriorityHigh,
          innerWlanQueuePriorityLow, h1, h2]
  · intro h1 h2
    simp [WlanQueuePriority.UnmarshalXML, innerWlanQueuePriorityHigh,
      innerWlanQueuePriorityLow, h1, h2]

/-- C14: for every priority `p`, `MarshalXML` writes one element with the attributes
`voice`, `video`, `data`, `background`, in this order, with the values `0,2,4,6` when
`p` is true and `1,3,5,7` when it is false, and `UnmarshalXML` of the tuple decoded
from that element returns `p`. -/
theorem queuePriority_marshal (p target : Bool) (name : String) :
    WlanQueuePriority.MarshalXML p name
        = (⟨name, if p then [("voice", "0".toList), ("video", "2".toList),
              ("data", "4".toList), ("background", "6".toList)]
            else [("voice", "1".toList), ("video", "3".toList),
              ("data", "5".toList), ("background", "7".toList)]⟩, none)
      ∧ WlanQueuePriority.UnmarshalXML target
          (innerWlanQueuePriority.DecodeElement ⟨0, 0, 0, 0⟩
            (WlanQueuePriority.MarshalXML p name).1.attrs) = (p, none) := by
  have hH : (WlanQueuePriority.MarshalXML true name).1.attrs
      = [("voice", "0".toList), ("video", "2".toList), ("data", "4".toList),
          ("background", "6".toList)] := by
    simp only [WlanQueuePriority.MarshalXML, innerWlanQueuePriority.EncodeElement, if_true]
    decide
  have hL : (WlanQueuePriority.MarshalXML false name).1.attrs
      = [("voice", "1".toList), ("video", "3".toList), ("data", "5".toList),
          ("background", "7".toList)] := by
    simp only [WlanQueuePriority.MarshalXML, innerWlanQueuePriority.EncodeElement,
      Bool.false_eq_true, if_false]
    decide
  cases p
  · refine ⟨?_, ?_⟩
    · have e : WlanQueuePriority.MarshalXML false name
          = (⟨name, (WlanQueuePriority.MarshalXML false name).1.attrs⟩, none) := rfl
      rw [e, hL]
      rfl
    · rw [hL]
      cases target <;> decide
  · refine ⟨?_, ?_⟩
    · have e : WlanQueuePriority.MarshalXML true name
          = (⟨name, (WlanQueuePriority.MarshalXML true name).1.attrs⟩, none) := rfl
      rw [e, hH]
      rfl
    · rw [hH]
      cases target <;> decide

end Ruckusweb

namespace Ruckusweb

/-! ## Envelope -/

/-- The branch `if resp.Response.Xmsg != nil` of `conf`, taken by itself: if a decoder
were to return, without error, an envelope whose `Xmsg` is set, `conf` would return
that `xmsg` as the error, with its four fields as decoded, whatever `Raw` holds and
whether or not a destination was supplied, and would not write the destination. -/
theorem conf_returns_xmsg {δ : Type} (env : PostXmlEnv ajaxRequest confResponse)
    (request : confReq) (payload : Option (List Char × Option GoError))
    (unmarshal : List Char → δ → δ × Option GoError) (response : Option δ) (x : xmsg)
    (hpay : ∀ bytes err, payload ≠ some (bytes, some err))
    (herr : (Client.postXml env (Client.confEnvelope request payload)
      (confResponse.mk "" "" none [])).err = none)
    (hx : (Client.postXml env (Client.confEnvelope request payload)
      (confResponse.mk "" "" none [])).response.Xmsg = some x) :
    Client.conf env request payload unmarshal response
      = (response, some (GoError.xmsgError x)) := by
  unfold Client.conf
  split
  · rename_i bytes err
    exact absurd rfl (hpay bytes err)
  · simp only [herr, hx]

namespace Xml

theorem unmarshalResponseAttrs_xmsg (attrs : List (String × String)) (r : confResponse)
    (h : r.Xmsg = none) (herr : (unmarshalResponseAttrs attrs r).2 = none) :
    (unmarshalResponseAttrs attrs r).1.Xmsg = none := by
  induction attrs generalizing r with
  | nil => exact h
  | cons a rest ih =>
    rw [unmarshalResponseAttrs] at herr ⊢
    by_cases h1 : a.1 = "type"
    · rw [if_pos h1] at herr ⊢
      exact ih _ h herr
    · rw [if_neg h1] at herr ⊢
      by_cases h2 : a.1 = "id"
      · rw [if_pos h2] at herr ⊢
        exact ih _ h herr
      · rw [if_neg h2] at herr ⊢
        by_cases h3 : a.1 = "xmsg"
        · rw [if_pos h3] at herr
          exact absurd herr (by simp)
        · rw [if_neg h3] at herr ⊢
          exact ih _ h herr

theorem unmarshalResponse_xmsg (e : XmlTree) (r : confResponse)
    (h : r.Xmsg = none) (herr : (unmarshalResponse e r).2 = none) :
    (unmarshalResponse e r).1.Xmsg = none := by
  unfold unmarshalResponse at herr ⊢
  have hattrs := unmarshalResponseAttrs_xmsg e.attrs r h
  rcases hres : unmarshalResponseAttrs e.attrs r with ⟨r1, _ | err⟩
  · rw [hres] at hattrs
    exact hattrs rfl
  · rw [hres] at herr
    exact absurd herr (by simp)

theorem unmarshalChildren_xmsg (es : List XmlTree) (r : confResponse)
    (h : r.Xmsg = none) (herr : (unmarshalChildren es r).2 = none) :
    (unmarshalChildren es r).1.Xmsg = none := by
  induction es generalizing r with
  | nil => exact h
  | cons e rest ih =>
    rw [unmarshalChildren] at herr ⊢
    by_cases hn : e.name = "response"
    · rw [if_pos hn] at herr ⊢
      have hone := unmarshalResponse_xmsg e r h
      rcases hres : unmarshalResponse e r with ⟨r1, _ | err⟩
      · rw [hres] at hone herr
        exact ih r1 (hone rfl) herr
      · rw [hres] at herr
        exact absurd herr (by simp)
    · rw [if_neg hn] at herr ⊢
      exact ih r h herr

/-- Whenever `Decode` returns no error, the field `Xmsg` of the envelope is as it was
before the call: no input makes the decoder fill it in. -/
theorem decodeConf_xmsg (firstElement : List Char → Except GoError XmlTree)
    (data : List Char) (r : confResponse) (h : r.Xmsg = none)
    (herr : (decodeConf firstElement data r).2 = none) :
    (decodeConf firstElement data r).1.Xmsg = none := by
  unfold decodeConf at herr ⊢
  cases hfirst : firstElement data with
  | error err =>
    rw [hfirst] at herr
    exact absurd herr (by simp)
  | ok e =>
    rw [hfirst] at herr
    simp only at herr ⊢
    by_cases hn : e.name ≠ "ajax-response"
    · rw [if_pos hn] at herr
      exact absurd herr (by simp)
    · rw [if_neg hn] at herr ⊢
      exact unmarshalChildren_xmsg e.children r h herr

end Xml

/-- With the decoder of `encoding/xml`, a call of `postXml` for `conf` that returns no
error leaves `Xmsg` nil. -/
theorem postXml_conf_xmsg (firstElement : List Char → Except GoError XmlTree)
    (env : PostXmlEnv ajaxRequest confResponse) (req : ajaxRequest)
    (herr : (Client.postXml { env with decode := Xml.decodeConf firstElement } req
      (confResponse.mk "" "" none [])).err = none) :
    (Client.postXml { env with decode := Xml.decodeConf firstElement } req
      (confResponse.mk "" "" none [])).response.Xmsg = none := by
  unfold Client.postXml at herr ⊢
  simp only at herr ⊢
  split at herr
  · exact absurd herr (by simp)
  · split at herr
    · exact absurd herr (by simp)
    · split at herr
      · exact absurd herr (by simp)
      · split at herr
        · exact absurd herr (by simp)
        · split at herr
          · exact absurd herr (by simp)
          · split at herr
            · exact absurd herr (by simp)
            · rename_i h1 _ h2 _ h3 _ h4 hst _ h5
              simp only [h1, h2, h3, h4, h5, if_neg hst]
              exact Xml.decodeConf_xmsg firstElement _ _ rfl herr

/-- C15 (code evaluated at the failing input): the response body `confErrorBody`
carries a structured error element `xmsg` next to a result element. The field `Xmsg`
is tagged `xmsg,attr`, so the decoder skips the element: `conf` returns no error when
no destination is supplied, and with a destination it hands the raw payload, error
element included, to `xml.Unmarshal` and returns what that returns. When the error is
sent as the attribute `xmsg`, the decoder fails and `conf` returns the decoder's
error, not the structured error. For every tokenizer and every exchange, a call of
`postXml` for `conf` either returns an error or leaves `Xmsg` nil, so the branch that
returns the structured error is never taken. -/
theorem conf_xmsg_element_ignored :
    @Client.conf Nat (confExchange confErrorBody) ⟨"getconf", "", "system"⟩ none
        (fun _ dest => (dest, none)) none = (none, none)
      ∧ (∀ (unmarshal : List Char → Nat → Nat × Option GoError) (dest : Nat),
          Client.conf (confExchange confErrorBody) ⟨"getconf", "", "system"⟩ none unmarshal
              (some dest)
            = (some (unmarshal confErrorRaw.toList dest).1,
                (unmarshal confErrorRaw.toList dest).2))
      ∧ @Client.conf Nat (confExchange confAttrBody) ⟨"getconf", "", "system"⟩ none
          (fun _ dest => (dest + 1, none)) (some 0)
          = (some 0, some (GoError.errorsNew "cannot unmarshal into ruckusweb.xmsg"))
      ∧ (∀ (firstElement : List Char → Except GoError XmlTree)
          (env : PostXmlEnv ajaxRequest confResponse) (req : ajaxRequest),
          (Client.postXml { env with decode := Xml.decodeConf firstElement } req
              (confResponse.mk "" "" none [])).err ≠ none
            ∨ (Client.postXml { env with decode := Xml.decodeConf firstElement } req
              (confResponse.mk "" "" none [])).response.Xmsg = none) := by
  refine ⟨by decide, ?_, by decide, ?_⟩
  · intro unmarshal dest
    rfl
  · intro firstElement env req
    by_cases herr : (Client.postXml { env with decode := Xml.decodeConf firstElement } req
        (confResponse.mk "" "" none [])).err = none
    · exact Or.inr (postXml_conf_xmsg firstElement env req herr)
    · exact Or.inl herr

/-- C16: for every HTTP response whose status code is not 200, `postXml` returns an
error, does not read the body, does not run the decoder and leaves the destination as
it was; when the calls before the status check succeeded, the error is the status
error carrying the code. -/
theorem postXml_status_not_200 {ρ δ : Type} (env : PostXmlEnv ρ δ) (request : ρ)
    (response : δ) (h : env.doRequest.1.StatusCode ≠ 200) :
    (Client.postXml env request response).err ≠ none
      ∧ (Client.postXml env request response).read = none
      ∧ (Client.postXml env request response).decoded = false
      ∧ (Client.postXml env request response).response = response
      ∧ (env.getCsrfToken.2 = none → (env.marshal request).2 = none → env.newRequest = none →
          env.doRequest.2 = none →
          (Client.postXml env request response).err
            = some (GoError.errorfInt "XML post returned status code "
                env.doRequest.1.StatusCode)) := by
  unfold Client.postXml
  cases h1 : env.getCsrfToken.2 with
  | some e => simp
  | none =>
    cases h2 : (env.marshal request).2 with
    | some e => simp
    | none =>
      cases h3 : env.newRequest with
      | some e => simp
      | none =>
        cases h4 : env.doRequest.2 with
        | some e => simp
        | none => simp [h]

/-- Witness for C16: the statuses 500 and 204 with a well-formed body. -/
theorem postXml_status_not_200_witness :
    ((@Client.postXml Unit Nat
        ⟨("token", none), fun _ => ([], none), none, (⟨500, "<r/>".toList⟩, none), none,
          fun _ _ => (1, none)⟩ () 0).err
      = some (GoError.errorfInt "XML post returned status code " 500))
    ∧ ((@Client.postXml Unit Nat
        ⟨("token", none), fun _ => ([], none), none, (⟨204, "<r/>".toList⟩, none), none,
          fun _ _ => (1, none)⟩ () 0).response = 0) :=
  ⟨(@postXml_status_not_200 Unit Nat
      ⟨("token", none), fun _ => ([], none), none, (⟨500, "<r/>".toList⟩, none), none,
        fun _ _ => (1, none)⟩ () 0 (by decide)).2.2.2.2 rfl rfl rfl rfl,
    (@postXml_status_not_200 Unit Nat
      ⟨("token", none), fun _ => ([], none), none, (⟨204, "<r/>".toList⟩, none), none,
        fun _ _ => (1, none)⟩ () 0 (by decide)).2.2.2.1⟩

end Ruckusweb

namespace Ruckusweb

theorem postXmlPadded_data (n : Nat) :
    (("<r/>".toList ++ List.replicate n ' ').take (10 <<< 20)).take 4 = "<r/>".toList := by
  have hmin : min 4 (10 <<< 20) = 4 := by decide
  rw [List.take_take, hmin, List.take_append_of_le_length (by decide)]
  rfl

theorem postXmlPadded_result (n : Nat) :
    (Client.postXml (postXmlPadded n) () false).err = none
      ∧ (Client.postXml (postXmlPadded n) () false).response = true := by
  have h := postXmlPadded_data n
  simp only [Client.postXml, postXmlPadded, ne_eq, not_true_eq_false, if_false, h, if_true,
    and_self]

/-- C17 (as stated, refuted): a status-200 body made of the element `<r/>` followed by
`10 * 2^20` blanks is longer than 10 MiB, and `postXml` returns without error with the
destination decoded: only the first `10 << 20` bytes are read, and the decoder finds a
complete element at their front. -/
theorem postXml_oversized_counterexample :
    (postXmlPadded (10 * 2 ^ 20)).doRequest.1.StatusCode = 200
      ∧ (postXmlPadded (10 * 2 ^ 20)).doRequest.1.Body.length > 10 * 2 ^ 20
      ∧ (Client.postXml (postXmlPadded (10 * 2 ^ 20)) () false).err = none
      ∧ (Client.postXml (postXmlPadded (10 * 2 ^ 20)) () false).response = true := by
  refine ⟨rfl, ?_, (postXmlPadded_result _).1, (postXmlPadded_result _).2⟩
  show ("<r/>".toList ++ List.replicate (10 * 2 ^ 20) ' ').length > 10 * 2 ^ 20
  rw [List.length_append, List.length_replicate]
  have : "<r/>".toList.length = 4 := rfl
  omega

/-- C17 (amended): for every status-200 response reached without an earlier error
and read without a read error, `postXml` reads exactly the first `10 * 2^20` bytes of
the body (all of it when it is shorter) and returns what the decoder returns on these
bytes: a longer body is cut, not rejected, and the call fails only if the decoder
rejects the prefix. -/
theorem postXml_reads_prefix {ρ δ : Type} (env : PostXmlEnv ρ δ) (request : ρ) (response : δ)
    (h1 : env.getCsrfToken.2 = none) (h2 : (env.marshal request).2 = none)
    (h3 : env.newRequest = none) (h4 : env.doRequest.2 = none)
    (h200 : env.doRequest.1.StatusCode = 200) (h5 : env.readAll = none) :
    (Client.postXml env request response).read
        = some (env.doRequest.1.Body.take (10 * 2 ^ 20))
      ∧ (env.doRequest.1.Body.take (10 * 2 ^ 20)).length ≤ 10 * 2 ^ 20
      ∧ (Client.postXml env request response).decoded = true
      ∧ (Client.postXml env request response).response
          = (env.decode (env.doRequest.1.Body.take (10 * 2 ^ 20)) response).1
      ∧ (Client.postXml env request response).err
          = (env.decode (env.doRequest.1.Body.take (10 * 2 ^ 20)) response).2 := by
  have hs : 10 <<< 20 = 10 * 2 ^ 20 := by decide
  refine ⟨?_, ?_, ?_, ?_, ?_⟩
  · simp only [Client.postXml, h1, h2, h3, h4, h200, h5, hs, ne_eq, not_true_eq_false, if_false]
  · rw [List.length_take]
    exact Nat.min_le_left _ _
  · simp only [Client.postXml, h1, h2, h3, h4, h200, h5, ne_eq, not_true_eq_false, if_false]
  · simp only [Client.postXml, h1, h2, h3, h4, h200, h5, hs, ne_eq, not_true_eq_false, if_false]
  · simp only [Client.postXml, h1, h2, h3, h4, h200, h5, hs, ne_eq, not_true_eq_false, if_false]

/-- Witness for C17 (amended): the element `<r/>` followed by three blanks. -/
theorem postXml_reads_prefix_witness :
    (Client.postXml (postXmlPadded 3) () false).read
        = some ((postXmlPadded 3).doRequest.1.Body.take (10 * 2 ^ 20))
      ∧ ((postXmlPadded 3).doRequest.1.Body.take (10 * 2 ^ 20)).length ≤ 10 * 2 ^ 20
      ∧ (Client.postXml (postXmlPadded 3) () false).decoded = true
      ∧ (Client.postXml (postXmlPadded 3) () false).response
          = ((postXmlPadded 3).decode
              ((postXmlPadded 3).doRequest.1.Body.take (10 * 2 ^ 20)) false).1
      ∧ (Client.postXml (postXmlPadded 3) () false).err
          = ((postXmlPadded 3).decode
              ((postXmlPadded 3).doRequest.1.Body.take (10 * 2 ^ 20)) false).2 :=
  postXml_reads_prefix (postXmlPadded 3) () false rfl rfl rfl rfl rfl rfl

end Ruckusweb

namespace Ruckusweb

/-! ## Login -/

theorem Node.size_eq (n : Node) : n.size = 1 + Node.sizeList n.children := by
  cases n with
  | mk t d a c => simp [Node.size, Node.children]

theorem Node.sizeList_append (a b : List Node) :
    Node.sizeList (a ++ b) = Node.sizeList a + Node.sizeList b := by
  induction a with
  | nil => simp [Node.sizeList]
  | cons x xs ih =>
    rw [List.cons_append, Node.sizeList, Node.sizeList, ih]
    omega

/-- The search loop never runs out of fuel when the fuel is the number of nodes in
the queue and below it. -/
theorem bfsLoop_isSome (fuel : Nat) (queue : List Node) (h : Node.sizeList queue ≤ fuel) :
    ∃ v, bfsLoop fuel queue = some v := by
  induction fuel generalizing queue with
  | zero =>
    cases queue with
    | nil => exact ⟨Visit.next, rfl⟩
    | cons n ns =>
      simp only [Node.sizeList] at h
      have := Node.size_eq n
      omega
  | succ f ih =>
    cases queue with
    | nil => exact ⟨Visit.next, rfl⟩
    | cons n ns =>
      rw [bfsLoop]
      cases hv : visit n with
      | script t => exact ⟨_, rfl⟩
      | authFailed t => exact ⟨_, rfl⟩
      | next =>
        apply ih
        rw [Node.sizeList_append]
        simp only [Node.sizeList] at h
        have := Node.size_eq n
        omega

/-- The last attribute of a name, on a list with one more attribute at the end. -/
theorem Node.attrValue_snoc (t : NodeType) (d : String) (init : List Attribute) (a : Attribute)
    (ch : List Node) (key : String) :
    (Node.mk t d (init ++ [a]) ch).attrValue key
      = if a.Key = key then a.Val else (Node.mk t d init ch).attrValue key := by
  unfold Node.attrValue
  simp only [Node.Attr, List.reverse_append, List.reverse_cons, List.reverse_nil,
    List.nil_append, List.singleton_append, List.find?_cons]
  by_cases h : a.Key = key
  · simp [h]
  · simp [h]

/-- The attribute loop of the search reads the last `http-equiv` and the last
`content` attribute of the element. -/
theorem metaAttrs_eq (t : NodeType) (d : String) (attrs : List Attribute) (ch : List Node) :
    metaAttrs attrs = ((Node.mk t d attrs ch).attrValue "http-equiv",
      (Node.mk t d attrs ch).attrValue "content") := by
  induction attrs using List.reverseRecOn with
  | nil => rfl
  | append_singleton init a ih =>
    rw [Node.attrValue_snoc, Node.attrValue_snoc]
    have hstep : metaAttrs (init ++ [a])
        = (if a.Key = "http-equiv" then (a.Val, (metaAttrs init).2)
           else if a.Key = "content" then ((metaAttrs init).1, a.Val)
           else metaAttrs init) := by
      unfold metaAttrs
      rw [List.foldl_append]
      rfl
    rw [hstep, ih]
    by_cases h1 : a.Key = "http-equiv"
    · have h2 : a.Key ≠ "content" := by
        rw [h1]
        decide
      rw [if_pos h1, if_pos h1, if_neg h2]
    · rw [if_neg h1, if_neg h1]
      by_cases h2 : a.Key = "content"
      · rw [if_pos h2, if_pos h2]
      · rw [if_neg h2, if_neg h2]

theorem metaAttrs_node (n : Node) :
    metaAttrs n.Attr = (n.attrValue "http-equiv", n.attrValue "content") := by
  cases n with
  | mk t d attrs ch => exact metaAttrs_eq t d attrs ch

theorem visit_next_of_not (n : Node) (h1 : ¬ n.isScript) (h2 : ¬ n.isAuthMeta) :
    visit n = Visit.next := by
  unfold Node.isScript at h1
  unfold Node.isAuthMeta at h2
  unfold visit
  rw [metaAttrs_node]
  dsimp only
  rw [if_neg h1, if_neg h2]

theorem visit_isScript (n : Node) (h : n.isScript) : visit n = Visit.script (scriptText n) := by
  unfold Node.isScript at h
  unfold visit
  rw [if_pos h]

theorem visit_isAuthMeta (n : Node) (h : n.isAuthMeta) :
    visit n = Visit.authFailed (n.attrValue "content") := by
  unfold Node.isAuthMeta at h
  have hns : ¬ (n.Type_ = NodeType.ElementNode ∧ n.Data = "script") := by
    intro hs
    have h1 := h.2.1
    rw [hs.2] at h1
    exact absurd h1 (by decide)
  unfold visit
  rw [metaAttrs_node]
  dsimp only
  rw [if_neg hns, if_pos h]

/-- The search loop stops at the first node, in breadth-first order, that is a script
element or an `X-Auth` meta element, with the outcome of that node. -/
theorem bfsLoop_first (pre : List Node) (m : Node) (post : List Node) (fuel : Nat)
    (queue : List Node) (horder : bfsOrder fuel queue = pre ++ m :: post)
    (hpre : ∀ n ∈ pre, visit n = Visit.next) (hm : visit m ≠ Visit.next) :
    bfsLoop fuel queue = some (visit m) := by
  induction pre generalizing fuel queue with
  | nil =>
    cases fuel with
    | zero => simp [bfsOrder] at horder
    | succ f =>
      cases queue with
      | nil => simp [bfsOrder] at horder
      | cons n ns =>
        simp only [bfsOrder, List.nil_append, List.cons.injEq] at horder
        obtain ⟨rfl, _⟩ := horder
        rw [bfsLoop]
        cases hv : visit n with
        | script t => rfl
        | authFailed t => rfl
        | next => exact absurd hv hm
  | cons p ps ih =>
    cases fuel with
    | zero => simp [bfsOrder] at horder
    | succ f =>
      cases queue with
      | nil => simp [bfsOrder] at horder
      | cons n ns =>
        simp only [bfsOrder, List.cons_append, List.cons.injEq] at horder
        obtain ⟨rfl, hrest⟩ := horder
        rw [bfsLoop, hpre n (by simp)]
        exact ih f _ hrest (fun k hk => hpre k (by simp [hk]))

/-- Every call of `doLogin` returns, and returns either a result and no error or no
result and an error. -/
theorem Client.doLogin_outcome (ex : LoginExchange) (c : Client) :
    ∃ c1 r err, Client.doLogin ex c = some (c1, r, err)
      ∧ ((∃ res, r = some res ∧ err = none) ∨ (r = none ∧ err ≠ none)) := by
  have hfin : ∀ (c0 : Client) (t : String), ∃ c1 r err, Client.finishLogin c0 t = (c1, r, err)
      ∧ ((∃ res, r = some res ∧ err = none) ∨ (r = none ∧ err ≠ none)) := by
    intro c0 t
    unfold Client.finishLogin
    split
    · exact ⟨_, _, _, rfl, Or.inr ⟨rfl, by simp⟩⟩
    · exact ⟨_, _, _, rfl, Or.inl ⟨_, rfl, rfl⟩⟩
  unfold Client.doLogin
  cases h1 : ex.postErr with
  | some e => exact ⟨_, _, _, rfl, Or.inr ⟨rfl, by simp⟩⟩
  | none =>
    cases h2 : ex.parseErr with
    | some e => exact ⟨_, _, _, rfl, Or.inr ⟨rfl, by simp⟩⟩
    | none =>
      obtain ⟨v, hv⟩ := bfsLoop_isSome ex.doc.size [ex.doc] (by simp [Node.sizeList])
      simp only [hv]
      cases v with
      | script t =>
        obtain ⟨c1, r, err, he, hr⟩ := hfin { c with host := ex.host, jar := ex.jar } t
        exact ⟨c1, r, err, by simp only [he], hr⟩
      | authFailed t => exact ⟨_, _, _, rfl, Or.inr ⟨rfl, by simp⟩⟩
      | next =>
        obtain ⟨c1, r, err, he, hr⟩ := hfin { c with host := ex.host, jar := ex.jar } ""
        exact ⟨c1, r, err, by simp only [he], hr⟩

end Ruckusweb

namespace Ruckusweb

/-- C18: `getCsrfToken` returns the stored token without calling `doLogin` when the
stored token is non-empty and the jar holds a cookie for the current host; in every
other state it calls `doLogin` once and returns that login's token with a nil error,
or the empty token with the login's error; it makes no login call iff the first case
holds. -/
theorem getCsrfToken_spec (ex : LoginExchange) (c : Client) :
    (c.loginResult.csrfToken ≠ "" ∧ c.jar c.host ≠ [] →
        Client.getCsrfToken ex c = some (c, c.loginResult.csrfToken, none, 0))
    ∧ (¬ (c.loginResult.csrfToken ≠ "" ∧ c.jar c.host ≠ []) →
        ∃ c1 r err, Client.doLogin ex c = some (c1, r, err)
          ∧ ((∃ res, r = some res ∧ err = none
                ∧ Client.getCsrfToken ex c = some (c1, res.csrfToken, none, 1))
            ∨ (r = none ∧ err ≠ none ∧ Client.getCsrfToken ex c = some (c1, "", err, 1))))
    ∧ ((∃ c1 t e, Client.getCsrfToken ex c = some (c1, t, e, 0))
        ↔ (c.loginResult.csrfToken ≠ "" ∧ c.jar c.host ≠ [])) := by
  have hcond : (c.loginResult.csrfToken ≠ "" ∧ (c.jar c.host).length > 0)
      ↔ (c.loginResult.csrfToken ≠ "" ∧ c.jar c.host ≠ []) := by
    rw [gt_iff_lt, List.length_pos]
  have hyes : (c.loginResult.csrfToken ≠ "" ∧ c.jar c.host ≠ []) →
      Client.getCsrfToken ex c = some (c, c.loginResult.csrfToken, none, 0) := by
    intro h
    unfold Client.getCsrfToken
    simp only
    rw [if_pos (hcond.mpr h)]
  have hno : ¬ (c.loginResult.csrfToken ≠ "" ∧ c.jar c.host ≠ []) →
      ∃ c1 r err, Client.doLogin ex c = some (c1, r, err)
        ∧ ((∃ res, r = some res ∧ err = none
              ∧ Client.getCsrfToken ex c = some (c1, res.csrfToken, none, 1))
          ∨ (r = none ∧ err ≠ none ∧ Client.getCsrfToken ex c = some (c1, "", err, 1))) := by
    intro h
    obtain ⟨c1, r, err, hlogin, hr⟩ := Client.doLogin_outcome ex c
    refine ⟨c1, r, err, hlogin, ?_⟩
    rcases hr with ⟨res, rfl, rfl⟩ | ⟨rfl, herr⟩
    · refine Or.inl ⟨res, rfl, rfl, ?_⟩
      unfold Client.getCsrfToken
      simp only
      rw [if_neg (fun hc => h (hcond.mp hc)), hlogin]
    · refine Or.inr ⟨rfl, herr, ?_⟩
      unfold Client.getCsrfToken
      simp only
      rw [if_neg (fun hc => h (hcond.mp hc)), hlogin]
  refine ⟨hyes, hno, ?_⟩
  constructor
  · rintro ⟨c1, t, e, hget⟩
    by_contra hc
    obtain ⟨c2, r, err, _, hr⟩ := hno hc
    rcases hr with ⟨res, _, _, h1⟩ | ⟨_, _, h1⟩
    · rw [h1] at hget
      simp at hget
    · rw [h1] at hget
      simp at hget
  · intro h
    exact ⟨_, _, _, hyes h⟩

/-- C19: when the page was fetched and parsed and the first node, in breadth-first
order, that is a script element or a meta element with `http-equiv="X-Auth"` is such a
meta element, `doLogin` returns no result and the error `login failed:` with the value
of the `content` attribute of that element, and the stored login result is the one
from before. -/
theorem doLogin_auth_failed (ex : LoginExchange) (c : Client) (pre post : List Node)
    (m : Node) (hpost : ex.postErr = none) (hparse : ex.parseErr = none)
    (horder : bfsOrder ex.doc.size [ex.doc] = pre ++ m :: post)
    (hpre : ∀ n ∈ pre, ¬ n.isScript ∧ ¬ n.isAuthMeta) (hm : m.isAuthMeta) :
    ∃ c1, Client.doLogin ex c = some (c1, none,
        some (GoError.errorfQuoted "login failed: " (m.attrValue "content").toList))
      ∧ c1.loginResult = c.loginResult := by
  have hloop := bfsLoop_first pre m post _ _ horder
    (fun n hn => visit_next_of_not n (hpre n hn).1 (hpre n hn).2)
    (by rw [visit_isAuthMeta m hm]; simp)
  rw [visit_isAuthMeta m hm] at hloop
  refine ⟨{ c with host := ex.host, jar := ex.jar }, ?_, rfl⟩
  unfold Client.doLogin
  simp only [hpost, hparse, hloop]

/-- Witness for C19: the page `authFailedPage`, whose meta element has the content
`Invalid login`, fetched by a client that holds an older login result. -/
theorem doLogin_auth_failed_witness :
    ∃ c1, Client.doLogin ⟨none, none, authFailedPage, "h", fun _ => []⟩
        ⟨"h", ⟨"u", "p"⟩, ⟨"admin", "1", "old"⟩, fun _ => []⟩
        = some (c1, none, some (GoError.errorfQuoted "login failed: " "Invalid login".toList))
      ∧ c1.loginResult = ⟨"admin", "1", "old"⟩ :=
  doLogin_auth_failed ⟨none, none, authFailedPage, "h", fun _ => []⟩
    ⟨"h", ⟨"u", "p"⟩, ⟨"admin", "1", "old"⟩, fun _ => []⟩
    [authFailedPage,
      Node.mk NodeType.ElementNode "html" []
        [Node.mk NodeType.ElementNode "head" []
          [Node.mk NodeType.ElementNode "meta"
            [⟨"", "http-equiv", "X-Auth"⟩, ⟨"", "content", "Invalid login"⟩] []],
         Node.mk NodeType.ElementNode "body" []
          [Node.mk NodeType.ElementNode "div" []
            [Node.mk NodeType.ElementNode "script" []
              [Node.mk NodeType.TextNode "var csfrToken = 'tok';" [] []]]]],
      Node.mk NodeType.ElementNode "head" []
        [Node.mk NodeType.ElementNode "meta"
          [⟨"", "http-equiv", "X-Auth"⟩, ⟨"", "content", "Invalid login"⟩] []],
      Node.mk NodeType.ElementNode "body" []
        [Node.mk NodeType.ElementNode "div" []
          [Node.mk NodeType.ElementNode "script" []
            [Node.mk NodeType.TextNode "var csfrToken = 'tok';" [] []]]]]
    [Node.mk NodeType.ElementNode "div" []
        [Node.mk NodeType.ElementNode "script" []
          [Node.mk NodeType.TextNode "var csfrToken = 'tok';" [] []]],
      Node.mk NodeType.ElementNode "script" []
        [Node.mk NodeType.TextNode "var csfrToken = 'tok';" [] []],
      Node.mk NodeType.TextNode "var csfrToken = 'tok';" [] []]
    (Node.mk NodeType.ElementNode "meta"
      [⟨"", "http-equiv", "X-Auth"⟩, ⟨"", "content", "Invalid login"⟩] [])
    rfl rfl rfl
    (by
      intro n hn
      simp only [List.mem_cons, List.mem_singleton, List.not_mem_nil, or_false] at hn
      rcases hn with rfl | rfl | rfl | rfl <;>
        exact ⟨fun h => absurd h.2 (by decide), fun h => absurd h.2.1 (by decide)⟩)
    ⟨rfl, rfl, by decide⟩

end Ruckusweb

namespace Ruckusweb

namespace Regexp

theorem stripLit_eq_some (lit s rest : List Char) :
    stripLit lit s = some rest ↔ s = lit ++ rest := by
  induction lit generalizing s with
  | nil =>
    cases s <;> simp [stripLit, eq_comm]
  | cons l ls ih =>
    cases s with
    | nil => simp [stripLit]
    | cons c cs =>
      rw [stripLit]
      by_cases h : l = c
      · subst h
        rw [if_pos rfl, ih]
        simp
      · rw [if_neg h]
        constructor
        · intro hn
          exact absurd hn (by simp)
        · intro hc
          simp only [List.cons_append, List.cons.injEq] at hc
          exact absurd hc.1.symm h

/-- The search from the largest index down finds the largest index that passes. -/
theorem find_reverse_range (P : Nat → Bool) (n : Nat) :
    (∀ k, (List.range (n + 1)).reverse.find? P = some k →
        P k = true ∧ k ≤ n ∧ ∀ j, k < j → j ≤ n → P j = false)
      ∧ ((List.range (n + 1)).reverse.find? P = none → ∀ j, j ≤ n → P j = false) := by
  induction n with
  | zero =>
    have e : (List.range (0 + 1)).reverse = [0] := rfl
    rw [e]
    cases h0 : P 0
    · simp only [List.find?_cons, h0, List.find?_nil]
      refine ⟨fun k hk => absurd hk (by simp), fun _ j hj => ?_⟩
      have : j = 0 := by omega
      rw [this, h0]
    · simp only [List.find?_cons, h0]
      refine ⟨fun k hk => ?_, fun hn => absurd hn (by simp)⟩
      have hk0 : k = 0 := by
        injection hk with hk
        exact hk.symm
      subst hk0
      exact ⟨h0, Nat.le_refl _, fun j h1 h2 => by omega⟩
  | succ n ih =>
    have e : (List.range (n + 1 + 1)).reverse = (n + 1) :: (List.range (n + 1)).reverse := by
      rw [List.range_succ, List.reverse_append]
      rfl
    rw [e]
    cases hn : P (n + 1)
    · simp only [List.find?_cons, hn]
      refine ⟨fun k hk => ?_, fun hnone j hj => ?_⟩
      · obtain ⟨h1, h2, h3⟩ := ih.1 k hk
        refine ⟨h1, by omega, fun j hj1 hj2 => ?_⟩
        by_cases hj : j = n + 1
        · rw [hj, hn]
        · exact h3 j hj1 (by omega)
      · by_cases hj1 : j = n + 1
        · rw [hj1, hn]
        · exact ih.2 hnone j (by omega)
    · simp only [List.find?_cons, hn]
      refine ⟨fun k hk => ?_, fun hnone => absurd hnone (by simp)⟩
      have hk0 : k = n + 1 := by
        injection hk with hk
        exact hk.symm
      subst hk0
      exact ⟨hn, Nat.le_refl _, fun j h1 h2 => by omega⟩

/-- A match at the start of `lit ++ rest`, read as an index into `rest`. -/
theorem MatchesAt_index (lit : List Char) (close : Char) (rest g : List Char)
    (h : MatchesAt lit close (lit ++ rest) g) :
    1 ≤ g.length ∧ g.length ≤ (rest.takeWhile (fun c => decide (c ≠ '"'))).length
      ∧ rest.get? g.length = some close ∧ g = rest.take g.length := by
  obtain ⟨hne, hq, post, hs⟩ := h
  have hrest : rest = g ++ close :: post := List.append_cancel_left hs
  refine ⟨?_, ?_, ?_, ?_⟩
  · cases g with
    | nil => exact absurd rfl hne
    | cons a as => simp
  · rw [hrest, List.takeWhile_append_of_pos]
    · simp
    · intro c hc
      simp only [ne_eq, decide_not, Bool.not_eq_eq_eq_not, Bool.not_true, decide_eq_false_iff_not]
      intro e
      rw [e] at hc
      exact hq hc
  · rw [hrest, List.get?_eq_getElem?, List.getElem?_append_right (Nat.le_refl _)]
    simp
  · rw [hrest]
    simp

/-- An index into `rest` that the search of `matchAt` accepts is a match at the start
of `lit ++ rest`. -/
theorem MatchesAt_of_index (lit : List Char) (close : Char) (rest : List Char) (k : Nat)
    (h1 : 1 ≤ k) (h2 : k ≤ (rest.takeWhile (fun c => decide (c ≠ '"'))).length)
    (h3 : rest.get? k = some close) :
    MatchesAt lit close (lit ++ rest) (rest.take k) ∧ (rest.take k).length = k := by
  have hlt : k < rest.length := by
    rw [List.get?_eq_getElem?] at h3
    exact (List.getElem?_eq_some_iff.mp h3).1
  have hlen : (rest.take k).length = k := by
    rw [List.length_take]
    omega
  refine ⟨⟨?_, ?_, rest.drop (k + 1), ?_⟩, hlen⟩
  · intro e
    rw [e] at hlen
    simp at hlen
    omega
  · intro hmem
    have hsplit : rest = rest.takeWhile (fun c => decide (c ≠ '"'))
        ++ rest.dropWhile (fun c => decide (c ≠ '"')) :=
      (List.takeWhile_append_dropWhile _ rest).symm
    have htake : rest.take k = (rest.takeWhile (fun c => decide (c ≠ '"'))).take k := by
      conv_lhs => rw [hsplit]
      exact List.take_append_of_le_length h2
    rw [htake] at hmem
    have := List.mem_takeWhile_imp (List.mem_of_mem_take hmem)
    simp at this
  · congr 1
    rw [List.get?_eq_getElem?] at h3
    obtain ⟨hk, hval⟩ := List.getElem?_eq_some_iff.mp h3
    have hd : rest.drop k = close :: rest.drop (k + 1) := by
      rw [← hval]
      exact List.drop_eq_getElem_cons hk
    rw [← hd]
    exact (List.take_append_drop k rest).symm

/-- What `matchAt` returns is a match at the start, with the longest group. -/
theorem matchAt_sound (lit : List Char) (close : Char) (s g : List Char)
    (h : matchAt lit close s = some g) :
    MatchesAt lit close s g ∧ ∀ g2, MatchesAt lit close s g2 → g2.length ≤ g.length := by
  unfold matchAt at h
  cases hs : stripLit lit s with
  | none =>
    rw [hs] at h
    exact absurd h (by simp)
  | some rest =>
    rw [hs] at h
    simp only at h
    have hsr : s = lit ++ rest := (stripLit_eq_some lit s rest).mp hs
    subst hsr
    cases hf : (List.range ((rest.takeWhile (fun c => decide (c ≠ '"'))).length + 1)).reverse.find?
        (fun k => decide (1 ≤ k) && decide (rest.get? k = some close)) with
    | none =>
      rw [hf] at h
      exact absurd h (by simp)
    | some k =>
      rw [hf] at h
      simp only [Option.some.injEq] at h
      subst h
      obtain ⟨hP, hle, hmax⟩ := (find_reverse_range _ _).1 k hf
      simp only [Bool.and_eq_true, decide_eq_true_eq] at hP
      obtain ⟨hm, hlen⟩ := MatchesAt_of_index lit close rest k hP.1 hle hP.2
      refine ⟨hm, fun g2 hg2 => ?_⟩
      rw [hlen]
      obtain ⟨i1, i2, i3, _⟩ := MatchesAt_index lit close rest g2 hg2
      by_contra hcon
      have := hmax g2.length (by omega) i2
      simp only [Bool.and_eq_false_imp, decide_eq_true_eq, decide_eq_false_iff_not] at this
      exact this i1 i3

/-- When `matchAt` returns nothing, the pattern does not match at the start. -/
theorem matchAt_complete (lit : List Char) (close : Char) (s : List Char)
    (h : matchAt lit close s = none) (g : List Char) : ¬ MatchesAt lit close s g := by
  intro hg
  have hg0 := hg
  obtain ⟨_, _, post, hs⟩ := hg
  unfold matchAt at h
  have hstrip : stripLit lit s = some (g ++ close :: post) :=
    (stripLit_eq_some lit s _).mpr hs
  rw [hstrip] at h
  simp only at h
  rw [hs] at hg0
  obtain ⟨i1, i2, i3, _⟩ := MatchesAt_index lit close _ g hg0
  cases hf : (List.range (((g ++ close :: post).takeWhile
      (fun c => decide (c ≠ '"'))).length + 1)).reverse.find?
        (fun k => decide (1 ≤ k) && decide ((g ++ close :: post).get? k = some close)) with
  | some k =>
    rw [hf] at h
    exact absurd h (by simp)
  | none =>
    have := (find_reverse_range _ _).2 hf g.length i2
    simp only [Bool.and_eq_false_imp, decide_eq_true_eq, decide_eq_false_iff_not] at this
    exact this i1 i3

/-- What `FindStringSubmatch` returns is the group of the leftmost match, the longest
one at that position. -/
theorem FindStringSubmatch_sound (lit : List Char) (close : Char) (s g : List Char)
    (h : FindStringSubmatch lit close s = some g) : IsSubmatch lit close s g := by
  induction s with
  | nil =>
    rw [FindStringSubmatch] at h
    obtain ⟨h1, h2⟩ := matchAt_sound lit close [] g h
    exact ⟨[], [], rfl, h1, h2, fun _ _ _ _ _ => Nat.zero_le _⟩
  | cons c cs ih =>
    rw [FindStringSubmatch] at h
    cases hm : matchAt lit close (c :: cs) with
    | some g1 =>
      rw [hm] at h
      simp only [Option.some.injEq] at h
      subst h
      obtain ⟨h1, h2⟩ := matchAt_sound lit close (c :: cs) g1 hm
      exact ⟨[], c :: cs, rfl, h1, h2, fun _ _ _ _ _ => Nat.zero_le _⟩
    | none =>
      rw [hm] at h
      simp only at h
      obtain ⟨pre, rest, hs, h1, h2, h3⟩ := ih h
      refine ⟨c :: pre, rest, by rw [hs]; rfl, h1, h2, ?_⟩
      intro pre2 rest2 g2 hs2 hg2
      cases pre2 with
      | nil =>
        simp only [List.nil_append] at hs2
        rw [← hs2] at hg2
        exact absurd hg2 (matchAt_complete lit close (c :: cs) hm g2)
      | cons a as =>
        simp only [List.cons_append, List.cons.injEq] at hs2
        have := h3 as rest2 g2 hs2.2 hg2
        simp only [List.length_cons]
        omega

/-- When `FindStringSubmatch` returns nothing, the pattern matches nowhere. -/
theorem FindStringSubmatch_complete (lit : List Char) (close : Char) (s : List Char)
    (h : FindStringSubmatch lit close s = none) : ¬ Matches lit close s := by
  induction s with
  | nil =>
    rw [FindStringSubmatch] at h
    rintro ⟨pre, rest, g, hs, hg⟩
    have hrest : rest = [] := by
      have := congrArg List.length hs
      simp only [List.length_nil, List.length_append] at this
      exact List.length_eq_zero.mp (by omega)
    rw [hrest] at hg
    exact matchAt_complete lit close [] h g hg
  | cons c cs ih =>
    rw [FindStringSubmatch] at h
    cases hm : matchAt lit close (c :: cs) with
    | some g1 =>
      rw [hm] at h
      exact absurd h (by simp)
    | none =>
      rw [hm] at h
      simp only at h
      rintro ⟨pre, rest, g, hs, hg⟩
      cases pre with
      | nil =>
        simp only [List.nil_append] at hs
        rw [← hs] at hg
        exact matchAt_complete lit close (c :: cs) hm g hg
      | cons a as =>
        simp only [List.cons_append, List.cons.injEq] at hs
        exact ih h ⟨as, rest, g, hs.2, hg⟩

/-- A field set from `FindStringSubmatch`, and left empty when there is no match, holds
the capture of the pattern if it matches and the empty string otherwise. -/
theorem Captured_of_find (lit : List Char) (close : Char) (s : List Char) :
    Captured lit close s (((FindStringSubmatch lit close s).map String.mk).getD "") := by
  cases h : FindStringSubmatch lit close s with
  | none =>
    refine ⟨fun hm => absurd hm (FindStringSubmatch_complete lit close s h), fun _ => rfl⟩
  | some g =>
    have hsub := FindStringSubmatch_sound lit close s g h
    refine ⟨fun _ => hsub, fun hn => ?_⟩
    obtain ⟨pre, rest, hs, hg, _⟩ := hsub
    exact absurd ⟨pre, rest, g, hs, hg⟩ hn

end Regexp

theorem Client.finishLogin_of_ne (c : Client) (scriptTag : String) (h : scriptTag ≠ "") :
    ∃ res : Ruckusweb.loginResult,
      Client.finishLogin c scriptTag = ({ c with loginResult := res }, some res, none)
      ∧ res.privilege = (rePrivilege scriptTag).getD ""
      ∧ res.version = (reFrameVersion scriptTag).getD ""
      ∧ res.csrfToken = (reCsfrToken scriptTag).getD "" := by
  unfold Client.finishLogin
  rw [if_neg h]
  cases rePrivilege scriptTag <;> cases reFrameVersion scriptTag <;>
    cases reCsfrToken scriptTag <;> exact ⟨_, rfl, rfl, rfl, rfl⟩

/-- C20: when the page was fetched and parsed, the first node, in breadth-first order,
that is a script element or an `X-Auth` meta element is a script element, and the text
of its text children is not empty, `doLogin` succeeds, returns a result and stores that
same result as a whole: each of `privilege`, `version` and `csrfToken` is the capture
of its own pattern in the script text if that pattern matches (the group of the
leftmost match, the longest at that position), and the empty string if it does not,
whatever the fields held before. -/
theorem doLogin_script (ex : LoginExchange) (c : Client) (pre post : List Node)
    (m : Node) (hpost : ex.postErr = none) (hparse : ex.parseErr = none)
    (horder : bfsOrder ex.doc.size [ex.doc] = pre ++ m :: post)
    (hpre : ∀ n ∈ pre, ¬ n.isScript ∧ ¬ n.isAuthMeta) (hm : m.isScript)
    (htext : scriptText m ≠ "") :
    ∃ (c1 : Client) (res : Ruckusweb.loginResult),
      Client.doLogin ex c = some (c1, some res, none)
      ∧ c1.loginResult = res
      ∧ Regexp.Captured "var privilege = \"".toList '"' (scriptText m).toList res.privilege
      ∧ Regexp.Captured "var frameVersion = \"".toList '"' (scriptText m).toList res.version
      ∧ Regexp.Captured "var csfrToken = '".toList (Char.ofNat 39) (scriptText m).toList
          res.csrfToken := by
  have hloop := bfsLoop_first pre m post _ _ horder
    (fun n hn => visit_next_of_not n (hpre n hn).1 (hpre n hn).2)
    (by rw [visit_isScript m hm]; simp)
  rw [visit_isScript m hm] at hloop
  obtain ⟨res, hfin, h1, h2, h3⟩ :=
    Client.finishLogin_of_ne { c with host := ex.host, jar := ex.jar } (scriptText m) htext
  refine ⟨{ c with host := ex.host, jar := ex.jar, loginResult := res }, res, ?_, rfl, ?_, ?_, ?_⟩
  · unfold Client.doLogin
    simp only [hpost, hparse, hloop, hfin]
  · rw [h1]
    exact Regexp.Captured_of_find _ _ _
  · rw [h2]
    exact Regexp.Captured_of_find _ _ _
  · rw [h3]
    exact Regexp.Captured_of_find _ _ _

/-- Witness for C20: the page `sessionPage`, whose script carries all three variables,
fetched by a client whose stored result has all three fields set: the result is
`admin`, `10.5`, `tok`. On the page `loggedInPage`, whose script has no frame version,
the stored version becomes empty. -/
theorem doLogin_script_witness :
    (∃ (c1 : Client) (res : Ruckusweb.loginResult),
      Client.doLogin ⟨none, none, sessionPage, "h", fun _ => ["cookie"]⟩
          ⟨"h", ⟨"u", "p"⟩, ⟨"guest", "9.9", "old"⟩, fun _ => []⟩
        = some (c1, some res, none)
      ∧ c1.loginResult = res
      ∧ Regexp.Captured "var privilege = \"".toList '"'
          "var privilege = \"admin\"; var frameVersion = \"10.5\"; var csfrToken = 'tok';".toList
          res.privilege
      ∧ Regexp.Captured "var frameVersion = \"".toList '"'
          "var privilege = \"admin\"; var frameVersion = \"10.5\"; var csfrToken = 'tok';".toList
          res.version
      ∧ Regexp.Captured "var csfrToken = '".toList (Char.ofNat 39)
          "var privilege = \"admin\"; var frameVersion = \"10.5\"; var csfrToken = 'tok';".toList
          res.csrfToken)
    ∧ (Client.doLogin ⟨none, none, sessionPage, "h", fun _ => ["cookie"]⟩
          ⟨"h", ⟨"u", "p"⟩, ⟨"guest", "9.9", "old"⟩, fun _ => []⟩).map
        (fun r => (r.1.loginResult, r.2))
        = some (⟨"admin", "10.5", "tok"⟩, some ⟨"admin", "10.5", "tok"⟩, none)
    ∧ (Client.doLogin ⟨none, none, loggedInPage, "h", fun _ => ["cookie"]⟩
          ⟨"h", ⟨"u", "p"⟩, ⟨"guest", "9.9", "old"⟩, fun _ => []⟩).map
        (fun r => (r.1.loginResult, r.2))
        = some (⟨"admin", "", "tok"⟩, some ⟨"admin", "", "tok"⟩, none) :=
  ⟨doLogin_script ⟨none, none, sessionPage, "h", fun _ => ["cookie"]⟩
    ⟨"h", ⟨"u", "p"⟩, ⟨"guest", "9.9", "old"⟩, fun _ => []⟩
    [sessionPage,
      Node.mk NodeType.ElementNode "html" []
        [Node.mk NodeType.ElementNode "head" []
          [Node.mk NodeType.ElementNode "script" []
            [Node.mk NodeType.TextNode
              "var privilege = \"admin\"; var frameVersion = \"10.5\"; var csfrToken = 'tok';"
              [] []]],
         Node.mk NodeType.ElementNode "body" [] []],
      Node.mk NodeType.ElementNode "head" []
        [Node.mk NodeType.ElementNode "script" []
          [Node.mk NodeType.TextNode
            "var privilege = \"admin\"; var frameVersion = \"10.5\"; var csfrToken = 'tok';"
            [] []]],
      Node.mk NodeType.ElementNode "body" [] []]
    [Node.mk NodeType.TextNode
      "var privilege = \"admin\"; var frameVersion = \"10.5\"; var csfrToken = 'tok';" [] []]
    (Node.mk NodeType.ElementNode "script" []
      [Node.mk NodeType.TextNode
        "var privilege = \"admin\"; var frameVersion = \"10.5\"; var csfrToken = 'tok';"
        [] []])
    rfl rfl rfl
    (by
      intro n hn
      simp only [List.mem_cons, List.mem_singleton, List.not_mem_nil, or_false] at hn
      rcases hn with rfl | rfl | rfl | rfl <;>
        exact ⟨fun h => absurd h.2 (by decide), fun h => absurd h.2.1 (by decide)⟩)
    ⟨rfl, rfl⟩ (by decide),
    by decide, by decide⟩

/-- The login of the witness for C20, evaluated: the privilege and the token are the
ones of the script, the version is empty. -/
theorem doLogin_script_evaluated :
    (Client.doLogin ⟨none, none, loggedInPage, "h", fun _ => ["cookie"]⟩
        ⟨"h", ⟨"u", "p"⟩, ⟨"guest", "9.9", "old"⟩, fun _ => []⟩).map
      (fun r => (r.1.loginResult, r.2))
      = some (⟨"admin", "", "tok"⟩, some ⟨"admin", "", "tok"⟩, none) := by
  decide

end Ruckusweb

namespace Ruckusweb

/-! ## Redirect policy -/

theorem Client.followRedirects_stops (targets : List String) (c : Client) (made : Nat)
    (hmade : made ≤ 10) (hlen : 10 - made < targets.length) :
    (Client.followRedirects c made targets).2.1
        = some (GoError.errorsNew "stopped after 10 redirects")
      ∧ (Client.followRedirects c made targets).2.2 = 10 - made := by
  induction targets generalizing c made with
  | nil => simp at hlen
  | cons t rest ih =>
    by_cases h10 : made = 10
    · subst h10
      simp [Client.followRedirects, Client.CheckRedirect]
    · have hlt : ¬ made ≥ 10 := by omega
      have hstep : Client.CheckRedirect c t made
          = ((if t ≠ c.host then { c with host := t } else c), none) := by
        simp only [Client.CheckRedirect, if_neg hlt]
      rw [Client.followRedirects, hstep]
      simp only
      obtain ⟨h1, h2⟩ := ih (if t ≠ c.host then { c with host := t } else c) (made + 1)
        (by omega) (by simp only [List.length_cons] at hlen; omega)
      exact ⟨h1, by rw [h2]; omega⟩

/-- C21: the redirect policy returns an error iff `via` holds at least 10 requests,
and then leaves the client, its host included, as it was; hence a chain of 11
redirects, followed from the original request, is stopped with the error at the 10th
redirect, after 9 redirects were followed. -/
theorem checkRedirect_bound (c : Client) (reqHost : String) (via : Nat)
    (targets : List String) :
    ((Client.CheckRedirect c reqHost via).2 ≠ none ↔ 10 ≤ via)
      ∧ ((Client.CheckRedirect c reqHost via).2 ≠ none →
          (Client.CheckRedirect c reqHost via).1 = c)
      ∧ (targets.length = 11 →
          (Client.followRedirects c 1 targets).2.1
              = some (GoError.errorsNew "stopped after 10 redirects")
            ∧ (Client.followRedirects c 1 targets).2.2 = 9) := by
  refine ⟨?_, ?_, ?_⟩
  · by_cases h : via ≥ 10
    · simp [Client.CheckRedirect, h]
    · simp only [Client.CheckRedirect, if_neg h]
      constructor
      · intro hne; exact absurd rfl hne
      · intro h10; exact absurd h10 h
  · by_cases h : via ≥ 10
    · intro _
      simp only [Client.CheckRedirect, if_pos h]
    · intro hne
      simp only [Client.CheckRedirect, if_neg h] at hne
      exact absurd rfl hne
  · intro hlen
    exact Client.followRedirects_stops targets c 1 (by omega) (by omega)

/-- C22: whenever the redirect policy accepts a redirect (fewer than 10 requests in
`via`), the stored host afterwards is the host of the redirect target, and the
credentials, the login result and the cookie jar are as before. -/
theorem checkRedirect_accepts (c : Client) (reqHost : String) (via : Nat) (h : via < 10) :
    (Client.CheckRedirect c reqHost via).2 = none
      ∧ (Client.CheckRedirect c reqHost via).1.host = reqHost
      ∧ (Client.CheckRedirect c reqHost via).1.credentials = c.credentials
      ∧ (Client.CheckRedirect c reqHost via).1.loginResult = c.loginResult
      ∧ (Client.CheckRedirect c reqHost via).1.jar = c.jar := by
  have hlt : ¬ via ≥ 10 := by omega
  simp only [Client.CheckRedirect, if_neg hlt]
  by_cases hh : reqHost = c.host
  · simp [hh]
  · simp [hh]

/-- Witness for C22: a redirect to another host after three requests. -/
theorem checkRedirect_accepts_witness :
    (Client.CheckRedirect (NewClient "a" ⟨"u", "p"⟩) "b" 3).2 = none
      ∧ (Client.CheckRedirect (NewClient "a" ⟨"u", "p"⟩) "b" 3).1.host = "b"
      ∧ (Client.CheckRedirect (NewClient "a" ⟨"u", "p"⟩) "b" 3).1.credentials
          = (NewClient "a" ⟨"u", "p"⟩).credentials
      ∧ (Client.CheckRedirect (NewClient "a" ⟨"u", "p"⟩) "b" 3).1.loginResult
          = (NewClient "a" ⟨"u", "p"⟩).loginResult
      ∧ (Client.CheckRedirect (NewClient "a" ⟨"u", "p"⟩) "b" 3).1.jar
          = (NewClient "a" ⟨"u", "p"⟩).jar :=
  checkRedirect_accepts (NewClient "a" ⟨"u", "p"⟩) "b" 3 (by decide)

/-! ## WLAN records -/

/-- C25: for every name, `NewWlan(name)` has `Name`, `Ssid` and `Description` equal to
the name. -/
theorem newWlan_names (name : String) :
    (NewWlan name).Name = name ∧ (NewWlan name).Ssid = name
      ∧ (NewWlan name).Description = name :=
  ⟨rfl, rfl, rfl⟩

theorem validPSK_of_length_64 (key : String) (p : List Char) (h : p.length = 64) :
    validPSK key p = some (GoError.errorsNew ("invalid " ++ key ++ ": too long")) := by
  unfold validPSK
  rw [if_neg (by omega), if_pos (Or.inr (by omega))]

/-- C23 (code evaluated at the failing input): a passphrase of 64 hexadecimal
characters is rejected as too long, as is every passphrase of 64 bytes: the test
`len(passphrase) > 63` holds for it whatever `reAllHex` says. A passphrase of 63
characters is accepted. -/
theorem validPSK_rejects_64_hex :
    validPSK "Passphrase"
        ("0123456789abcdef0123456789abcdef" ++ "0123456789abcdef0123456789abcdef").toList
      = some (GoError.errorsNew "invalid Passphrase: too long")
    ∧ reAllHexMatchString
        ("0123456789abcdef0123456789abcdef" ++ "0123456789abcdef0123456789abcdef").toList = true
    ∧ (∀ (key : String) (p : List Char), p.length = 64 → validPSK key p ≠ none)
    ∧ validPSK "Passphrase"
        ("0123456789abcdef0123456789abcdef" ++ "0123456789abcdef0123456789abcde").toList
      = none := by
  refine ⟨by decide, by decide, ?_, by decide⟩
  intro key p h
  rw [validPSK_of_length_64 key p h]
  simp

/-- C24 (code evaluated at the failing input): with `needsSAE` set, `validate` passes
`w.Passphrase` and `w.XPassphrase` to `validSAE`; a record with valid PSK passphrases
and empty SAE passphrases is accepted, and a record with valid SAE passphrases and
empty PSK passphrases is rejected although `needsPSK` is false. -/
theorem wlanWpa_validate_sae_fields :
    WlanWpa.validate ⟨"12345678".toList, "12345678".toList, "aes", [], [], false, "", ""⟩
        false true = none
    ∧ WlanWpa.validate ⟨[], [], "aes", "12345678".toList, "12345678".toList, false, "", ""⟩
        false true = some (GoError.errorsNew "invalid SaePassphrase: too short")
    ∧ validSAE "SaePassphrase" [] = some (GoError.errorsNew "invalid SaePassphrase: too short")
    ∧ validSAE "SaePassphrase" "12345678".toList = none := by
  refine ⟨by decide, by decide, by decide, by decide⟩

end Ruckusweb

namespace Ruckusweb

/-! ## Time series: the 15-byte window -/

/-- The comma search fails exactly when there is no comma among the first `limit`
bytes of the text. -/
theorem cutComma_eq_none_iff (limit : Nat) (text : List Char) :
    cutComma limit text = none ↔ ',' ∉ text.take limit := by
  induction text generalizing limit with
  | nil => cases limit <;> simp [cutComma]
  | cons c cs ih =>
    cases limit with
    | zero => simp [cutComma]
    | succ l =>
      rw [cutComma]
      by_cases hc : c = ','
      · subst hc
        simp
      · rw [if_neg hc]
        have := ih l
        simp only [List.take_succ_cons, List.mem_cons, not_or, Option.map_eq_none']
        constructor
        · intro h
          exact ⟨fun e => hc e.symm, this.mp h⟩
        · intro h
          exact this.mpr h.2

/-- C26: for every byte time series in which every time is an `int64` whose numeral,
sign included, has at most 14 characters, every count is a `uint64`, and every count
but the last is below `10^14`, decoding the text written by `MarshalText` into an
empty series succeeds and yields the series; and the comma search finds no comma
exactly when there is none among the first 15 bytes of the remaining text. -/
theorem byteTimeSeries_roundtrip_short_numerals (S : ByteTimeSeries)
    (hAt : ∀ r ∈ S, -(2 ^ 63) ≤ r.At ∧ r.At < 2 ^ 63
      ∧ (Strconv.AppendInt [] r.At 10).length ≤ 14)
    (hB : ∀ r ∈ S, r.Bytes < 2 ^ 64)
    (hInner : ∀ r ∈ S.dropLast, r.Bytes < 10 ^ 14) :
    ByteTimeSeries.UnmarshalText [] (ByteTimeSeries.MarshalText S).1 = some (S, none)
      ∧ (∀ text, cutComma 15 text = none ↔ ',' ∉ text.take 15) := by
  refine ⟨?_, cutComma_eq_none_iff 15⟩
  have h := ByteTimeSeries.roundtrip_of_short S [] hAt hB
    (fun r hr => Strconv.AppendUint_length r.Bytes 13 (hInner r hr))
  simpa using h

/-- Witness for C26: a time of 14 characters with its sign, and a last count of 20
digits. -/
theorem byteTimeSeries_roundtrip_short_numerals_witness :
    ByteTimeSeries.UnmarshalText []
        (ByteTimeSeries.MarshalText
          [⟨-1234567890123, 99999999999999⟩, ⟨0, 18446744073709551615⟩]).1
      = some ([⟨-1234567890123, 99999999999999⟩, ⟨0, 18446744073709551615⟩], none)
    ∧ (∀ text, cutComma 15 text = none ↔ ',' ∉ text.take 15) :=
  byteTimeSeries_roundtrip_short_numerals
    [⟨-1234567890123, 99999999999999⟩, ⟨0, 18446744073709551615⟩]
    (by decide) (by decide) (by decide)

/-! ## Weekly schedule: more than 28 words -/

set_option maxRecDepth 100000 in
/-- C29: `UnmarshalXML` returns an error for every value text that splits on `:` into
more than 28 words, and returns no error only for texts that split into exactly 28
words; the text of 29 words `0x0` is rejected although each word is valid. -/
theorem wlanSchedule_exactly_28_words (s : WlanSchedule) (text : List Char) :
    ((Bytes.Split text ':').length > 28 → (WlanSchedule.UnmarshalXML s (some text)).2 ≠ none)
      ∧ ((WlanSchedule.UnmarshalXML s (some text)).2 = none
          → (Bytes.Split text ':').length = 28)
      ∧ (WlanSchedule.UnmarshalXML (fun _ _ => false)
          (some ("0x0:0x0:0x0:0x0:0x0:0x0:0x0:0x0:0x0:0x0:0x0:0x0:0x0:0x0:0x0:" ++
            "0x0:0x0:0x0:0x0:0x0:0x0:0x0:0x0:0x0:0x0:0x0:0x0:0x0:0x0").toList)).2 ≠ none := by
  have hsplit : Bytes.SplitN text ':' 28 = Bytes.genSplitLoop ':' 27 text :=
    Bytes.SplitN_succ text ':' 27
  have hlen := Bytes.Split_length text ':'
  have hmore : (Bytes.Split text ':').length > 28 →
      (WlanSchedule.UnmarshalXML s (some text)).2 ≠ none := by
    intro h
    apply WlanSchedule.UnmarshalXML_of_rejected
    rw [hsplit]
    obtain ⟨w, hw, hsep⟩ := Bytes.genSplitLoop_sep_left ':' 27 text (by omega)
    exact ⟨w, hw, WlanSchedule.rejected_of_colon w hsep⟩
  have hfewer : (Bytes.Split text ':').length < 28 →
      (WlanSchedule.UnmarshalXML s (some text)).2 ≠ none := by
    intro h
    apply WlanSchedule.UnmarshalXML_of_short
    rw [hsplit, Bytes.genSplitLoop_eq_Split ':' 27 text (by omega)]
    exact h
  refine ⟨hmore, ?_, by decide⟩
  intro hok
  by_contra hne
  rcases Nat.lt_or_gt_of_ne hne with h | h
  · exact hfewer h hok
  · exact hmore h hok

/-! ## Login: the token pattern -/

/-- C30 (code evaluated at the failing input): for the script text
`var csfrToken = 'tok'; var a = 'b';` the group of `reCsfrToken` runs on to the last
single quote before the next double quote, and the login stores
`tok'; var a = 'b` as the token instead of `tok`; when no further single quote
follows, the token is `tok`. -/
theorem reCsfrToken_greedy :
    reCsfrToken "var csfrToken = 'tok'; var a = 'b';" = some "tok'; var a = 'b"
      ∧ (Client.finishLogin (NewClient "h" ⟨"u", "p"⟩)
          "var csfrToken = 'tok'; var a = 'b';").1.loginResult.csrfToken
        = "tok'; var a = 'b"
      ∧ reCsfrToken "var csfrToken = 'tok'; var a = \"b\";" = some "tok"
      ∧ rePrivilege "var privilege = \"admin\"; var a = \"b\";" = some "admin" := by
  refine ⟨by decide, by decide, by decide, by decide⟩

end Ruckusweb

namespace Ruckusweb

/-! ## Decimal numerals and `ParseUint` -/

theorem decimalValueFrom_cons (n : Nat) (c : Char) (cs : List Char) :
    decimalValueFrom n (c :: cs) = decimalValueFrom (n * 10 + (c.toNat - 48)) cs :=
  rfl

theorem decimalValueFrom_ge (s : List Char) (n : Nat) : n ≤ decimalValueFrom n s := by
  induction s generalizing n with
  | nil => exact Nat.le_refl n
  | cons c cs ih =>
    rw [decimalValueFrom_cons]
    have := ih (n * 10 + (c.toNat - 48))
    omega

namespace Strconv

/-- On decimal digits `ParseUint` returns the value when it fits 64 bits, and
`2^64 - 1` with a range error when it does not. -/
theorem parseUintLoop_digits (s : List Char) (n : Nat)
    (hs : ∀ c ∈ s, 48 ≤ c.toNat ∧ c.toNat ≤ 57) (hn : n < 2 ^ 64) :
    parseUintLoop 10 ((2 ^ 64 - 1) / 10 + 1) (2 ^ 64 - 1) s n
      = if decimalValueFrom n s < 2 ^ 64 then (decimalValueFrom n s, none)
        else (2 ^ 64 - 1, some GoError.outOfRange) := by
  induction s generalizing n with
  | nil =>
    have e : decimalValueFrom n [] = n := rfl
    rw [parseUintLoop, e, if_pos hn]
  | cons c cs ih =>
    have hc := hs c (by simp)
    have hge := decimalValueFrom_ge cs (n * 10 + (c.toNat - 48))
    rw [parseUintLoop, digitVal_of_digit c hc, decimalValueFrom_cons]
    simp only
    rw [if_neg (by omega)]
    by_cases hcut : n ≥ (2 ^ 64 - 1) / 10 + 1
    · rw [if_pos hcut, if_neg (by omega)]
    · rw [if_neg hcut]
      have e1 : (n * 10) % 2 ^ 64 = n * 10 := Nat.mod_eq_of_lt (by omega)
      rw [e1]
      by_cases hfit : n * 10 + (c.toNat - 48) < 2 ^ 64
      · have e2 : (n * 10 + (c.toNat - 48)) % 2 ^ 64 = n * 10 + (c.toNat - 48) :=
          Nat.mod_eq_of_lt hfit
        rw [e2, if_neg (by omega)]
        exact ih (n * 10 + (c.toNat - 48)) (fun d hd => hs d (by simp [hd])) hfit
      · have e2 : (n * 10 + (c.toNat - 48)) % 2 ^ 64 = n * 10 + (c.toNat - 48) - 2 ^ 64 := by
          omega
        rw [e2, if_pos (Or.inl (by omega)), if_neg (by omega)]

theorem parseUintLoop_non_digit (c : Char) (rest : List Char) (n : Nat)
    (hc : ¬ (48 ≤ c.toNat ∧ c.toNat ≤ 57)) :
    parseUintLoop 10 ((2 ^ 64 - 1) / 10 + 1) (2 ^ 64 - 1) (c :: rest) n
      = (0, some GoError.invalidNumber) := by
  rw [parseUintLoop]
  unfold digitVal
  rw [if_neg hc]
  split
  · rfl
  · rename_i d heq
    have hd : d ≥ 10 := by
      split at heq
      · injection heq with heq
        omega
      · exact absurd heq (by simp)
    rw [if_pos hd]

end Strconv

theorem digitRun_digits (s : List Char) : ∀ c ∈ digitRun s, 48 ≤ c.toNat ∧ c.toNat ≤ 57 := by
  intro c hc
  have := List.mem_takeWhile_imp hc
  simpa using this

theorem digitRun_split (s : List Char) (h : digitRun s ≠ s) :
    ∃ c rest, s = digitRun s ++ c :: rest ∧ ¬ (48 ≤ c.toNat ∧ c.toNat ≤ 57) := by
  induction s with
  | nil => exact absurd rfl h
  | cons a as ih =>
    by_cases ha : 48 ≤ a.toNat ∧ a.toNat ≤ 57
    · have e : digitRun (a :: as) = a :: digitRun as := by
        simp [digitRun, List.takeWhile_cons, ha]
      rw [e] at h ⊢
      obtain ⟨c, rest, hs, hc⟩ := ih (fun hh => h (by rw [hh]))
      exact ⟨c, rest, by rw [List.cons_append, ← hs], hc⟩
    · have e : digitRun (a :: as) = [] := by
        simp [digitRun, List.takeWhile_cons, ha]
      rw [e]
      exact ⟨a, as, rfl, ha⟩

/-- The value that `ParseUint(X, 10, 64)` returns for any text `X`, error or not:
`2^64 - 1` when the leading digits of `X` exceed 64 bits, the value of `X` when `X` is
a decimal numeral that fits, and 0 otherwise. -/
theorem Strconv.ParseUint_value (X : List Char) :
    (Strconv.ParseUint X 10 64).1
      = if 2 ^ 64 ≤ decimalValue (digitRun X) then 2 ^ 64 - 1
        else if digitRun X = X ∧ X ≠ [] then decimalValue X
        else 0 := by
  by_cases hnil : X = []
  · subst hnil
    decide
  · rw [Strconv.ParseUint, if_neg hnil]
    by_cases hall : digitRun X = X
    · have hd := digitRun_digits X
      rw [hall] at hd
      rw [hall, Strconv.parseUintLoop_digits X 0 hd (by decide)]
      unfold decimalValue
      by_cases hfit : decimalValueFrom 0 X < 2 ^ 64
      · rw [if_pos hfit, if_neg (by omega), if_pos ⟨rfl, hnil⟩]
      · rw [if_neg hfit, if_pos (by omega)]
    · obtain ⟨c, rest, hs, hc⟩ := digitRun_split X hall
      have hsplit : Strconv.parseUintLoop 10 ((2 ^ 64 - 1) / 10 + 1) (2 ^ 64 - 1) X 0
          = Strconv.parseUintLoop 10 ((2 ^ 64 - 1) / 10 + 1) (2 ^ 64 - 1)
              (digitRun X ++ c :: rest) 0 := by
        rw [← hs]
      rw [hsplit, Strconv.parseUintLoop_append,
        Strconv.parseUintLoop_digits (digitRun X) 0 (digitRun_digits X) (by decide)]
      unfold decimalValue
      by_cases hfit : decimalValueFrom 0 (digitRun X) < 2 ^ 64
      · rw [if_pos hfit]
        simp only
        rw [Strconv.parseUintLoop_non_digit c rest _ hc, if_neg (by omega),
          if_neg (fun h => hall h.1)]
      · rw [if_neg hfit, if_pos (by omega)]

/-- A decimal token of at most 14 digits parses to its value. -/
theorem Strconv.ParseUint_decimalValue (t : List Char) (h : isDecimal t = true)
    (hl : t.length ≤ 14) :
    Strconv.ParseUint t 10 64 = (decimalValue t, none) ∧ decimalValue t < 10 ^ 14 := by
  obtain ⟨v, hv, hlt⟩ := Strconv.ParseUint_decimal t h hl
  have hval : (Strconv.ParseUint t 10 64).1 = decimalValue t := by
    have hdigits : Strconv.parseUintLoop 10 ((2 ^ 64 - 1) / 10 + 1) (2 ^ 64 - 1) t 0
        = if decimalValueFrom 0 t < 2 ^ 64 then (decimalValueFrom 0 t, none)
          else (2 ^ 64 - 1, some GoError.outOfRange) :=
      Strconv.parseUintLoop_digits t 0 (isDecimal_mem t h) (by decide)
    have hp : Strconv.ParseUint t 10 64
        = Strconv.parseUintLoop 10 ((2 ^ 64 - 1) / 10 + 1) (2 ^ 64 - 1) t 0 := by
      rw [Strconv.ParseUint, if_neg (isDecimal_ne_nil t h)]
    rw [hp, hdigits] at hv ⊢
    by_cases hfit : decimalValueFrom 0 t < 2 ^ 64
    · rw [if_pos hfit]
      rfl
    · rw [if_neg hfit] at hv
      simp at hv
  rw [hv] at hval
  simp only at hval
  subst hval
  exact ⟨hv, hlt⟩

end Ruckusweb

namespace Ruckusweb

/-! ## Byte time series: the count token -/

/-- The last round of the loop when no comma is found in the window after the time
token: the whole rest is the count token, and its parse error is dropped. -/
theorem ByteTimeSeries.unmarshalLoop_rest (fuel : Nat) (ts : ByteTimeSeries)
    (t x : List Char) (ht : ',' ∉ t) (htl : t.length ≤ 14)
    (hp : (Strconv.ParseInt t 10 64).2 = none) (hx : cutComma 15 x = none) :
    ByteTimeSeries.unmarshalLoop (fuel + 1) ts (t ++ ',' :: x)
      = some (ts ++ [ByteTimeSeriesRecord.mk (Strconv.ParseInt t 10 64).1
          (Strconv.ParseUint x 10 64).1], none) := by
  have hpe : Strconv.ParseInt t 10 64 = ((Strconv.ParseInt t 10 64).1, none) :=
    Prod.ext rfl hp
  rw [ByteTimeSeries.unmarshalLoop, if_pos (by simp), cutComma_found 15 t _ ht (by omega)]
  simp only
  rw [hpe]
  simp only
  rw [hx]
  exact ByteTimeSeries.unmarshalLoop_nil _ _

/-- C27 as stated fails: the count token `99999999999999999999x` is not a decimal
numeral, yet the record gets `2^64 - 1` and not 0, because `ParseUint` reports the
overflow at the twentieth digit, before it reaches the `x`. -/
theorem byteTimeSeries_count_token_counterexample :
    ByteTimeSeries.UnmarshalText [] "1,99999999999999999999x".toList
        = some ([⟨1, 18446744073709551615⟩], none)
      ∧ digitRun "99999999999999999999x".toList ≠ "99999999999999999999x".toList
      ∧ ',' ∉ ("99999999999999999999x".toList).take 15
      ∧ Strconv.ParseInt "1".toList 10 64 = (1, none) := by
  decide

/-- C27 (amended): `ByteTimeSeries.UnmarshalText` never fails because of the count
token. For every text `T,X` where `T` is a valid decimal integer of at most 14
characters and `X` is any text with no comma among its first 15 bytes, decoding
succeeds and appends exactly one record `(T, v)`, where `v` is `2^64 - 1` if the
leading decimal digits of `X` form a numeral that overflows 64 bits (whatever follows
them), the value of `X` if `X` is a decimal numeral that fits 64 bits, and 0 otherwise
(including empty `X`). -/
theorem byteTimeSeries_count_token (ts : ByteTimeSeries) (T X : List Char)
    (hT : (Strconv.ParseInt T 10 64).2 = none) (hTc : ',' ∉ T) (hTl : T.length ≤ 14)
    (hX : ',' ∉ X.take 15) :
    ByteTimeSeries.UnmarshalText ts (T ++ ',' :: X)
      = some (ts ++ [ByteTimeSeriesRecord.mk (Strconv.ParseInt T 10 64).1
          (if 2 ^ 64 ≤ decimalValue (digitRun X) then 2 ^ 64 - 1
           else if digitRun X = X ∧ X ≠ [] then decimalValue X
           else 0)], none) := by
  have hlen : (T ++ ',' :: X).length = (T.length + X.length) + 1 := by
    simp only [List.length_append, List.length_cons]
    omega
  rw [ByteTimeSeries.UnmarshalText, hlen,
    ByteTimeSeries.unmarshalLoop_rest _ ts T X hTc hTl hT ((cutComma_eq_none_iff 15 X).mpr hX),
    Strconv.ParseUint_value X]

/-- Witness for C27 (amended): a negative time of 14 characters and a count token of
21 bytes whose leading digits overflow. -/
theorem byteTimeSeries_count_token_witness :
    (Strconv.ParseInt "-1234567890123".toList 10 64).2 = none
      ∧ ByteTimeSeries.UnmarshalText [] ("-1234567890123".toList ++ ',' :: "99999999999999999999x".toList)
        = some ([] ++ [ByteTimeSeriesRecord.mk (Strconv.ParseInt "-1234567890123".toList 10 64).1
          (if 2 ^ 64 ≤ decimalValue (digitRun "99999999999999999999x".toList) then 2 ^ 64 - 1
           else if digitRun "99999999999999999999x".toList = "99999999999999999999x".toList
              ∧ "99999999999999999999x".toList ≠ [] then
             decimalValue "99999999999999999999x".toList
           else 0)], none) :=
  ⟨by decide,
    byteTimeSeries_count_token [] "-1234567890123".toList "99999999999999999999x".toList
      (by decide) (by decide) (by decide) (by decide)⟩

/-! ## Signal-quality time series: counts are reduced modulo `2^32` -/

/-- C28: `RssiTimeSeries.UnmarshalText` reduces each count modulo `2^32` without
reporting an error. For every complete group `t,e,m,p` of unsigned decimal numerals
of at most 14 digits, decoding succeeds with no error and appends one record whose
time is `t` and whose Excellent, Moderate and Poor are `e mod 2^32`, `m mod 2^32` and
`p mod 2^32`. -/
theorem rssiTimeSeries_counts_mod (ts : RssiTimeSeries) (t e m p : List Char)
    (ht : isDecimal t = true ∧ t.length ≤ 14) (he : isDecimal e = true ∧ e.length ≤ 14)
    (hm : isDecimal m = true ∧ m.length ≤ 14) (hp : isDecimal p = true ∧ p.length ≤ 14) :
    RssiTimeSeries.UnmarshalText ts (t ++ ',' :: (e ++ ',' :: (m ++ ',' :: p)))
      = some (ts ++ [RssiTimeSeriesRecord.mk (decimalValue t : Int)
          (decimalValue e % 2 ^ 32) (decimalValue m % 2 ^ 32) (decimalValue p % 2 ^ 32)],
          none) := by
  have hall : ∀ x ∈ [t, e, m, p], isDecimal x = true ∧ x.length ≤ 14 := by
    intro x hx
    simp only [List.mem_cons, List.mem_singleton, List.not_mem_nil, or_false] at hx
    rcases hx with rfl | rfl | rfl | rfl
    · exact ht
    · exact he
    · exact hm
    · exact hp
  have hjoin : joinComma [t, e, m, p] = t ++ ',' :: (e ++ ',' :: (m ++ ',' :: p)) := rfl
  have h := RssiTimeSeries.unmarshalLoop_tokens [t, e, m, p]
    (joinComma [t, e, m, p]).length ts hall (Nat.le_refl _)
  rw [hjoin] at h
  rw [RssiTimeSeries.UnmarshalText, h]
  obtain ⟨pt, vt⟩ := Strconv.ParseUint_decimalValue t ht.1 ht.2
  obtain ⟨pe, _⟩ := Strconv.ParseUint_decimalValue e he.1 he.2
  obtain ⟨pm, _⟩ := Strconv.ParseUint_decimalValue m hm.1 hm.2
  obtain ⟨pp, _⟩ := Strconv.ParseUint_decimalValue p hp.1 hp.2
  have hlen : [t, e, m, p].length % 4 = 0 := by simp
  rw [if_pos hlen]
  simp only [RssiTimeSeries.ofTokens, pt, pe, pm, pp]
  rw [Strconv.toInt64_of_lt (decimalValue t) (by omega)]

/-- Witness for C28: the text `1,4294967296,0,0` decodes to Excellent = 0. -/
theorem rssiTimeSeries_counts_mod_witness :
    RssiTimeSeries.UnmarshalText [] "1,4294967296,0,0".toList
      = some ([RssiTimeSeriesRecord.mk 1 0 0 0], none) :=
  rssiTimeSeries_counts_mod [] "1".toList "4294967296".toList "0".toList "0".toList
    (by decide) (by decide) (by decide) (by decide)

end Ruckusweb
